import Mathlib

/-!
# Grid path finder: A*, FIFO "dijkstra" and breadth-first search

A shallow embedding of `src/AStarSimulation.cpp` (class `PathFinder`) and a
verification of its search core.

Modelling conventions.

* `Node* m_nodes` is the list of the nodes of the array; a `Node*` is the
  index of the node it points to, `nullptr` is `none`.
* `float` values.  `INFINITY` is `none`.  A finite `m_localGoal` is a sum of
  edge lengths `sqrtf(1) = 1`, so it is a natural number (exact in `float`
  below `2^24`).  A finite `m_globalGoal` is `m_localGoal + sqrtf(d)` with `d`
  an integer; it is kept as the exact pair `(m_localGoal, d)` and compared as
  a real number.
* `int` coordinates and indices are unbounded naturals (the map is far
  smaller than `2^31` cells).
* `std::queue` is a list (push at the back, front is the head).
  `std::priority_queue` is a list of its elements together with a function
  `top` that returns one of them.  The results about `AStar` hold for every
  such function unless they say otherwise: `AStar` lowers `m_globalGoal` of
  queued nodes in place, so `top()` need not be an element of least
  `m_globalGoal`.
* Loops that have no syntactic bound take a fuel argument; the fuel passed
  by the entry points is shown to be enough.
-/

namespace PathFinder

/-- Exact value of a finite `m_globalGoal`: `whole + sqrtf(rad)`. -/
structure GoalValue where
  whole : Nat
  rad : Nat
deriving DecidableEq, Repr

/-- The node record `struct Node`. -/
structure Node where
  m_bObstacle : Bool
  m_bVisited : Bool
  m_globalGoal : Option GoalValue
  m_localGoal : Option Nat
  m_x : Nat
  m_y : Nat
  m_parent : Option Nat
  m_nodeNeighbors : List Nat

/-- The integer under the `sqrtf` of `Node::getDistanceToNode`:
`(m_x - o.m_x) * (m_x - o.m_x) + (m_y - o.m_y) * (m_y - o.m_y)`. -/
def Node.sqDistanceToNode (a o : Node) : Nat :=
  (((a.m_x : Int) - o.m_x) * ((a.m_x : Int) - o.m_x)
    + ((a.m_y : Int) - o.m_y) * ((a.m_y : Int) - o.m_y)).toNat

/-- `Node::getDistanceToNode` between a node and one of its neighbours, an edge
length: `sqrtf` of the squared distance (`sqrtf(1) = 1` on the grid). -/
def Node.getDistanceToNode (a o : Node) : Nat :=
  Nat.sqrt (a.sqDistanceToNode o)

/-- Strict order of finite global goals:
`a.whole + sqrt a.rad < b.whole + sqrt b.rad`, decided in integers. -/
def GoalValue.lt (a b : GoalValue) : Bool :=
  if a.whole ≤ b.whole then
    let c : Int := (b.whole : Int) - a.whole
    let e : Int := (a.rad : Int) - b.rad - c * c
    decide (e < 0 ∨ e * e < 4 * c * c * b.rad)
  else
    let c : Int := (a.whole : Int) - b.whole
    let e : Int := (b.rad : Int) - a.rad - c * c
    decide (0 < e ∧ 4 * c * c * a.rad < e * e)

/-- Float comparison `a < b` of two global goals (`none` is `INFINITY`). -/
def goalLt : Option GoalValue → Option GoalValue → Bool
  | some a, some b => a.lt b
  | some _, none => true
  | none, _ => false

/-- Float comparison `a < b` of two local goals (`none` is `INFINITY`). -/
def localLt : Option Nat → Option Nat → Bool
  | some a, some b => decide (a < b)
  | some _, none => true
  | none, _ => false

/-- The functor `struct compare`: `a->m_globalGoal > b->m_globalGoal`. -/
def compare (a b : Node) : Bool :=
  goalLt b.m_globalGoal a.m_globalGoal

/-- A default-constructed `Node` (`new Node[...]`). -/
def Node.fresh : Node :=
  { m_bObstacle := false, m_bVisited := false, m_globalGoal := none, m_localGoal := none,
    m_x := 0, m_y := 0, m_parent := none, m_nodeNeighbors := [] }

/-- Read `nodes[i]`. -/
def readNode (nodes : List Node) (i : Nat) : Node :=
  nodes.getD i Node.fresh

/-- Assign the fields of `nodes[i]`. -/
def writeNode (nodes : List Node) (i : Nat) (v : Node) : List Node :=
  nodes.set i v

/-- The fields of `class PathFinder` used by the search core. -/
structure State where
  m_nodes : List Node
  m_nMapWidth : Nat
  m_nMapHeight : Nat
  m_nodeStart : Nat
  m_nodeEnd : Nat

/-- Number of cells, `m_nMapWidth * m_nMapHeight`. -/
def State.size (s : State) : Nat :=
  s.m_nMapWidth * s.m_nMapHeight

/-- Body of the first loop nest of `OnUserCreate` (lines 62-66). -/
def initNode (W : Nat) (x : Nat) (nodes : List Node) (y : Nat) : List Node :=
  writeNode nodes (y * W + x)
    { readNode nodes (y * W + x) with
        m_x := x
        m_y := y
        m_bObstacle := false
        m_parent := none
        m_bVisited := false }

/-- The `push_back` calls on `m_nodes[i].m_nodeNeighbors`. -/
def pushNeighbor (nodes : List Node) (i j : Nat) : List Node :=
  writeNode nodes i
    { readNode nodes i with m_nodeNeighbors := (readNode nodes i).m_nodeNeighbors ++ [j] }

/-- Body of the second loop nest of `OnUserCreate` (lines 75-82). -/
def connectNode (W H : Nat) (x : Nat) (nodes : List Node) (y : Nat) : List Node :=
  let n1 := if x > 0 then pushNeighbor nodes (y * W + x) ((y + 0) * W + (x - 1)) else nodes
  let n2 := if y > 0 then pushNeighbor n1 (y * W + x) ((y - 1) * W + (x + 0)) else n1
  let n3 := if x < W - 1 then pushNeighbor n2 (y * W + x) ((y + 0) * W + (x + 1)) else n2
  if y < H - 1 then pushNeighbor n3 (y * W + x) ((y + 1) * W + (x + 0)) else n3

/-- The nested loops `for x < W, for y < H` applied to a loop body. -/
def forXY (W H : Nat) (body : Nat → List Node → Nat → List Node) (nodes : List Node) :
    List Node :=
  (List.range W).foldl (fun ns x => (List.range H).foldl (body x) ns) nodes

/-- `OnUserCreate` for a map of `W` by `H` cells. -/
def OnUserCreate (W H : Nat) : State :=
  { m_nodes := forXY W H (connectNode W H)
      (forXY W H (initNode W) (List.replicate (W * H) Node.fresh)),
    m_nMapWidth := W, m_nMapHeight := H, m_nodeStart := 0, m_nodeEnd := W * H - 1 }

/-- The obstacle toggle of `OnUserUpdate` (lines 108-112) for a selected cell. -/
def toggleObstacle (s : State) (nSelectedNodeX nSelectedNodeY : Int) : State :=
  if 0 ≤ nSelectedNodeX ∧ nSelectedNodeX < s.m_nMapWidth then
    if 0 ≤ nSelectedNodeY ∧ nSelectedNodeY < s.m_nMapHeight then
      let i := (nSelectedNodeY * s.m_nMapWidth + nSelectedNodeX).toNat
      { s with
        m_nodes := (writeNode s.m_nodes i
          { readNode s.m_nodes i with m_bObstacle := !(readNode s.m_nodes i).m_bObstacle }) }
    else s
  else s

/-- Body of the reset loops (lines 176-179). -/
def resetNode (W : Nat) (x : Nat) (nodes : List Node) (y : Nat) : List Node :=
  writeNode nodes (y * W + x)
    { readNode nodes (y * W + x) with
        m_bVisited := false
        m_globalGoal := none
        m_localGoal := none
        m_parent := none }

/-- The choice of `top()` for a `std::priority_queue` holding the node
pointers `q`; `top_mem` says it is one of the elements and nothing else is
assumed of it.  In particular `top()` need not be an element of least
`m_globalGoal`: `AStar` lowers `m_globalGoal` of nodes that are already
queued (lines 216-222) and the heap is not put in order again. -/
structure PriorityQueue where
  top : List Node → List Nat → Nat
  top_mem : ∀ nodes q, q ≠ [] → top nodes q ∈ q

/-- Ordering of an ideal least-first queue: `top()` does not compare before
any element, that is no element has a smaller `m_globalGoal`; ties are broken
in any way.  The queue of `AStar` is not known to meet it, because
`m_globalGoal` of a queued node is lowered in place (lines 216-222) and the
heap keeps its old shape; what is stated under `Ordered` is about the ideal
queue only, not about the program. -/
def PriorityQueue.Ordered (pq : PriorityQueue) : Prop :=
  ∀ (nodes : List Node) (q : List Nat) (m : Nat),
    m ∈ q → compare (readNode nodes (pq.top nodes q)) (readNode nodes m) = false

/-- Sum `m_localGoal + getDistanceToNode(..)` of a float and an edge length. -/
def addDistance (g : Option Nat) (d : Nat) : Option Nat :=
  g.map (fun v => v + d)

/-- Sum `m_localGoal + getDistanceToNode(m_nodeEnd)`, the heuristic total. -/
def addHeuristic (g : Option Nat) (rad : Nat) : Option GoalValue :=
  g.map (fun v => { whole := v, rad := rad })

namespace AStar

/-- Drain loop of `AStar` (lines 198-199): pop while the top is visited or is
the end node.  The fuel is the queue length. -/
def drain (pq : PriorityQueue) (nodes : List Node) (nodeEnd : Nat) : Nat → List Nat → List Nat
  | 0, q => q
  | k + 1, q =>
    if q ≠ [] ∧ ((readNode nodes (pq.top nodes q)).m_bVisited = true
        ∨ pq.top nodes q = nodeEnd) then
      drain pq nodes nodeEnd k (q.erase (pq.top nodes q))
    else q

/-- Body of the neighbour loop of `AStar` (lines 210-227). -/
def relax (nodeEnd currentNode : Nat) (st : List Node × List Nat) (nodeNeighbor : Nat) :
    List Node × List Nat :=
  let nodes := st.1
  let possibleLowerLocalGoal :=
    addDistance (readNode nodes currentNode).m_localGoal
      ((readNode nodes currentNode).getDistanceToNode (readNode nodes nodeNeighbor))
  let nodes1 :=
    if localLt possibleLowerLocalGoal (readNode nodes nodeNeighbor).m_localGoal then
      writeNode nodes nodeNeighbor
        { readNode nodes nodeNeighbor with
            m_parent := some currentNode
            m_localGoal := possibleLowerLocalGoal
            m_globalGoal := addHeuristic possibleLowerLocalGoal
              ((readNode nodes nodeNeighbor).sqDistanceToNode (readNode nodes nodeEnd)) }
    else nodes
  let q1 :=
    if (readNode nodes1 nodeNeighbor).m_bVisited = false
        ∧ (readNode nodes1 nodeNeighbor).m_bObstacle = false then
      st.2 ++ [nodeNeighbor]
    else st.2
  (nodes1, q1)

/-- One pass through the body of the outer loop of `AStar` (lines 196-228);
`none` is the `break`. -/
def iter (pq : PriorityQueue) (nodeEnd : Nat) (nodes : List Node) (q : List Nat) :
    Option (List Node × List Nat) :=
  let q1 := drain pq nodes nodeEnd q.length q
  if q1 = [] then none
  else
    let currentNode := pq.top nodes q1
    let nodes1 := writeNode nodes currentNode
      { readNode nodes currentNode with m_bVisited := true }
    some ((readNode nodes1 currentNode).m_nodeNeighbors.foldl (relax nodeEnd currentNode)
      (nodes1, q1))

/-- The outer loop `while (!nodeTestList.empty())`; the fuel bounds the number
of passes through its body and `none` means the fuel ran out. -/
def loop (pq : PriorityQueue) (nodeEnd : Nat) : Nat → List Node → List Nat →
    Option (List Node)
  | 0, nodes, q => if q = [] then some nodes else none
  | fuel + 1, nodes, q =>
    if q = [] then some nodes
    else
      match iter pq nodeEnd nodes q with
      | none => some nodes
      | some (nodes1, q1) => loop pq nodeEnd fuel nodes1 q1

end AStar

/-- `PathFinder::AStar`: reset, seed the start node, run the outer loop with
fuel `m_nMapWidth * m_nMapHeight`. -/
def AStar (pq : PriorityQueue) (s : State) : Option State :=
  let nodes0 := forXY s.m_nMapWidth s.m_nMapHeight (resetNode s.m_nMapWidth) s.m_nodes
  let nodes1 := writeNode nodes0 s.m_nodeStart
    { readNode nodes0 s.m_nodeStart with m_localGoal := some 0 }
  let nodes2 := writeNode nodes1 s.m_nodeStart
    { readNode nodes1 s.m_nodeStart with
        m_globalGoal := some
          { whole := 0
            rad := (readNode nodes1 s.m_nodeStart).sqDistanceToNode
              (readNode nodes1 s.m_nodeEnd) } }
  (AStar.loop pq s.m_nodeEnd s.size nodes2 [s.m_nodeStart]).map
    (fun nodes => { s with m_nodes := nodes })

namespace dijkstra

/-- Drain loop of `dijkstra` (lines 263-264) on the FIFO queue. -/
def drain (nodes : List Node) (nodeEnd : Nat) : List Nat → List Nat
  | [] => []
  | front :: rest =>
    if (readNode nodes front).m_bVisited = true ∨ front = nodeEnd then drain nodes nodeEnd rest
    else front :: rest

/-- Body of the neighbour loop of `dijkstra` (lines 275-290). -/
def relax (currentNode : Nat) (st : List Node × List Nat) (nodeNeighbor : Nat) :
    List Node × List Nat :=
  let nodes := st.1
  let possibleLowerLocalGoal :=
    addDistance (readNode nodes currentNode).m_localGoal
      ((readNode nodes currentNode).getDistanceToNode (readNode nodes nodeNeighbor))
  let nodes1 :=
    if localLt possibleLowerLocalGoal (readNode nodes nodeNeighbor).m_localGoal then
      writeNode nodes nodeNeighbor
        { readNode nodes nodeNeighbor with
            m_parent := some currentNode
            m_localGoal := possibleLowerLocalGoal }
    else nodes
  let q1 :=
    if (readNode nodes1 nodeNeighbor).m_bVisited = false
        ∧ (readNode nodes1 nodeNeighbor).m_bObstacle = false then
      st.2 ++ [nodeNeighbor]
    else st.2
  (nodes1, q1)

/-- One pass through the body of the outer loop of `dijkstra` (lines 261-291);
`none` is the `break`. -/
def iter (nodeEnd : Nat) (nodes : List Node) (q : List Nat) :
    Option (List Node × List Nat) :=
  match drain nodes nodeEnd q with
  | [] => none
  | currentNode :: rest =>
    let nodes1 := writeNode nodes currentNode
      { readNode nodes currentNode with m_bVisited := true }
    some ((readNode nodes1 currentNode).m_nodeNeighbors.foldl (relax currentNode)
      (nodes1, currentNode :: rest))

/-- The outer loop of `dijkstra`, with fuel as in `AStar.loop`. -/
def loop (nodeEnd : Nat) : Nat → List Node → List Nat → Option (List Node)
  | 0, nodes, q => if q = [] then some nodes else none
  | fuel + 1, nodes, q =>
    if q = [] then some nodes
    else
      match iter nodeEnd nodes q with
      | none => some nodes
      | some (nodes1, q1) => loop nodeEnd fuel nodes1 q1

end dijkstra

/-- `PathFinder::dijkstra`: reset, seed the start node, run the outer loop. -/
def dijkstra (s : State) : Option State :=
  let nodes0 := forXY s.m_nMapWidth s.m_nMapHeight (resetNode s.m_nMapWidth) s.m_nodes
  let nodes1 := writeNode nodes0 s.m_nodeStart
    { readNode nodes0 s.m_nodeStart with m_localGoal := some 0 }
  (dijkstra.loop s.m_nodeEnd s.size nodes1 [s.m_nodeStart]).map
    (fun nodes => { s with m_nodes := nodes })

namespace bfs

/-- The neighbour loop of `bfs` (lines 333-344); the flag is `true` when the
loop left through `return`. -/
def neighbors (nodeEnd currentNode : Nat) : List Nat → List Node → List Nat →
    List Node × List Nat × Bool
  | [], nodes, q => (nodes, q, false)
  | nodeNeighbor :: rest, nodes, q =>
    if (readNode nodes nodeNeighbor).m_bVisited = false
        ∧ (readNode nodes nodeNeighbor).m_bObstacle = false then
      let nodes1 := writeNode nodes nodeNeighbor
        { readNode nodes nodeNeighbor with m_parent := some currentNode }
      if nodeNeighbor = nodeEnd then (nodes1, q ++ [nodeNeighbor], true)
      else neighbors nodeEnd currentNode rest nodes1 (q ++ [nodeNeighbor])
    else neighbors nodeEnd currentNode rest nodes q

/-- One pass through the body of the outer loop of `bfs` (lines 322-344);
`none` is the `break`. -/
def iter (nodeEnd : Nat) (nodes : List Node) (q : List Nat) :
    Option (List Node × List Nat × Bool) :=
  match dijkstra.drain nodes nodeEnd q with
  | [] => none
  | currentNode :: rest =>
    let nodes1 := writeNode nodes currentNode
      { readNode nodes currentNode with m_bVisited := true }
    some (neighbors nodeEnd currentNode (readNode nodes1 currentNode).m_nodeNeighbors nodes1
      (currentNode :: rest))

/-- The outer loop of `bfs`, with fuel as in `AStar.loop`. -/
def loop (nodeEnd : Nat) : Nat → List Node → List Nat → Option (List Node)
  | 0, nodes, q => if q = [] then some nodes else none
  | fuel + 1, nodes, q =>
    if q = [] then some nodes
    else
      match iter nodeEnd nodes q with
      | none => some nodes
      | some (nodes1, _, true) => some nodes1
      | some (nodes1, q1, false) => loop nodeEnd fuel nodes1 q1

end bfs

/-- `PathFinder::bfs`: reset, then run the outer loop from the start node. -/
def bfs (s : State) : Option State :=
  let nodes0 := forXY s.m_nMapWidth s.m_nMapHeight (resetNode s.m_nMapWidth) s.m_nodes
  (bfs.loop s.m_nodeEnd s.size nodes0 [s.m_nodeStart]).map
    (fun nodes => { s with m_nodes := nodes })

/-! ## Grid shape, walks and predecessor chains -/

/-- The neighbour list `OnUserCreate` builds for the cell `(x, y)`: left, up,
right, down, each present when it lies inside the map. -/
def gridNeighbors (W H x y : Nat) : List Nat :=
  (if x > 0 then [y * W + (x - 1)] else [])
    ++ (if y > 0 then [(y - 1) * W + x] else [])
    ++ (if x < W - 1 then [y * W + (x + 1)] else [])
    ++ (if y < H - 1 then [(y + 1) * W + x] else [])

/-- The states the searches run on: the node array has `m_nMapWidth *
m_nMapHeight` cells laid out and connected as `OnUserCreate` does, and the
start and end pointers point into it.  Obstacle flags and the search
annotations left by earlier runs are arbitrary. -/
def WellFormed (s : State) : Prop :=
  s.m_nodes.length = s.size ∧ s.m_nodeStart < s.size ∧ s.m_nodeEnd < s.size ∧
  ∀ i, i < s.size →
    (readNode s.m_nodes i).m_x = i % s.m_nMapWidth ∧
    (readNode s.m_nodes i).m_y = i / s.m_nMapWidth ∧
    (readNode s.m_nodes i).m_nodeNeighbors
      = gridNeighbors s.m_nMapWidth s.m_nMapHeight (i % s.m_nMapWidth) (i / s.m_nMapWidth)

instance (s : State) : Decidable (WellFormed s) := by
  unfold WellFormed
  infer_instance

/-- The field assignments of the reset loops, on one node. -/
def Node.reset (n : Node) : Node :=
  { n with m_bVisited := false, m_globalGoal := none, m_localGoal := none, m_parent := none }

/-- A cell the searches may expand: the start cell or a cell that is not an
obstacle, and never the end cell. -/
def Expandable (s : State) (i : Nat) : Prop :=
  (i = s.m_nodeStart ∨ (readNode s.m_nodes i).m_bObstacle = false) ∧ i ≠ s.m_nodeEnd

/-- `Reach s k n`: there is a walk of `k` edges from the start cell to `n`
whose cells before `n` are all expandable. -/
inductive Reach (s : State) : Nat → Nat → Prop
  | start : Reach s 0 s.m_nodeStart
  | step {k a b : Nat} : Reach s k a → Expandable s a →
      b ∈ (readNode s.m_nodes a).m_nodeNeighbors → Reach s (k + 1) b

/-- A path listed from its last cell back to its first one, as the predecessor
walk produces it: every cell is in the neighbour list of the cell that
follows it in the list. -/
def IsPath (s : State) : List Nat → Prop
  | [] => True
  | [_] => True
  | c :: p :: rest => c ∈ (readNode s.m_nodes p).m_nodeNeighbors ∧ IsPath s (p :: rest)

/-- A 4-connected path from `a` to `b` (listed from `b` back to `a`) that uses
only cells that are not obstacles. -/
def FreePath (s : State) (a b : Nat) (p : List Nat) : Prop :=
  p.head? = some b ∧ p.getLast? = some a ∧ IsPath s p ∧
  ∀ c ∈ p, (readNode s.m_nodes c).m_bObstacle = false

/-- Follow `m_parent` links from `n`, at most `fuel` of them, and list the
cells met (`n` first). -/
def parentChain (nodes : List Node) : Nat → Nat → List Nat
  | 0, n => [n]
  | fuel + 1, n =>
    match (readNode nodes n).m_parent with
    | none => [n]
    | some p => n :: parentChain nodes fuel p

/-- Two cells `(x, y)` and `(x', y')` are 4-connected: they differ by one
step along exactly one axis. -/
def Adj4 (x y x' y' : Nat) : Prop :=
  (x' = x ∧ (y' = y + 1 ∨ y' + 1 = y)) ∨ (y' = y ∧ (x' = x + 1 ∨ x' + 1 = x))

/-! ## The loop shared by `AStar` and `dijkstra`

`AStar` and `dijkstra` differ in the queue discipline and in whether
`m_globalGoal` is assigned.  `costLoop` is their common shape: it is `AStar.loop`
when `heur = true` and `dijkstra.loop` for the first-in first-out choice of
`top` when `heur = false`. -/

/-- A `std::queue` seen as a priority queue whose `top()` is the front. -/
def fifo : PriorityQueue :=
  { top := fun _ q => q.headD 0
    top_mem := by
      intro _ q h
      cases q with
      | nil => exact absurd rfl h
      | cons a l => simp }

/-- Value of `nodes[nb]` after one pass through the body of the neighbour loop
for the current node `cur`. -/
def relaxedNode (heur : Bool) (nodeEnd cur : Nat) (nodes : List Node) (nb : Nat) : Node :=
  if localLt (addDistance (readNode nodes cur).m_localGoal
      ((readNode nodes cur).getDistanceToNode (readNode nodes nb)))
      (readNode nodes nb).m_localGoal then
    { readNode nodes nb with
        m_parent := some cur
        m_localGoal := addDistance (readNode nodes cur).m_localGoal
          ((readNode nodes cur).getDistanceToNode (readNode nodes nb))
        m_globalGoal :=
          if heur then
            addHeuristic (addDistance (readNode nodes cur).m_localGoal
                ((readNode nodes cur).getDistanceToNode (readNode nodes nb)))
              ((readNode nodes nb).sqDistanceToNode (readNode nodes nodeEnd))
          else (readNode nodes nb).m_globalGoal }
  else readNode nodes nb

/-- Body of the neighbour loop of `AStar` and of `dijkstra`. -/
def costRelax (heur : Bool) (nodeEnd cur : Nat) (st : List Node × List Nat) (nb : Nat) :
    List Node × List Nat :=
  let nodes1 :=
    if localLt (addDistance (readNode st.1 cur).m_localGoal
        ((readNode st.1 cur).getDistanceToNode (readNode st.1 nb)))
        (readNode st.1 nb).m_localGoal then
      writeNode st.1 nb (relaxedNode heur nodeEnd cur st.1 nb)
    else st.1
  let q1 :=
    if (readNode nodes1 nb).m_bVisited = false ∧ (readNode nodes1 nb).m_bObstacle = false then
      st.2 ++ [nb]
    else st.2
  (nodes1, q1)

/-- One pass through the body of the outer loop of `AStar` and of `dijkstra`. -/
def costIter (pq : PriorityQueue) (heur : Bool) (nodeEnd : Nat) (nodes : List Node)
    (q : List Nat) : Option (List Node × List Nat) :=
  let q1 := AStar.drain pq nodes nodeEnd q.length q
  if q1 = [] then none
  else
    let cur := pq.top nodes q1
    let nodes1 := writeNode nodes cur { readNode nodes cur with m_bVisited := true }
    some ((readNode nodes1 cur).m_nodeNeighbors.foldl (costRelax heur nodeEnd cur) (nodes1, q1))

/-- The outer loop of `AStar` and of `dijkstra`. -/
def costLoop (pq : PriorityQueue) (heur : Bool) (nodeEnd : Nat) :
    Nat → List Node → List Nat → Option (List Node)
  | 0, nodes, q => if q = [] then some nodes else none
  | fuel + 1, nodes, q =>
    if q = [] then some nodes
    else
      match costIter pq heur nodeEnd nodes q with
      | none => some nodes
      | some (nodes1, q1) => costLoop pq heur nodeEnd fuel nodes1 q1

/-- The node array after the reset loops and the seeding of the start node. -/
def seeded (heur : Bool) (s : State) : List Node :=
  let nodes0 := forXY s.m_nMapWidth s.m_nMapHeight (resetNode s.m_nMapWidth) s.m_nodes
  let nodes1 := writeNode nodes0 s.m_nodeStart
    { readNode nodes0 s.m_nodeStart with m_localGoal := some 0 }
  if heur then
    writeNode nodes1 s.m_nodeStart
      { readNode nodes1 s.m_nodeStart with
          m_globalGoal := some
            { whole := 0
              rad := (readNode nodes1 s.m_nodeStart).sqDistanceToNode
                (readNode nodes1 s.m_nodeEnd) } }
  else nodes1

/-- The node array `nodes` holds the map of `s`: same number of cells, same
obstacle flags, coordinates and neighbour lists. -/
def SameMap (s : State) (nodes : List Node) : Prop :=
  nodes.length = s.size ∧
  ∀ i, (readNode nodes i).m_bObstacle = (readNode s.m_nodes i).m_bObstacle ∧
    (readNode nodes i).m_x = (readNode s.m_nodes i).m_x ∧
    (readNode nodes i).m_y = (readNode s.m_nodes i).m_y ∧
    (readNode nodes i).m_nodeNeighbors = (readNode s.m_nodes i).m_nodeNeighbors

/-- The relaxation test and assignments (lines 216-222) on a node value `v`,
for a current node `cur` of local goal `gc`, an edge of length `w` and a
squared distance `rad` to the end node. -/
def relaxCore (heur : Bool) (gc : Option Nat) (w rad cur : Nat) (v : Node) : Node :=
  if localLt (addDistance gc w) v.m_localGoal then
    { v with
        m_parent := some cur
        m_localGoal := addDistance gc w
        m_globalGoal := if heur then addHeuristic (addDistance gc w) rad else v.m_globalGoal }
  else v

/-- The test `!m_bVisited && !m_bObstacle` that guards the push. -/
def pushable (nodes : List Node) (b : Nat) : Bool :=
  !(readNode nodes b).m_bVisited && !(readNode nodes b).m_bObstacle

/-- Squared distance of cell `j` to the end cell of `s`. -/
def radTo (s : State) (j : Nat) : Nat :=
  (readNode s.m_nodes j).sqDistanceToNode (readNode s.m_nodes s.m_nodeEnd)

/-- Description of one pass through the body of the outer loop that expands
the cell `cur`, taken from the drained queue `q1`, and leads from
`(nodes, q)` to `(nodes', q')`. -/
structure Step (s : State) (heur : Bool) (nodes : List Node) (q : List Nat)
    (nodes' : List Node) (q' : List Nat) (cur : Nat) (q1 : List Nat) : Prop where
  sub : q1.Sublist q
  kept : ∀ a ∈ q, a ∈ q1 ∨ (readNode nodes a).m_bVisited = true ∨ a = s.m_nodeEnd
  cur_mem : cur ∈ q1
  cur_unvisited : (readNode nodes cur).m_bVisited = false
  cur_ne_end : cur ≠ s.m_nodeEnd
  map : SameMap s nodes'
  read : ∀ j, readNode nodes' j =
    if j ∈ (readNode s.m_nodes cur).m_nodeNeighbors then
      relaxCore heur (readNode nodes cur).m_localGoal 1 (radTo s j) cur (readNode nodes j)
    else if j = cur then { readNode nodes cur with m_bVisited := true }
    else readNode nodes j
  queue : q' = q1 ++ (readNode s.m_nodes cur).m_nodeNeighbors.filter (pushable nodes)

/-- Invariant of the outer loop of `AStar` and `dijkstra`, at the loop head,
for the node array `nodes` and the queue contents `q`.  It holds for every
choice of `top`. -/
structure Inv (s : State) (heur : Bool) (nodes : List Node) (q : List Nat) : Prop where
  map : SameMap s nodes
  vis_ok : ∀ v, (readNode nodes v).m_bVisited = true → Expandable s v ∧ v < s.size
  q_ok : ∀ a ∈ q, a < s.size ∧
    (a = s.m_nodeStart ∨ (readNode s.m_nodes a).m_bObstacle = false)
  q_fin : ∀ a ∈ q, ∃ k, (readNode nodes a).m_localGoal = some k
  vis_fin : ∀ v, (readNode nodes v).m_bVisited = true →
    ∃ k, (readNode nodes v).m_localGoal = some k
  par_ok : ∀ n p, (readNode nodes n).m_parent = some p →
    (readNode nodes p).m_bVisited = true ∧ n ∈ (readNode s.m_nodes p).m_nodeNeighbors ∧
    ∃ gn gp, (readNode nodes n).m_localGoal = some gn ∧
      (readNode nodes p).m_localGoal = some gp ∧ gp < gn
  g_start : (readNode nodes s.m_nodeStart).m_localGoal = some 0
  sound : ∀ n k, (readNode nodes n).m_localGoal = some k → Reach s k n
  par_some : ∀ n k, (readNode nodes n).m_localGoal = some k → n ≠ s.m_nodeStart →
    ∃ p, (readNode nodes n).m_parent = some p
  frontier : ∀ n, (readNode nodes n).m_bVisited = false → Expandable s n →
    (∃ k, (readNode nodes n).m_localGoal = some k) → n ∈ q
  closed : ∀ v, (readNode nodes v).m_bVisited = true →
    ∀ b ∈ (readNode s.m_nodes v).m_nodeNeighbors, ∃ k, (readNode nodes b).m_localGoal = some k
  key : heur = true → ∀ n k, (readNode nodes n).m_localGoal = some k →
    (readNode nodes n).m_globalGoal = some ⟨k, radTo s n⟩

/-- The cells that can still be expanded: unvisited cells of the map other
than the end cell.  Their number is the termination measure of the outer
loops. -/
def pending (s : State) (nodes : List Node) : Finset Nat :=
  (Finset.range s.size).filter
    (fun i => (readNode nodes i).m_bVisited = false ∧ i ≠ s.m_nodeEnd)

/-- What every search leaves in the node array: the predecessor links form a
forest over visited cells, rooted at the start cell. -/
structure Outcome (s : State) (nodes : List Node) : Prop where
  map : SameMap s nodes
  vis_ok : ∀ v, (readNode nodes v).m_bVisited = true →
    Expandable s v ∧ v < s.size ∧ ∃ k, Reach s k v
  par_ok : ∀ c p, (readNode nodes c).m_parent = some p →
    (readNode nodes p).m_bVisited = true ∧ c ∈ (readNode s.m_nodes p).m_nodeNeighbors
  root : ∀ v, (readNode nodes v).m_bVisited = true → v ≠ s.m_nodeStart →
    ∃ p, (readNode nodes v).m_parent = some p
  start_root : (readNode nodes s.m_nodeStart).m_parent = none
  ranked : ∃ rank : Nat → Nat,
    ∀ c p, (readNode nodes c).m_parent = some p → rank p < rank c
  complete : s.m_nodeStart ≠ s.m_nodeEnd →
    (readNode s.m_nodes s.m_nodeEnd).m_bObstacle = false →
    (∃ k, Reach s k s.m_nodeEnd) → ∃ p, (readNode nodes s.m_nodeEnd).m_parent = some p

/-- Invariant of the outer loop of `AStar` and `dijkstra` that holds when the
expanded cells are taken in an order that respects the costs: visited cells
carry their least cost. -/
structure OInv (s : State) (nodes : List Node) : Prop where
  opt_vis : ∀ v, (readNode nodes v).m_bVisited = true → ∀ k, Reach s k v →
    ∃ gv, (readNode nodes v).m_localGoal = some gv ∧ gv ≤ k
  closed1 : ∀ v, (readNode nodes v).m_bVisited = true →
    ∀ b ∈ (readNode s.m_nodes v).m_nodeNeighbors,
      ∃ gv gb, (readNode nodes v).m_localGoal = some gv ∧
        (readNode nodes b).m_localGoal = some gb ∧ gb ≤ gv + 1
  par_exact : ∀ n p, (readNode nodes n).m_parent = some p →
    ∃ gp, (readNode nodes p).m_localGoal = some gp ∧
      (readNode nodes n).m_localGoal = some (gp + 1)

/-- Number of grid steps between the cells `a` and `b`. -/
def manhattan (s : State) (a b : Nat) : Nat :=
  Int.natAbs (((readNode s.m_nodes a).m_x : Int) - (readNode s.m_nodes b).m_x)
    + Int.natAbs (((readNode s.m_nodes a).m_y : Int) - (readNode s.m_nodes b).m_y)

/-- A queue entry that is not inert: an unvisited cell other than the end
cell. -/
def active (s : State) (nodes : List Node) (a : Nat) : Bool :=
  decide (a ≠ s.m_nodeEnd) && !(readNode nodes a).m_bVisited

/-- The local goal of a cell as a number (`0` when it is `INFINITY`). -/
def gval (nodes : List Node) (a : Nat) : Nat :=
  ((readNode nodes a).m_localGoal).getD 0

/-- Invariant of the outer loop of `dijkstra`: the entries of the first-in
first-out queue that are not inert are in order of their local goals, after
the visited cells. -/
structure FInv (s : State) (nodes : List Node) (q : List Nat) : Prop where
  sorted : (q.filter (active s nodes)).Pairwise (fun a b => gval nodes a ≤ gval nodes b)
  before : ∀ v a, (readNode nodes v).m_bVisited = true → a ∈ q → active s nodes a = true →
    gval nodes v ≤ gval nodes a

/-- Relation between the node array `B` of `bfs` and the node array `D` of
`dijkstra` run in step with it: same visited cells, and the predecessor
links of `bfs` go down by one in the local goals of `dijkstra`. -/
structure Sim (s : State) (B D : List Node) : Prop where
  map : SameMap s B
  vis : ∀ i, (readNode B i).m_bVisited = (readNode D i).m_bVisited
  par : ∀ n p, (readNode B n).m_parent = some p →
    (readNode D p).m_bVisited = true ∧ n ∈ (readNode s.m_nodes p).m_nodeNeighbors ∧
    (readNode s.m_nodes n).m_bObstacle = false ∧
    ∃ gp, (readNode D p).m_localGoal = some gp ∧ (readNode D n).m_localGoal = some (gp + 1)
  rooted : ∀ v, (readNode D v).m_bVisited = true → v ≠ s.m_nodeStart →
    ∃ p, (readNode B v).m_parent = some p

/-- What relates `bfs` and `dijkstra` in addition at the head of the outer
loop of `bfs`: the end cell has no predecessor yet, and every other cell
that is not an obstacle has one as soon as `dijkstra` gave it a local
goal. -/
structure SimLoop (s : State) (B D : List Node) : Prop where
  found : ∀ n, (readNode s.m_nodes n).m_bObstacle = false → n ≠ s.m_nodeStart →
    (∃ k, (readNode D n).m_localGoal = some k) → ∃ p, (readNode B n).m_parent = some p
  end_none : (readNode B s.m_nodeEnd).m_parent = none

/-- A priority queue whose `top()` is the first element, in insertion order,
among those of least `m_globalGoal`. -/
def leastFirst : PriorityQueue :=
  { top := fun nodes q =>
      q.foldl (fun b m => if compare (readNode nodes b) (readNode nodes m) then m else b)
        (q.headD 0)
    top_mem := by
      intro nodes q h
      have key : ∀ (l : List Nat) (b : Nat),
          l.foldl (fun b m => if compare (readNode nodes b) (readNode nodes m) then m else b) b
            = b ∨
          l.foldl (fun b m => if compare (readNode nodes b) (readNode nodes m) then m else b) b
            ∈ l := by
        intro l
        induction l with
        | nil => intro b; exact Or.inl rfl
        | cons a l ih =>
          intro b
          rw [List.foldl_cons]
          rcases ih (if compare (readNode nodes b) (readNode nodes a) then a else b) with h | h
          · rw [h]
            split
            · exact Or.inr (List.mem_cons_self a l)
            · exact Or.inl rfl
          · exact Or.inr (List.mem_cons_of_mem a h)
      cases q with
      | nil => exact absurd rfl h
      | cons a l =>
        rcases key (a :: l) a with h1 | h1
        · simp only [List.headD_cons]
          rw [h1]
          exact List.mem_cons_self a l
        · exact h1 }

/-! ## The path walk and the reconstructed path -/

namespace pathWalk

/-- The loop `while (scan->m_parent != nullptr)` of `OnUserUpdate` (lines
153-158): the cells it fills, in the order met.  `none` means the fuel ran
out. -/
def loop (nodes : List Node) : Nat → Nat → Option (List Nat)
  | 0, scan => if (readNode nodes scan).m_parent = none then some [] else none
  | fuel + 1, scan =>
    match (readNode nodes scan).m_parent with
    | none => some []
    | some p => (loop nodes fuel p).map (fun cells => scan :: cells)

end pathWalk

/-- The path walk of `OnUserUpdate` (lines 148-159), with fuel
`m_nMapWidth * m_nMapHeight`. -/
def pathWalk (s : State) : Option (List Nat) :=
  let scan :=
    match (readNode s.m_nodes s.m_nodeEnd).m_parent with
    | some p => p
    | none => s.m_nodeEnd
  pathWalk.loop s.m_nodes s.size scan

/-- The result of a search as the specification describes it. -/
structure SearchResult where
  reachable : Bool
  orderedPath : List Nat
deriving DecidableEq, Repr

/-- Modelled from the spec: the backward walk of `reconstruct` (section 4.4),
which is not in the source.  It prepends each cell to the path until it
reaches the start cell, and fails (`none`) when a cell other than the start
has no predecessor or when more than `fuel` links are followed. -/
def walkBack (nodes : List Node) (start : Nat) : Nat → Nat → List Nat → Option (List Nat)
  | 0, cur, acc => if cur = start then some (cur :: acc) else none
  | fuel + 1, cur, acc =>
    if cur = start then some (cur :: acc)
    else
      match (readNode nodes cur).m_parent with
      | none => none
      | some p => walkBack nodes start fuel p (cur :: acc)

/-- Modelled from the spec: `reconstruct` (section 4.4), which is not in the
source.  When the goal has no predecessor and is not the start the result is
unreachable with an empty path; otherwise the path is the backward walk from
the goal, bounded by `m_nMapWidth * m_nMapHeight` steps, and `none` is the
internal-error fault. -/
def reconstruct (s : State) : Option SearchResult :=
  if (readNode s.m_nodes s.m_nodeEnd).m_parent = none ∧ s.m_nodeEnd ≠ s.m_nodeStart then
    some { reachable := false, orderedPath := [] }
  else
    (walkBack s.m_nodes s.m_nodeStart s.size s.m_nodeEnd []).map
      (fun path => { reachable := true, orderedPath := path })

/-! ## Properties of the result of a search -/

/-- The predecessor chain of the end cell of `r`, from the end cell back. -/
def goalChain (r : State) : List Nat :=
  parentChain r.m_nodes r.size r.m_nodeEnd

/-- Every predecessor is a visited grid neighbour that is the start cell or
not an obstacle, and the predecessor chain of the end cell, when the end
cell has a predecessor, is a grid path from the start cell to the end cell
whose cells other than the two ends are not obstacles. -/
def PredecessorsValid (r : State) : Prop :=
  (∀ c p, (readNode r.m_nodes c).m_parent = some p →
    p ∈ (readNode r.m_nodes c).m_nodeNeighbors ∧
    c ∈ (readNode r.m_nodes p).m_nodeNeighbors ∧
    (readNode r.m_nodes p).m_bVisited = true ∧
    (p = r.m_nodeStart ∨ (readNode r.m_nodes p).m_bObstacle = false)) ∧
  (∀ p, (readNode r.m_nodes r.m_nodeEnd).m_parent = some p →
    (goalChain r).head? = some r.m_nodeEnd ∧
    (goalChain r).getLast? = some r.m_nodeStart ∧
    IsPath r (goalChain r) ∧
    ∀ c ∈ goalChain r, c ≠ r.m_nodeEnd → c ≠ r.m_nodeStart →
      (readNode r.m_nodes c).m_bObstacle = false)

/-- The end cell has a predecessor and its predecessor chain ends at the start
cell. -/
def GoalFound (r : State) : Prop :=
  (∃ p, (readNode r.m_nodes r.m_nodeEnd).m_parent = some p) ∧
  (goalChain r).head? = some r.m_nodeEnd ∧
  (goalChain r).getLast? = some r.m_nodeStart

/-- The predecessor links have no cycle: the start cell has no predecessor,
the predecessor chain of every cell that has one ends at the start cell
after fewer than `m_nMapWidth * m_nMapHeight` links, the path walk ends, and
the reconstructed path exists and has at most `m_nMapWidth * m_nMapHeight`
cells. -/
def Acyclic (r : State) : Prop :=
  (readNode r.m_nodes r.m_nodeStart).m_parent = none ∧
  (∀ c p, (readNode r.m_nodes c).m_parent = some p →
    (parentChain r.m_nodes r.size c).getLast? = some r.m_nodeStart ∧
    (parentChain r.m_nodes r.size c).length - 1 < r.size) ∧
  (∃ cells, pathWalk r = some cells) ∧
  (∃ res, reconstruct r = some res ∧ res.orderedPath.length ≤ r.size)

/-- A search of `s` ended in `r`: same map, same start and end cells. -/
def SameGrid (s r : State) : Prop :=
  r.m_nMapWidth = s.m_nMapWidth ∧ r.m_nMapHeight = s.m_nMapHeight ∧
  r.m_nodeStart = s.m_nodeStart ∧ r.m_nodeEnd = s.m_nodeEnd ∧ SameMap s r.m_nodes

/-- The least number of edges of a walk from the start cell to `v` whose
cells before `v` are expandable is `g`. -/
def LeastWalk (s : State) (v g : Nat) : Prop :=
  Reach s g v ∧ ∀ k, Reach s k v → g ≤ k

/-- One pass through the body of an outer loop, from `(nodes, q)` to
`(nodes', q')`: it marks visited one cell of the map that was not, leaves the
other visited flags set, and pushes at most four cells. -/
def MarksOne (s : State) (nodes : List Node) (q : List Nat) (nodes' : List Node)
    (q' : List Nat) : Prop :=
  (∃ cur, cur < s.size ∧ (readNode nodes cur).m_bVisited = false ∧
    (readNode nodes' cur).m_bVisited = true) ∧
  (∀ j, (readNode nodes j).m_bVisited = true → (readNode nodes' j).m_bVisited = true) ∧
  q'.length ≤ q.length + 4

/-- The result of a search whose start cell is its end cell: no cell is
visited or has a predecessor, the reconstructed path is the single cell and
the path walk fills nothing. -/
def TrivialResult (r : State) : Prop :=
  (∀ i, (readNode r.m_nodes i).m_parent = none) ∧
  (∀ i, (readNode r.m_nodes i).m_bVisited = false) ∧
  reconstruct r = some { reachable := true, orderedPath := [r.m_nodeEnd] } ∧
  pathWalk r = some []

/-- The unobstructed map of 3 by 3 cells, start `(0,0)`, end `(2,2)`. -/
def grid3 : State :=
  OnUserCreate 3 3

/-- The map of 3 by 3 cells with the middle column `(1,0)`, `(1,1)`, `(1,2)`
blocked, start `(0,1)`, end `(2,1)`. -/
def blocked3 : State :=
  { toggleObstacle (toggleObstacle (toggleObstacle (OnUserCreate 3 3) 1 0) 1 1) 1 2 with
    m_nodeStart := 3, m_nodeEnd := 5 }

/-- A map of 2 by 2 cells whose start and end cell are both the cell
`(0,0)`. -/
def single2 : State :=
  { OnUserCreate 2 2 with m_nodeStart := 0, m_nodeEnd := 0 }

/-! ## Further definitions: the neighbour list in the words of the specification,
the mouse handler and maps used as examples -/

/-- The neighbour list of the cell `(x, y)` as the specification words it: the
members of `[(x-1,y), (x,y-1), (x+1,y), (x,y+1)]` that lie inside the map, in
that order, each given by its index `y * W + x`. -/
def specNeighbors (W H x y : Nat) : List Nat :=
  (([((x : Int) - 1, (y : Int)), ((x : Int), (y : Int) - 1), ((x : Int) + 1, (y : Int)),
      ((x : Int), (y : Int) + 1)] : List (Int × Int)).filter
    (fun c => decide (0 ≤ c.1 ∧ c.1 < (W : Int) ∧ 0 ≤ c.2 ∧ c.2 < (H : Int)))).map
    (fun c => (c.2 * (W : Int) + c.1).toNat)

/-- The mouse handler of `OnUserUpdate` (lines 106-118) for a released button:
inside the map the obstacle flag of the selected cell is toggled and `AStar`
runs; outside nothing happens. -/
def mouseReleased (pq : PriorityQueue) (s : State) (nSelectedNodeX nSelectedNodeY : Int) :
    Option State :=
  if 0 ≤ nSelectedNodeX ∧ nSelectedNodeX < s.m_nMapWidth then
    if 0 ≤ nSelectedNodeY ∧ nSelectedNodeY < s.m_nMapHeight then
      AStar pq (toggleObstacle s nSelectedNodeX nSelectedNodeY)
    else some s
  else some s

/-- The map of 3 by 3 cells whose end cell `(2,2)` is an obstacle, start
`(0,0)`. -/
def goalBlocked3 : State :=
  toggleObstacle (OnUserCreate 3 3) 2 2

/-- `Joined s v p`: the list `p` is a grid path from `v` back to the start cell
whose cells, the start cell at its end apart, are not obstacles and are not
the end cell. -/
def Joined (s : State) (v : Nat) (p : List Nat) : Prop :=
  p.head? = some v ∧ p.getLast? = some s.m_nodeStart ∧ IsPath s p ∧
  ∀ c ∈ p.dropLast, (readNode s.m_nodes c).m_bObstacle = false ∧ c ≠ s.m_nodeEnd

/-! ## Memory and grid lemmas -/

theorem readNode_writeNode (nodes : List Node) (i j : Nat) (v : Node) :
    readNode (writeNode nodes i v) j
      = if j = i ∧ i < nodes.length then v else readNode nodes j := by
  unfold readNode writeNode
  simp only [List.getD_eq_getElem?_getD, List.getElem?_set]
  by_cases h : i = j
  · subst h
    by_cases h2 : i < nodes.length
    · simp [h2]
    · simp [h2, List.getElem?_eq_none (Nat.le_of_not_lt h2)]
  · have h' : ¬ j = i := fun e => h e.symm
    simp [h, h']

theorem length_writeNode (nodes : List Node) (i : Nat) (v : Node) :
    (writeNode nodes i v).length = nodes.length := by
  simp [writeNode]

theorem readNode_writeNode_same (nodes : List Node) (i : Nat) (v : Node)
    (h : i < nodes.length) : readNode (writeNode nodes i v) i = v := by
  simp [readNode_writeNode, h]

theorem readNode_writeNode_ne (nodes : List Node) (i j : Nat) (v : Node) (h : j ≠ i) :
    readNode (writeNode nodes i v) j = readNode nodes j := by
  simp [readNode_writeNode, h]

theorem resetNode_eq (W x : Nat) (nodes : List Node) (y : Nat) :
    resetNode W x nodes y
      = writeNode nodes (y * W + x) (readNode nodes (y * W + x)).reset := rfl

theorem reset_reset (n : Node) : n.reset.reset = n.reset := rfl

theorem foldl_reset_inner (W x : Nat) (n : Nat) (nodes : List Node) :
    ((List.range n).foldl (resetNode W x) nodes).length = nodes.length ∧
    ∀ j, readNode ((List.range n).foldl (resetNode W x) nodes) j
      = if (∃ y, y < n ∧ j = y * W + x) ∧ j < nodes.length then (readNode nodes j).reset
        else readNode nodes j := by
  induction n with
  | zero => simp
  | succ n ih =>
    rw [List.range_succ, List.foldl_append]
    simp only [List.foldl_cons, List.foldl_nil]
    obtain ⟨ihl, ihr⟩ := ih
    refine ⟨by rw [resetNode_eq, length_writeNode, ihl], ?_⟩
    intro j
    rw [resetNode_eq, readNode_writeNode, ihl, ihr, ihr]
    by_cases hj : j = n * W + x
    · subst hj
      by_cases hl : n * W + x < nodes.length
      · have h1 : ∃ y, y < n + 1 ∧ n * W + x = y * W + x := ⟨n, by omega, rfl⟩
        simp only [hl, and_true, true_and, if_true, h1]
        split <;> rfl
      · simp [hl]
    · have h2 : (∃ y, y < n + 1 ∧ j = y * W + x) ↔ (∃ y, y < n ∧ j = y * W + x) := by
        constructor
        · rintro ⟨y, hy, e⟩
          have : y ≠ n := by rintro rfl; exact hj e
          exact ⟨y, by omega, e⟩
        · rintro ⟨y, hy, e⟩
          exact ⟨y, by omega, e⟩
      simp only [hj, false_and, if_false, h2]

theorem forXY_reset_aux (W H : Nat) (n : Nat) (nodes : List Node) :
    ((List.range n).foldl (fun ns x => (List.range H).foldl (resetNode W x) ns) nodes).length
      = nodes.length ∧
    ∀ j, readNode ((List.range n).foldl
        (fun ns x => (List.range H).foldl (resetNode W x) ns) nodes) j
      = if (∃ x, x < n ∧ ∃ y, y < H ∧ j = y * W + x) ∧ j < nodes.length
        then (readNode nodes j).reset else readNode nodes j := by
  induction n with
  | zero => simp
  | succ n ih =>
    rw [List.range_succ, List.foldl_append]
    simp only [List.foldl_cons, List.foldl_nil]
    obtain ⟨ihl, ihr⟩ := ih
    obtain ⟨il, ir⟩ := foldl_reset_inner W n H
      ((List.range n).foldl (fun ns x => (List.range H).foldl (resetNode W x) ns) nodes)
    refine ⟨by rw [il, ihl], ?_⟩
    intro j
    rw [ir, ihl, ihr]
    by_cases hl : j < nodes.length
    · by_cases h1 : ∃ y, y < H ∧ j = y * W + n
      · have h2 : ∃ x, x < n + 1 ∧ ∃ y, y < H ∧ j = y * W + x := ⟨n, by omega, h1⟩
        simp only [h1, hl, h2, and_true, if_true]
        split <;> rfl
      · have h2 : (∃ x, x < n + 1 ∧ ∃ y, y < H ∧ j = y * W + x)
            ↔ (∃ x, x < n ∧ ∃ y, y < H ∧ j = y * W + x) := by
          constructor
          · rintro ⟨x, hx, hy⟩
            have : x ≠ n := by rintro rfl; exact h1 hy
            exact ⟨x, by omega, hy⟩
          · rintro ⟨x, hx, hy⟩
            exact ⟨x, by omega, hy⟩
        simp only [h1, false_and, if_false, h2]
    · simp [hl]

theorem index_decomp (W H j : Nat) :
    (∃ x, x < W ∧ ∃ y, y < H ∧ j = y * W + x) ↔ j < W * H := by
  constructor
  · rintro ⟨x, hx, y, hy, rfl⟩
    calc y * W + x < y * W + W := by omega
      _ = (y + 1) * W := by ring
      _ ≤ H * W := Nat.mul_le_mul_right W hy
      _ = W * H := Nat.mul_comm H W
  · intro h
    have hW : 0 < W := by
      rcases Nat.eq_zero_or_pos W with h0 | h0
      · subst h0; simp at h
      · exact h0
    refine ⟨j % W, Nat.mod_lt j hW, j / W, ?_, ?_⟩
    · exact (Nat.div_lt_iff_lt_mul hW).2 (by rw [Nat.mul_comm]; exact h)
    · rw [Nat.mul_comm]; exact (Nat.div_add_mod j W).symm

theorem forXY_reset (W H : Nat) (nodes : List Node) (hlen : nodes.length = W * H) :
    (forXY W H (resetNode W) nodes).length = nodes.length ∧
    ∀ j, readNode (forXY W H (resetNode W) nodes) j = (readNode nodes j).reset := by
  obtain ⟨hl, hr⟩ := forXY_reset_aux W H W nodes
  refine ⟨hl, ?_⟩
  intro j
  unfold forXY
  rw [hr]
  by_cases h : j < W * H
  · have h1 := (index_decomp W H j).2 h
    have h2 : j < nodes.length := by omega
    simp only [h1, h2, and_self, if_true]
  · have h2 : ¬ j < nodes.length := by omega
    simp only [h2, and_false, if_false]
    have : readNode nodes j = Node.fresh := by
      unfold readNode
      rw [List.getD_eq_getElem?_getD, List.getElem?_eq_none (by omega)]
      rfl
    rw [this]; rfl

theorem cell_div_mod (W x y : Nat) (hx : x < W) :
    (y * W + x) / W = y ∧ (y * W + x) % W = x := by
  have hW : 0 < W := by omega
  exact (Nat.div_mod_unique hW).2 ⟨by rw [Nat.mul_comm]; omega, hx⟩

theorem cell_lt (W H x y : Nat) (hx : x < W) (hy : y < H) : y * W + x < W * H := by
  calc y * W + x < y * W + W := by omega
    _ = (y + 1) * W := by ring
    _ ≤ H * W := Nat.mul_le_mul_right W hy
    _ = W * H := Nat.mul_comm H W

theorem mem_gridNeighbors (W H x y b : Nat) (hx : x < W) (hy : y < H) :
    b ∈ gridNeighbors W H x y ↔ b < W * H ∧ Adj4 x y (b % W) (b / W) := by
  have hW : 0 < W := by omega
  constructor
  · intro h
    simp only [gridNeighbors, List.mem_append] at h
    rcases h with ((h | h) | h) | h
    · split at h
      · simp only [List.mem_singleton] at h
        subst h
        obtain ⟨hd, hm⟩ := cell_div_mod W (x - 1) y (by omega)
        refine ⟨cell_lt W H (x - 1) y (by omega) hy, ?_⟩
        rw [hd, hm]; right; exact ⟨rfl, by omega⟩
      · simp at h
    · split at h
      · simp only [List.mem_singleton] at h
        subst h
        obtain ⟨hd, hm⟩ := cell_div_mod W x (y - 1) hx
        refine ⟨cell_lt W H x (y - 1) hx (by omega), ?_⟩
        rw [hd, hm]; left; exact ⟨rfl, by omega⟩
      · simp at h
    · split at h
      · simp only [List.mem_singleton] at h
        subst h
        obtain ⟨hd, hm⟩ := cell_div_mod W (x + 1) y (by omega)
        refine ⟨cell_lt W H (x + 1) y (by omega) hy, ?_⟩
        rw [hd, hm]; right; exact ⟨rfl, by omega⟩
      · simp at h
    · split at h
      · simp only [List.mem_singleton] at h
        subst h
        obtain ⟨hd, hm⟩ := cell_div_mod W x (y + 1) hx
        refine ⟨cell_lt W H x (y + 1) hx (by omega), ?_⟩
        rw [hd, hm]; left; exact ⟨rfl, by omega⟩
      · simp at h
  · rintro ⟨hb, hadj⟩
    have hbe : b = (b / W) * W + b % W := by
      rw [Nat.mul_comm]; exact (Nat.div_add_mod b W).symm
    have hbx : b % W < W := Nat.mod_lt b hW
    have hby : b / W < H := (Nat.div_lt_iff_lt_mul hW).2 (by rw [Nat.mul_comm]; exact hb)
    simp only [gridNeighbors, List.mem_append]
    generalize b / W = q at hbe hby hadj
    generalize b % W = r at hbe hbx hadj
    rcases hadj with ⟨h1, h2 | h2⟩ | ⟨h1, h2 | h2⟩
    · right
      have : y < H - 1 := by omega
      rw [if_pos this, List.mem_singleton, hbe, h1, h2]
    · left; left; right
      have : y > 0 := by omega
      rw [if_pos this, List.mem_singleton]
      have : y - 1 = q := by omega
      rw [this, ← h1]; exact hbe
    · left; right
      have : x < W - 1 := by omega
      rw [if_pos this, List.mem_singleton, hbe, h1, h2]
    · left; left; left
      have : x > 0 := by omega
      rw [if_pos this, List.mem_singleton]
      have : x - 1 = r := by omega
      rw [this, ← h1]; exact hbe

theorem Adj4.symm {x y x' y' : Nat} (h : Adj4 x y x' y') : Adj4 x' y' x y := by
  unfold Adj4 at *
  omega

theorem coord_lt {s : State} {i : Nat} (hi : i < s.size) :
    i % s.m_nMapWidth < s.m_nMapWidth ∧ i / s.m_nMapWidth < s.m_nMapHeight := by
  unfold State.size at hi
  have hW : 0 < s.m_nMapWidth := by
    rcases Nat.eq_zero_or_pos s.m_nMapWidth with h0 | h0
    · rw [h0] at hi; simp at hi
    · exact h0
  exact ⟨Nat.mod_lt i hW, (Nat.div_lt_iff_lt_mul hW).2 (by rw [Nat.mul_comm]; exact hi)⟩

/-- Membership in a neighbour list of a well-formed map is 4-adjacency of
in-range cells. -/
theorem WellFormed.mem_neighbors {s : State} (hs : WellFormed s) {i b : Nat}
    (hi : i < s.size) :
    b ∈ (readNode s.m_nodes i).m_nodeNeighbors ↔
      b < s.size ∧ Adj4 (i % s.m_nMapWidth) (i / s.m_nMapWidth)
        (b % s.m_nMapWidth) (b / s.m_nMapWidth) := by
  obtain ⟨hx, hy⟩ := coord_lt hi
  rw [(hs.2.2.2 i hi).2.2]
  exact mem_gridNeighbors _ _ _ _ b hx hy

theorem WellFormed.neighbor_symm {s : State} (hs : WellFormed s) {i b : Nat}
    (hi : i < s.size) (hb : b ∈ (readNode s.m_nodes i).m_nodeNeighbors) :
    b < s.size ∧ i ∈ (readNode s.m_nodes b).m_nodeNeighbors := by
  obtain ⟨hb1, hb2⟩ := (hs.mem_neighbors hi).1 hb
  exact ⟨hb1, (hs.mem_neighbors hb1).2 ⟨hi, hb2.symm⟩⟩

theorem WellFormed.edge_length {s : State} (hs : WellFormed s) {i b : Nat}
    (hi : i < s.size) (hb : b ∈ (readNode s.m_nodes i).m_nodeNeighbors) :
    (readNode s.m_nodes i).getDistanceToNode (readNode s.m_nodes b) = 1 := by
  obtain ⟨hb1, hb2⟩ := (hs.mem_neighbors hi).1 hb
  unfold Node.getDistanceToNode Node.sqDistanceToNode
  rw [(hs.2.2.2 i hi).1, (hs.2.2.2 i hi).2.1, (hs.2.2.2 b hb1).1, (hs.2.2.2 b hb1).2.1]
  have : (((↑(i % s.m_nMapWidth) : Int) - ↑(b % s.m_nMapWidth))
      * ((↑(i % s.m_nMapWidth) : Int) - ↑(b % s.m_nMapWidth))
      + ((↑(i / s.m_nMapWidth) : Int) - ↑(b / s.m_nMapWidth))
        * ((↑(i / s.m_nMapWidth) : Int) - ↑(b / s.m_nMapWidth))) = 1 := by
    unfold Adj4 at hb2
    rcases hb2 with ⟨h1, h2 | h2⟩ | ⟨h1, h2 | h2⟩
    · rw [h1, h2]; push_cast; ring
    · rw [h1, ← h2]; push_cast; ring
    · rw [h1, h2]; push_cast; ring
    · rw [h1, ← h2]; push_cast; ring
  rw [this]
  norm_num

/-! ## `AStar` and `dijkstra` as instances of the shared loop -/

theorem AStar_relax_eq (nodeEnd cur : Nat) (st : List Node × List Nat) (nb : Nat) :
    AStar.relax nodeEnd cur st nb = costRelax true nodeEnd cur st nb := by
  unfold AStar.relax costRelax relaxedNode
  by_cases h : localLt (addDistance (readNode st.1 cur).m_localGoal
        ((readNode st.1 cur).getDistanceToNode (readNode st.1 nb)))
        (readNode st.1 nb).m_localGoal = true
  · simp [h]
  · simp [h]

theorem dijkstra_relax_eq (nodeEnd cur : Nat) (st : List Node × List Nat) (nb : Nat) :
    dijkstra.relax cur st nb = costRelax false nodeEnd cur st nb := by
  unfold dijkstra.relax costRelax relaxedNode
  by_cases h : localLt (addDistance (readNode st.1 cur).m_localGoal
        ((readNode st.1 cur).getDistanceToNode (readNode st.1 nb)))
        (readNode st.1 nb).m_localGoal = true
  · simp [h]
  · simp [h]

theorem AStar_iter_eq (pq : PriorityQueue) (nodeEnd : Nat) (nodes : List Node) (q : List Nat) :
    AStar.iter pq nodeEnd nodes q = costIter pq true nodeEnd nodes q := by
  unfold AStar.iter costIter
  have : AStar.relax nodeEnd = costRelax true nodeEnd := by
    funext cur st nb; exact AStar_relax_eq nodeEnd cur st nb
  simp only [this]

theorem AStar_loop_eq (pq : PriorityQueue) (nodeEnd : Nat) (fuel : Nat) :
    ∀ (nodes : List Node) (q : List Nat),
      AStar.loop pq nodeEnd fuel nodes q = costLoop pq true nodeEnd fuel nodes q := by
  induction fuel with
  | zero => intro nodes q; rfl
  | succ f ih =>
    intro nodes q
    unfold AStar.loop costLoop
    rw [AStar_iter_eq]
    split
    · rfl
    · split
      · rfl
      · exact ih _ _

theorem drain_fifo (nodes : List Node) (nodeEnd : Nat) :
    ∀ (k : Nat) (q : List Nat), q.length ≤ k →
      AStar.drain fifo nodes nodeEnd k q = dijkstra.drain nodes nodeEnd q := by
  intro k
  induction k with
  | zero =>
    intro q hq
    have : q = [] := List.length_eq_zero.1 (by omega)
    subst this; rfl
  | succ k ih =>
    intro q hq
    cases q with
    | nil => simp [AStar.drain, dijkstra.drain]
    | cons a l =>
      have ht : fifo.top nodes (a :: l) = a := rfl
      unfold AStar.drain dijkstra.drain
      rw [ht]
      by_cases h : (readNode nodes a).m_bVisited = true ∨ a = nodeEnd
      · have h2 : (a :: l) ≠ [] ∧ ((readNode nodes a).m_bVisited = true ∨ a = nodeEnd) :=
          ⟨List.cons_ne_nil a l, h⟩
        rw [if_pos h2, if_pos h, List.erase_cons_head]
        exact ih l (by simpa using hq)
      · have h2 : ¬ ((a :: l) ≠ [] ∧ ((readNode nodes a).m_bVisited = true ∨ a = nodeEnd)) :=
          fun hh => h hh.2
        rw [if_neg h2, if_neg h]

theorem dijkstra_drain_head (nodes : List Node) (nodeEnd : Nat) (q : List Nat) :
    dijkstra.drain nodes nodeEnd q = [] ∨
      ∃ c rest, dijkstra.drain nodes nodeEnd q = c :: rest := by
  cases h : dijkstra.drain nodes nodeEnd q with
  | nil => exact Or.inl rfl
  | cons c rest => exact Or.inr ⟨c, rest, rfl⟩

theorem dijkstra_iter_eq (nodeEnd : Nat) (nodes : List Node) (q : List Nat) :
    dijkstra.iter nodeEnd nodes q = costIter fifo false nodeEnd nodes q := by
  unfold dijkstra.iter costIter
  rw [drain_fifo nodes nodeEnd q.length q (le_refl _)]
  have hr : dijkstra.relax = costRelax false nodeEnd := by
    funext cur st nb; exact dijkstra_relax_eq nodeEnd cur st nb
  rcases dijkstra_drain_head nodes nodeEnd q with h | ⟨c, rest, h⟩
  · rw [h]; rfl
  · rw [h, hr]
    have ht : fifo.top nodes (c :: rest) = c := rfl
    simp only [List.cons_ne_nil, if_false, reduceCtorEq, ht]

theorem dijkstra_loop_eq (nodeEnd : Nat) (fuel : Nat) :
    ∀ (nodes : List Node) (q : List Nat),
      dijkstra.loop nodeEnd fuel nodes q = costLoop fifo false nodeEnd fuel nodes q := by
  induction fuel with
  | zero => intro nodes q; rfl
  | succ f ih =>
    intro nodes q
    unfold dijkstra.loop costLoop
    rw [dijkstra_iter_eq]
    split
    · rfl
    · split
      · rfl
      · exact ih _ _

theorem AStar_eq (pq : PriorityQueue) (s : State) :
    AStar pq s = (costLoop pq true s.m_nodeEnd s.size (seeded true s) [s.m_nodeStart]).map
      (fun nodes => { s with m_nodes := nodes }) := by
  simp only [AStar, seeded, AStar_loop_eq, if_true]

theorem dijkstra_eq (s : State) :
    dijkstra s = (costLoop fifo false s.m_nodeEnd s.size (seeded false s) [s.m_nodeStart]).map
      (fun nodes => { s with m_nodes := nodes }) := by
  simp only [dijkstra, seeded, dijkstra_loop_eq, Bool.false_eq_true, if_false]

/-! ## One expansion in closed form -/

theorem sqDistance_congr {a a' b b' : Node} (hax : a.m_x = a'.m_x) (hay : a.m_y = a'.m_y)
    (hbx : b.m_x = b'.m_x) (hby : b.m_y = b'.m_y) :
    a.sqDistanceToNode b = a'.sqDistanceToNode b' := by
  unfold Node.sqDistanceToNode
  rw [hax, hay, hbx, hby]

theorem SameMap.radTo {s : State} {nodes : List Node} (h : SameMap s nodes) (j : Nat) :
    (readNode nodes j).sqDistanceToNode (readNode nodes s.m_nodeEnd) = radTo s j :=
  sqDistance_congr (h.2 j).2.1 (h.2 j).2.2.1 (h.2 s.m_nodeEnd).2.1 (h.2 s.m_nodeEnd).2.2.1

theorem SameMap.edge {s : State} {nodes : List Node} (h : SameMap s nodes)
    (hs : WellFormed s) {i b : Nat} (hi : i < s.size)
    (hb : b ∈ (readNode s.m_nodes i).m_nodeNeighbors) :
    (readNode nodes i).getDistanceToNode (readNode nodes b) = 1 := by
  rw [← hs.edge_length hi hb]
  unfold Node.getDistanceToNode
  rw [sqDistance_congr (h.2 i).2.1 (h.2 i).2.2.1 (h.2 b).2.1 (h.2 b).2.2.1]

theorem relaxedNode_eq {s : State} {nodes : List Node} (h : SameMap s nodes)
    (hs : WellFormed s) (heur : Bool) {cur b : Nat} (hcur : cur < s.size)
    (hb : b ∈ (readNode s.m_nodes cur).m_nodeNeighbors) :
    relaxedNode heur s.m_nodeEnd cur nodes b
      = relaxCore heur (readNode nodes cur).m_localGoal 1 (radTo s b) cur (readNode nodes b) := by
  unfold relaxedNode relaxCore
  rw [h.edge hs hcur hb, h.radTo]

theorem localLt_irrefl (a : Option Nat) : localLt a a = false := by
  cases a with
  | none => rfl
  | some v => simp [localLt]

theorem relaxCore_idem (heur : Bool) (gc : Option Nat) (w rad cur : Nat) (v : Node) :
    relaxCore heur gc w rad cur (relaxCore heur gc w rad cur v) = relaxCore heur gc w rad cur v := by
  unfold relaxCore
  by_cases h : localLt (addDistance gc w) v.m_localGoal = true
  · simp [h, localLt_irrefl]
  · simp [h]

theorem relaxCore_frame (heur : Bool) (gc : Option Nat) (w rad cur : Nat) (v : Node) :
    (relaxCore heur gc w rad cur v).m_bObstacle = v.m_bObstacle ∧
    (relaxCore heur gc w rad cur v).m_bVisited = v.m_bVisited ∧
    (relaxCore heur gc w rad cur v).m_x = v.m_x ∧
    (relaxCore heur gc w rad cur v).m_y = v.m_y ∧
    (relaxCore heur gc w rad cur v).m_nodeNeighbors = v.m_nodeNeighbors := by
  unfold relaxCore
  split <;> simp

theorem WellFormed.not_self_neighbor {s : State} (hs : WellFormed s) {i : Nat}
    (hi : i < s.size) : i ∉ (readNode s.m_nodes i).m_nodeNeighbors := by
  intro h
  have := ((hs.mem_neighbors hi).1 h).2
  unfold Adj4 at this
  omega

theorem pushable_congr {nodes nodes1 : List Node} {b : Nat}
    (h1 : (readNode nodes1 b).m_bVisited = (readNode nodes b).m_bVisited)
    (h2 : (readNode nodes1 b).m_bObstacle = (readNode nodes b).m_bObstacle) :
    pushable nodes1 b = pushable nodes b := by
  unfold pushable
  rw [h1, h2]

/-- One pass through the body of the neighbour loop, on a well-formed map. -/
theorem costRelax_spec {s : State} (hs : WellFormed s) (heur : Bool) {cur a : Nat}
    (hcur : cur < s.size) (ha : a ∈ (readNode s.m_nodes cur).m_nodeNeighbors)
    (nodes : List Node) (q : List Nat) (h : SameMap s nodes) :
    SameMap s (costRelax heur s.m_nodeEnd cur (nodes, q) a).1 ∧
    (∀ j, readNode (costRelax heur s.m_nodeEnd cur (nodes, q) a).1 j
      = if j = a then
          relaxCore heur (readNode nodes cur).m_localGoal 1 (radTo s a) cur (readNode nodes a)
        else readNode nodes j) ∧
    (costRelax heur s.m_nodeEnd cur (nodes, q) a).2
      = q ++ (if pushable nodes a = true then [a] else []) := by
  have ha_lt : a < nodes.length := by
    rw [h.1]; exact ((hs.mem_neighbors hcur).1 ha).1
  have hrd : ∀ j, readNode (costRelax heur s.m_nodeEnd cur (nodes, q) a).1 j
      = if j = a then
          relaxCore heur (readNode nodes cur).m_localGoal 1 (radTo s a) cur (readNode nodes a)
        else readNode nodes j := by
    intro j
    have hre := relaxedNode_eq h hs heur hcur ha
    unfold costRelax
    simp only
    rw [h.edge hs hcur ha]
    by_cases hc : localLt (addDistance (readNode nodes cur).m_localGoal 1)
        (readNode nodes a).m_localGoal = true
    · rw [if_pos hc, readNode_writeNode, hre]
      by_cases hj : j = a
      · simp [hj, ha_lt]
      · simp [hj]
    · rw [if_neg hc]
      by_cases hj : j = a
      · subst hj
        simp only [if_true]
        unfold relaxCore
        rw [if_neg hc]
      · simp [hj]
  have hlen : (costRelax heur s.m_nodeEnd cur (nodes, q) a).1.length = nodes.length := by
    unfold costRelax
    simp only
    split
    · exact length_writeNode _ _ _
    · rfl
  refine ⟨⟨by rw [hlen]; exact h.1, ?_⟩, hrd, ?_⟩
  · intro i
    rw [hrd i]
    by_cases hi : i = a
    · subst hi
      simp only [if_true]
      obtain ⟨f1, -, f3, f4, f5⟩ := relaxCore_frame heur (readNode nodes cur).m_localGoal 1
        (radTo s i) cur (readNode nodes i)
      rw [f1, f3, f4, f5]
      exact h.2 i
    · simp only [hi, if_false]
      exact h.2 i
  · have hp : pushable (costRelax heur s.m_nodeEnd cur (nodes, q) a).1 a = pushable nodes a := by
      apply pushable_congr
      · rw [hrd a]; simp only [if_true]
        exact (relaxCore_frame _ _ _ _ _ _).2.1
      · rw [hrd a]; simp only [if_true]
        exact (relaxCore_frame _ _ _ _ _ _).1
    have hq : (costRelax heur s.m_nodeEnd cur (nodes, q) a).2
        = if pushable (costRelax heur s.m_nodeEnd cur (nodes, q) a).1 a = true
          then q ++ [a] else q := by
      unfold costRelax pushable
      simp only [Bool.and_eq_true, Bool.not_eq_true', Bool.not_eq_eq_eq_not, Bool.not_true]
    rw [hq, hp]
    split <;> simp

/-- The whole neighbour loop in closed form. -/
theorem expand_spec {s : State} (hs : WellFormed s) (heur : Bool) {cur : Nat}
    (hcur : cur < s.size) :
    ∀ (l : List Nat) (nodes : List Node) (q : List Nat), SameMap s nodes →
      (∀ b ∈ l, b ∈ (readNode s.m_nodes cur).m_nodeNeighbors) →
      SameMap s (l.foldl (costRelax heur s.m_nodeEnd cur) (nodes, q)).1 ∧
      (∀ j, readNode (l.foldl (costRelax heur s.m_nodeEnd cur) (nodes, q)).1 j
        = if j ∈ l then
            relaxCore heur (readNode nodes cur).m_localGoal 1 (radTo s j) cur (readNode nodes j)
          else readNode nodes j) ∧
      (l.foldl (costRelax heur s.m_nodeEnd cur) (nodes, q)).2
        = q ++ l.filter (pushable nodes) := by
  intro l
  induction l with
  | nil =>
    intro nodes q h _
    simp [h]
  | cons a l ih =>
    intro nodes q h hl
    have ha : a ∈ (readNode s.m_nodes cur).m_nodeNeighbors := hl a (List.mem_cons_self a l)
    obtain ⟨h1, hr1, hq1⟩ := costRelax_spec hs heur hcur ha nodes q h
    have hne : cur ≠ a := by
      rintro rfl
      exact hs.not_self_neighbor hcur ha
    rw [List.foldl_cons]
    have hst : costRelax heur s.m_nodeEnd cur (nodes, q) a
        = ((costRelax heur s.m_nodeEnd cur (nodes, q) a).1,
           (costRelax heur s.m_nodeEnd cur (nodes, q) a).2) := rfl
    rw [hst]
    obtain ⟨h2, hr2, hq2⟩ := ih _ (costRelax heur s.m_nodeEnd cur (nodes, q) a).2 h1
      (fun b hb => hl b (List.mem_cons_of_mem a hb))
    refine ⟨h2, ?_, ?_⟩
    · intro j
      rw [hr2 j, hr1 cur, if_neg hne, hr1 j]
      by_cases hja : j = a
      · subst hja
        simp only [if_true, List.mem_cons, true_or]
        rw [relaxCore_idem]
        split <;> rfl
      · simp only [hja, if_false, List.mem_cons, false_or]
    · rw [hq2, hq1]
      have hp : ∀ b, pushable (costRelax heur s.m_nodeEnd cur (nodes, q) a).1 b
          = pushable nodes b := by
        intro b
        apply pushable_congr
        · rw [hr1 b]
          split
          · rename_i hb; rw [hb]; exact (relaxCore_frame _ _ _ _ _ _).2.1
          · rfl
        · rw [hr1 b]
          split
          · rename_i hb; rw [hb]; exact (relaxCore_frame _ _ _ _ _ _).1
          · rfl
      have hf : pushable (costRelax heur s.m_nodeEnd cur (nodes, q) a).1 = pushable nodes :=
        funext hp
      rw [hf, List.filter_cons]
      split <;> simp

/-- What the drain loop leaves: a sublist of the queue, from which only
visited cells and the end cell were removed, and whose top (if any) is an
unvisited cell other than the end cell. -/
theorem drain_spec (pq : PriorityQueue) (nodes : List Node) (nodeEnd : Nat) :
    ∀ (k : Nat) (q : List Nat), q.length ≤ k →
      (AStar.drain pq nodes nodeEnd k q).Sublist q ∧
      (∀ a ∈ q, a ∈ AStar.drain pq nodes nodeEnd k q ∨
        (readNode nodes a).m_bVisited = true ∨ a = nodeEnd) ∧
      (AStar.drain pq nodes nodeEnd k q ≠ [] →
        (readNode nodes (pq.top nodes (AStar.drain pq nodes nodeEnd k q))).m_bVisited = false ∧
        pq.top nodes (AStar.drain pq nodes nodeEnd k q) ≠ nodeEnd) := by
  intro k
  induction k with
  | zero =>
    intro q hq
    have : q = [] := List.length_eq_zero.1 (by omega)
    subst this
    simp [AStar.drain]
  | succ k ih =>
    intro q hq
    unfold AStar.drain
    by_cases hc : q ≠ [] ∧ ((readNode nodes (pq.top nodes q)).m_bVisited = true
        ∨ pq.top nodes q = nodeEnd)
    · rw [if_pos hc]
      have hmem := pq.top_mem nodes q hc.1
      have hlen : (q.erase (pq.top nodes q)).length ≤ k := by
        rw [List.length_erase_of_mem hmem]; omega
      obtain ⟨i1, i2, i3⟩ := ih (q.erase (pq.top nodes q)) hlen
      refine ⟨i1.trans (List.erase_sublist _ _), ?_, i3⟩
      intro a ha
      by_cases hat : a = pq.top nodes q
      · right; rw [hat]; exact hc.2
      · exact i2 a ((List.mem_erase_of_ne hat).2 ha)
    · rw [if_neg hc]
      refine ⟨List.Sublist.refl q, fun a ha => Or.inl ha, ?_⟩
      intro hne
      by_cases hv : (readNode nodes (pq.top nodes q)).m_bVisited = true
      · exact absurd ⟨hne, Or.inl hv⟩ hc
      · by_cases he : pq.top nodes q = nodeEnd
        · exact absurd ⟨hne, Or.inr he⟩ hc
        · exact ⟨by simpa using hv, he⟩

theorem SameMap.write {s : State} {nodes : List Node} (h : SameMap s nodes) (i : Nat)
    (v : Node) (h1 : v.m_bObstacle = (readNode nodes i).m_bObstacle)
    (h2 : v.m_x = (readNode nodes i).m_x) (h3 : v.m_y = (readNode nodes i).m_y)
    (h4 : v.m_nodeNeighbors = (readNode nodes i).m_nodeNeighbors) :
    SameMap s (writeNode nodes i v) := by
  refine ⟨by rw [length_writeNode]; exact h.1, ?_⟩
  intro j
  rw [readNode_writeNode]
  split
  · rename_i hj
    rw [hj.1, h1, h2, h3, h4]
    exact h.2 i
  · exact h.2 j

/-- One pass through the body of the outer loop either breaks, with every
queued cell visited or equal to the end cell, or is a `Step` for the top of
the drained queue. -/
theorem costIter_cases {s : State} (hs : WellFormed s) (pq : PriorityQueue) (heur : Bool)
    (nodes : List Node) (q : List Nat) (h : SameMap s nodes)
    (hq : ∀ a ∈ q, a < s.size) :
    (AStar.drain pq nodes s.m_nodeEnd q.length q = [] ∧
      costIter pq heur s.m_nodeEnd nodes q = none ∧
      ∀ a ∈ q, (readNode nodes a).m_bVisited = true ∨ a = s.m_nodeEnd) ∨
    (AStar.drain pq nodes s.m_nodeEnd q.length q ≠ [] ∧
      ∃ nodes' q', costIter pq heur s.m_nodeEnd nodes q = some (nodes', q') ∧
        Step s heur nodes q nodes' q'
          (pq.top nodes (AStar.drain pq nodes s.m_nodeEnd q.length q))
          (AStar.drain pq nodes s.m_nodeEnd q.length q)) := by
  obtain ⟨d1, d2, d3⟩ := drain_spec pq nodes s.m_nodeEnd q.length q (le_refl _)
  unfold costIter
  simp only
  by_cases he : AStar.drain pq nodes s.m_nodeEnd q.length q = []
  · left
    rw [if_pos he]
    refine ⟨he, rfl, ?_⟩
    intro a ha
    rcases d2 a ha with h1 | h1
    · rw [he] at h1; simp at h1
    · exact h1
  · right
    rw [if_neg he]
    refine ⟨he, ?_⟩
    generalize hq1 : AStar.drain pq nodes s.m_nodeEnd q.length q = q1 at d1 d2 d3 he ⊢
    have hcm : pq.top nodes q1 ∈ q1 := pq.top_mem nodes q1 he
    generalize hcur : pq.top nodes q1 = cur at d3 hcm ⊢
    have hcq : cur ∈ q := d1.subset hcm
    have hcl : cur < s.size := hq cur hcq
    obtain ⟨hv, hne⟩ := d3 he
    have hm1 : SameMap s (writeNode nodes cur { readNode nodes cur with m_bVisited := true }) :=
      h.write cur _ rfl rfl rfl rfl
    have hnb : (readNode (writeNode nodes cur { readNode nodes cur with m_bVisited := true })
        cur).m_nodeNeighbors = (readNode s.m_nodes cur).m_nodeNeighbors := (hm1.2 cur).2.2.2
    rw [hnb]
    obtain ⟨e1, e2, e3⟩ := expand_spec hs heur hcl (readNode s.m_nodes cur).m_nodeNeighbors
      (writeNode nodes cur { readNode nodes cur with m_bVisited := true }) q1 hm1
      (fun b hb => hb)
    refine ⟨_, _, rfl, ?_⟩
    have hcn : cur ∉ (readNode s.m_nodes cur).m_nodeNeighbors := hs.not_self_neighbor hcl
    have hcl2 : cur < nodes.length := by rw [h.1]; exact hcl
    refine ⟨d1, d2, hcm, hv, hne, e1, ?_, ?_⟩
    · intro j
      rw [e2 j]
      by_cases hj : j ∈ (readNode s.m_nodes cur).m_nodeNeighbors
      · have hjc : j ≠ cur := by rintro rfl; exact hcn hj
        rw [if_pos hj, if_pos hj, readNode_writeNode_same _ _ _ hcl2,
          readNode_writeNode_ne _ _ _ _ hjc]
      · rw [if_neg hj, if_neg hj, readNode_writeNode]
        by_cases hjc : j = cur
        · simp [hjc, hcl2]
        · simp [hjc]
    · rw [e3]
      congr 1
      apply List.filter_congr
      intro b hb
      have hbc : b ≠ cur := by rintro rfl; exact hcn hb
      apply pushable_congr
      · rw [readNode_writeNode_ne _ _ _ _ hbc]
      · rw [readNode_writeNode_ne _ _ _ _ hbc]

theorem costIter_spec {s : State} (hs : WellFormed s) (pq : PriorityQueue) (heur : Bool)
    (nodes : List Node) (q : List Nat) (h : SameMap s nodes)
    (hq : ∀ a ∈ q, a < s.size) :
    (costIter pq heur s.m_nodeEnd nodes q = none ∧
      ∀ a ∈ q, (readNode nodes a).m_bVisited = true ∨ a = s.m_nodeEnd) ∨
    ∃ nodes' q' q1, costIter pq heur s.m_nodeEnd nodes q = some (nodes', q') ∧
      Step s heur nodes q nodes' q' (pq.top nodes q1) q1 := by
  rcases costIter_cases hs pq heur nodes q h hq with ⟨_, h1, h2⟩ | ⟨_, nodes', q', h1, h2⟩
  · exact Or.inl ⟨h1, h2⟩
  · exact Or.inr ⟨nodes', q', _, h1, h2⟩

theorem localLt_some_iff (a : Nat) (g : Option Nat) :
    localLt (some a) g = true ↔ ∀ k, g = some k → a < k := by
  cases g with
  | none => simp [localLt]
  | some v => simp [localLt]

theorem Step.vis {s : State} {heur : Bool} {nodes nodes' : List Node} {q q' q1 : List Nat}
    {cur : Nat} (st : Step s heur nodes q nodes' q' cur q1) (hs : WellFormed s)
    (hcur : cur < s.size) (j : Nat) :
    (readNode nodes' j).m_bVisited = true ↔ (readNode nodes j).m_bVisited = true ∨ j = cur := by
  rw [st.read j]
  by_cases hj : j ∈ (readNode s.m_nodes cur).m_nodeNeighbors
  · have hjc : j ≠ cur := by rintro rfl; exact hs.not_self_neighbor hcur hj
    rw [if_pos hj, (relaxCore_frame _ _ _ _ _ _).2.1]
    simp [hjc]
  · rw [if_neg hj]
    by_cases hjc : j = cur
    · simp [hjc]
    · simp [hjc]

/-- A neighbour whose local goal is improved by the expansion of `cur`. -/
theorem Step.improved {s : State} {heur : Bool} {nodes nodes' : List Node} {q q' q1 : List Nat}
    {cur : Nat} (st : Step s heur nodes q nodes' q' cur q1) {gc : Nat}
    (hgc : (readNode nodes cur).m_localGoal = some gc) {j : Nat}
    (hj : j ∈ (readNode s.m_nodes cur).m_nodeNeighbors)
    (himp : ∀ k, (readNode nodes j).m_localGoal = some k → gc + 1 < k) :
    (readNode nodes' j).m_localGoal = some (gc + 1) ∧
    (readNode nodes' j).m_parent = some cur ∧
    (heur = true → (readNode nodes' j).m_globalGoal = some ⟨gc + 1, radTo s j⟩) := by
  rw [st.read j, if_pos hj, hgc]
  unfold relaxCore
  have : localLt (addDistance (some gc) 1) (readNode nodes j).m_localGoal = true :=
    (localLt_some_iff _ _).2 himp
  rw [if_pos this]
  refine ⟨rfl, rfl, ?_⟩
  intro hh
  simp [hh, addDistance, addHeuristic]

/-- A cell whose annotations other than `m_bVisited` the expansion of `cur`
leaves alone. -/
theorem Step.same {s : State} {heur : Bool} {nodes nodes' : List Node} {q q' q1 : List Nat}
    {cur : Nat} (st : Step s heur nodes q nodes' q' cur q1) {gc : Nat}
    (hgc : (readNode nodes cur).m_localGoal = some gc) {j : Nat}
    (hj : j ∈ (readNode s.m_nodes cur).m_nodeNeighbors →
      ∃ k, (readNode nodes j).m_localGoal = some k ∧ k ≤ gc + 1) :
    (readNode nodes' j).m_localGoal = (readNode nodes j).m_localGoal ∧
    (readNode nodes' j).m_parent = (readNode nodes j).m_parent ∧
    (readNode nodes' j).m_globalGoal = (readNode nodes j).m_globalGoal := by
  rw [st.read j]
  by_cases hjn : j ∈ (readNode s.m_nodes cur).m_nodeNeighbors
  · obtain ⟨k, hk, hle⟩ := hj hjn
    rw [if_pos hjn, hgc]
    unfold relaxCore
    have : ¬ localLt (addDistance (some gc) 1) (readNode nodes j).m_localGoal = true := by
      rw [hk]
      simp [addDistance, localLt]
      omega
    rw [if_neg this]
    exact ⟨rfl, rfl, rfl⟩
  · rw [if_neg hjn]
    by_cases hjc : j = cur
    · subst hjc; simp
    · simp [hjc]

/-- Every cell is either improved to `gc + 1` with parent `cur`, or keeps its
annotations. -/
theorem Step.cases {s : State} {heur : Bool} {nodes nodes' : List Node} {q q' q1 : List Nat}
    {cur : Nat} (st : Step s heur nodes q nodes' q' cur q1) {gc : Nat}
    (hgc : (readNode nodes cur).m_localGoal = some gc) (j : Nat) :
    (j ∈ (readNode s.m_nodes cur).m_nodeNeighbors ∧
      (∀ k, (readNode nodes j).m_localGoal = some k → gc + 1 < k) ∧
      (readNode nodes' j).m_localGoal = some (gc + 1) ∧
      (readNode nodes' j).m_parent = some cur ∧
      (heur = true → (readNode nodes' j).m_globalGoal = some ⟨gc + 1, radTo s j⟩)) ∨
    ((j ∈ (readNode s.m_nodes cur).m_nodeNeighbors →
        ∃ k, (readNode nodes j).m_localGoal = some k ∧ k ≤ gc + 1) ∧
      (readNode nodes' j).m_localGoal = (readNode nodes j).m_localGoal ∧
      (readNode nodes' j).m_parent = (readNode nodes j).m_parent ∧
      (readNode nodes' j).m_globalGoal = (readNode nodes j).m_globalGoal) := by
  by_cases hj : j ∈ (readNode s.m_nodes cur).m_nodeNeighbors ∧
      ∀ k, (readNode nodes j).m_localGoal = some k → gc + 1 < k
  · left
    exact ⟨hj.1, hj.2, st.improved hgc hj.1 hj.2⟩
  · right
    have h2 : j ∈ (readNode s.m_nodes cur).m_nodeNeighbors →
        ∃ k, (readNode nodes j).m_localGoal = some k ∧ k ≤ gc + 1 := by
      intro hjn
      by_contra hcon
      apply hj
      refine ⟨hjn, ?_⟩
      intro k hk
      by_contra hlt
      exact hcon ⟨k, hk, by omega⟩
    exact ⟨h2, st.same hgc h2⟩

/-! ## The loop invariant -/

theorem Reach.lt {s : State} (hs : WellFormed s) {k n : Nat} (h : Reach s k n) :
    n < s.size := by
  induction h with
  | start => exact hs.2.1
  | step _ _ hb ih => exact ((hs.mem_neighbors ih).1 hb).1

theorem seeded_spec {s : State} (hs : WellFormed s) (heur : Bool) :
    SameMap s (seeded heur s) ∧
    ∀ j, (readNode (seeded heur s) j).m_bVisited = false ∧
      (readNode (seeded heur s) j).m_parent = none ∧
      (readNode (seeded heur s) j).m_localGoal = (if j = s.m_nodeStart then some 0 else none) ∧
      (heur = true → j = s.m_nodeStart →
        (readNode (seeded heur s) j).m_globalGoal = some ⟨0, radTo s j⟩) := by
  obtain ⟨hl, hr⟩ := forXY_reset s.m_nMapWidth s.m_nMapHeight s.m_nodes hs.1
  have hsl : s.m_nodeStart < (forXY s.m_nMapWidth s.m_nMapHeight (resetNode s.m_nMapWidth)
      s.m_nodes).length := by rw [hl, hs.1]; exact hs.2.1
  have h0 : SameMap s (forXY s.m_nMapWidth s.m_nMapHeight (resetNode s.m_nMapWidth)
      s.m_nodes) := by
    refine ⟨by rw [hl]; exact hs.1, ?_⟩
    intro i
    rw [hr i]
    exact ⟨rfl, rfl, rfl, rfl⟩
  have h1 := h0.write s.m_nodeStart
    { readNode (forXY s.m_nMapWidth s.m_nMapHeight (resetNode s.m_nMapWidth) s.m_nodes)
        s.m_nodeStart with m_localGoal := some 0 } rfl rfl rfl rfl
  cases heur with
  | false =>
    simp only [seeded, Bool.false_eq_true, if_false]
    refine ⟨h1, ?_⟩
    intro j
    rw [readNode_writeNode]
    by_cases hj : j = s.m_nodeStart
    · rw [if_pos ⟨hj, hsl⟩, hr]
      exact ⟨rfl, rfl, by simp [hj], fun h => absurd h (by simp)⟩
    · rw [if_neg (fun h => hj h.1), hr]
      exact ⟨rfl, rfl, by simp [hj, Node.reset], fun h => absurd h (by simp)⟩
  | true =>
    simp only [seeded, if_true]
    have hsl1 : s.m_nodeStart < (writeNode (forXY s.m_nMapWidth s.m_nMapHeight
        (resetNode s.m_nMapWidth) s.m_nodes) s.m_nodeStart
        { readNode (forXY s.m_nMapWidth s.m_nMapHeight (resetNode s.m_nMapWidth) s.m_nodes)
            s.m_nodeStart with m_localGoal := some 0 }).length := by
      rw [length_writeNode]; exact hsl
    refine ⟨h1.write s.m_nodeStart _ rfl rfl rfl rfl, ?_⟩
    intro j
    rw [readNode_writeNode]
    by_cases hj : j = s.m_nodeStart
    · rw [if_pos ⟨hj, hsl1⟩]
      refine ⟨?_, ?_, ?_, ?_⟩
      · rw [readNode_writeNode_same _ _ _ hsl, hr]; rfl
      · rw [readNode_writeNode_same _ _ _ hsl, hr]; rfl
      · rw [if_pos hj, readNode_writeNode_same _ _ _ hsl]
      · intro _ _
        simp only [Option.some.injEq, GoalValue.mk.injEq, true_and]
        rw [hj]
        exact h1.radTo s.m_nodeStart
    · rw [if_neg (fun h => hj h.1), readNode_writeNode_ne _ _ _ _ hj, hr]
      exact ⟨rfl, rfl, by simp [hj, Node.reset], fun _ h => absurd h hj⟩

theorem Inv.init {s : State} (hs : WellFormed s) (heur : Bool) :
    Inv s heur (seeded heur s) [s.m_nodeStart] := by
  obtain ⟨hm, hr⟩ := seeded_spec hs heur
  have hv : ∀ v, ¬ (readNode (seeded heur s) v).m_bVisited = true := by
    intro v h; rw [(hr v).1] at h; exact absurd h (by simp)
  have hg : ∀ n k, (readNode (seeded heur s) n).m_localGoal = some k →
      n = s.m_nodeStart ∧ k = 0 := by
    intro n k h
    rw [(hr n).2.2.1] at h
    by_cases hn : n = s.m_nodeStart
    · rw [if_pos hn] at h
      exact ⟨hn, (Option.some.inj h).symm⟩
    · rw [if_neg hn] at h; exact absurd h (by simp)
  refine ⟨hm, fun v h => absurd h (hv v), ?_, ?_, fun v h => absurd h (hv v), ?_, ?_, ?_, ?_,
    ?_, fun v h => absurd h (hv v), ?_⟩
  · intro a ha
    rw [List.mem_singleton] at ha
    subst ha
    exact ⟨hs.2.1, Or.inl rfl⟩
  · intro a ha
    rw [List.mem_singleton] at ha
    subst ha
    exact ⟨0, by rw [(hr _).2.2.1, if_pos rfl]⟩
  · intro n p h
    rw [(hr n).2.1] at h; exact absurd h (by simp)
  · rw [(hr _).2.2.1, if_pos rfl]
  · intro n k h
    obtain ⟨h1, h2⟩ := hg n k h
    subst h1; subst h2
    exact Reach.start
  · intro n k h hn
    exact absurd (hg n k h).1 hn
  · intro n _ _ h
    obtain ⟨k, hk⟩ := h
    rw [(hg n k hk).1]
    exact List.mem_singleton_self _
  · intro hh n k h
    obtain ⟨h1, h2⟩ := hg n k h
    subst h2
    exact (hr n).2.2.2 hh h1

theorem Inv.step {s : State} (hs : WellFormed s) {heur : Bool} {nodes nodes' : List Node}
    {q q' q1 : List Nat} {cur : Nat} (inv : Inv s heur nodes q)
    (st : Step s heur nodes q nodes' q' cur q1) : Inv s heur nodes' q' := by
  have hcq : cur ∈ q := st.sub.subset st.cur_mem
  have hcl : cur < s.size := (inv.q_ok cur hcq).1
  obtain ⟨gc, hgc⟩ := inv.q_fin cur hcq
  have hexp : Expandable s cur := ⟨(inv.q_ok cur hcq).2, st.cur_ne_end⟩
  have hreach : Reach s gc cur := inv.sound _ _ hgc
  have fin_mono : ∀ j k, (readNode nodes j).m_localGoal = some k →
      ∃ k', (readNode nodes' j).m_localGoal = some k' ∧ k' ≤ k := by
    intro j k hk
    rcases st.cases hgc j with ⟨_, himp, hg, _, _⟩ | ⟨_, hg, _, _⟩
    · exact ⟨gc + 1, hg, by have := himp k hk; omega⟩
    · exact ⟨k, by rw [hg, hk], le_refl k⟩
  have nbr_fin : ∀ j, j ∈ (readNode s.m_nodes cur).m_nodeNeighbors →
      ∃ k', (readNode nodes' j).m_localGoal = some k' ∧ k' ≤ gc + 1 := by
    intro j hj
    rcases st.cases hgc j with ⟨_, _, hg, _, _⟩ | ⟨h2, hg, _, _⟩
    · exact ⟨gc + 1, hg, le_refl _⟩
    · obtain ⟨k, hk, hle⟩ := h2 hj
      exact ⟨k, by rw [hg, hk], hle⟩
  have cur_same : (readNode nodes' cur).m_localGoal = some gc := by
    rcases st.cases hgc cur with ⟨hj, _⟩ | ⟨_, hg, _, _⟩
    · exact absurd hj (hs.not_self_neighbor hcl)
    · rw [hg, hgc]
  have mem_q' : ∀ a, a ∈ q1 → a ∈ q' := by
    intro a ha; rw [st.queue]; exact List.mem_append_left _ ha
  refine ⟨st.map, ?_, ?_, ?_, ?_, ?_, ?_, ?_, ?_, ?_, ?_, ?_⟩
  · intro v hv
    rcases (st.vis hs hcl v).1 hv with h | h
    · exact inv.vis_ok v h
    · subst h; exact ⟨hexp, hcl⟩
  · intro a ha
    rw [st.queue, List.mem_append] at ha
    rcases ha with ha | ha
    · exact inv.q_ok a (st.sub.subset ha)
    · rw [List.mem_filter] at ha
      refine ⟨((hs.mem_neighbors hcl).1 ha.1).1, Or.inr ?_⟩
      have := ha.2
      simp only [pushable, Bool.and_eq_true, Bool.not_eq_true'] at this
      rw [← (inv.map.2 a).1]
      exact this.2
  · intro a ha
    rw [st.queue, List.mem_append] at ha
    rcases ha with ha | ha
    · obtain ⟨k, hk⟩ := inv.q_fin a (st.sub.subset ha)
      obtain ⟨k', hk', _⟩ := fin_mono a k hk
      exact ⟨k', hk'⟩
    · rw [List.mem_filter] at ha
      obtain ⟨k', hk', _⟩ := nbr_fin a ha.1
      exact ⟨k', hk'⟩
  · intro v hv
    rcases (st.vis hs hcl v).1 hv with h | h
    · obtain ⟨k, hk⟩ := inv.vis_fin v h
      obtain ⟨k', hk', _⟩ := fin_mono v k hk
      exact ⟨k', hk'⟩
    · subst h; exact ⟨gc, cur_same⟩
  · intro n p hp
    rcases st.cases hgc n with ⟨hj, _, hg, hpar, _⟩ | ⟨_, hg, hpar, _⟩
    · rw [hpar] at hp
      have : cur = p := Option.some.inj hp
      subst this
      exact ⟨(st.vis hs hcl cur).2 (Or.inr rfl), hj, gc + 1, gc, hg, cur_same, by omega⟩
    · rw [hpar] at hp
      obtain ⟨hv, hn, gn, gp, h1, h2, h3⟩ := inv.par_ok n p hp
      obtain ⟨gp', h4, h5⟩ := fin_mono p gp h2
      exact ⟨(st.vis hs hcl p).2 (Or.inl hv), hn, gn, gp', by rw [hg, h1], h4, by omega⟩
  · rcases st.cases hgc s.m_nodeStart with ⟨_, himp, _⟩ | ⟨_, hg, _, _⟩
    · have := himp 0 inv.g_start; omega
    · rw [hg]; exact inv.g_start
  · intro n k hk
    rcases st.cases hgc n with ⟨hj, _, hg, _, _⟩ | ⟨_, hg, _, _⟩
    · rw [hg] at hk
      have : gc + 1 = k := Option.some.inj hk
      subst this
      exact Reach.step hreach hexp hj
    · rw [hg] at hk; exact inv.sound n k hk
  · intro n k hk hn
    rcases st.cases hgc n with ⟨_, _, _, hpar, _⟩ | ⟨_, hg, hpar, _⟩
    · exact ⟨cur, hpar⟩
    · rw [hg] at hk; rw [hpar]; exact inv.par_some n k hk hn
  · intro n hv hE hfin
    have hv0 : (readNode nodes n).m_bVisited = false := by
      by_contra hcon
      have h1 : (readNode nodes n).m_bVisited = true := by simpa using hcon
      have := (st.vis hs hcl n).2 (Or.inl h1)
      rw [hv] at this; exact absurd this (by simp)
    by_cases hold : ∃ k, (readNode nodes n).m_localGoal = some k
    · have hq := inv.frontier n hv0 hE hold
      rcases st.kept n hq with h | h | h
      · exact mem_q' n h
      · rw [hv0] at h; exact absurd h (by simp)
      · exact absurd h hE.2
    · rcases st.cases hgc n with ⟨hj, _, _, _, _⟩ | ⟨_, hg, _, _⟩
      · rw [st.queue]
        apply List.mem_append_right
        rw [List.mem_filter]
        refine ⟨hj, ?_⟩
        unfold pushable
        rw [hv0, (inv.map.2 n).1]
        rcases hE.1 with h | h
        · exact absurd ⟨0, by rw [h]; exact inv.g_start⟩ hold
        · rw [h]; rfl
      · rw [hg] at hfin; exact absurd hfin hold
  · intro v hv b hb
    rcases (st.vis hs hcl v).1 hv with h | h
    · obtain ⟨k, hk⟩ := inv.closed v h b hb
      obtain ⟨k', hk', _⟩ := fin_mono b k hk
      exact ⟨k', hk'⟩
    · subst h
      obtain ⟨k', hk', _⟩ := nbr_fin b hb
      exact ⟨k', hk'⟩
  · intro hh n k hk
    rcases st.cases hgc n with ⟨_, _, hg, _, hgl⟩ | ⟨_, hg, _, hgl⟩
    · rw [hg] at hk
      have : gc + 1 = k := Option.some.inj hk
      subst this
      exact hgl hh
    · rw [hg] at hk; rw [hgl]; exact inv.key hh n k hk

/-! ## Termination of the shared loop -/

theorem pending_card_lt (s : State) (hs : WellFormed s) (nodes : List Node) :
    (pending s nodes).card < s.size := by
  have hsub : pending s nodes ⊆ (Finset.range s.size).erase s.m_nodeEnd := by
    intro i hi
    unfold pending at hi
    rw [Finset.mem_filter] at hi
    rw [Finset.mem_erase]
    exact ⟨hi.2.2, hi.1⟩
  have hc := Finset.card_le_card hsub
  rw [Finset.card_erase_of_mem (Finset.mem_range.2 hs.2.2.1), Finset.card_range] at hc
  have := hs.2.2.1
  omega

theorem pending_decrease (s : State) (nodes nodes' : List Node) (cur : Nat)
    (hcur : cur < s.size) (hne : cur ≠ s.m_nodeEnd)
    (hv : (readNode nodes cur).m_bVisited = false)
    (hvis : ∀ j, (readNode nodes' j).m_bVisited = true ↔
      (readNode nodes j).m_bVisited = true ∨ j = cur) :
    (pending s nodes').card < (pending s nodes).card := by
  apply Finset.card_lt_card
  rw [Finset.ssubset_iff_of_subset]
  · refine ⟨cur, ?_, ?_⟩
    · unfold pending
      rw [Finset.mem_filter]
      exact ⟨Finset.mem_range.2 hcur, hv, hne⟩
    · unfold pending
      rw [Finset.mem_filter]
      rintro ⟨_, h, _⟩
      have := (hvis cur).2 (Or.inr rfl)
      rw [h] at this
      exact absurd this (by simp)
  · intro i hi
    unfold pending at hi ⊢
    rw [Finset.mem_filter] at hi ⊢
    refine ⟨hi.1, ?_, hi.2.2⟩
    by_contra hcon
    have h1 : (readNode nodes i).m_bVisited = true := by simpa using hcon
    have := (hvis i).2 (Or.inl h1)
    rw [hi.2.1] at this
    exact absurd this (by simp)

/-- The shared loop ends within the fuel, and every property that each pass
preserves holds of its result. -/
theorem costLoop_run {s : State} (hs : WellFormed s) (pq : PriorityQueue) (heur : Bool)
    (P : List Node → List Nat → Prop)
    (hP : ∀ nodes q nodes' q' q1, Inv s heur nodes q → P nodes q →
      Step s heur nodes q nodes' q' (pq.top nodes q1) q1 → P nodes' q') :
    ∀ (fuel : Nat) (nodes : List Node) (q : List Nat), Inv s heur nodes q → P nodes q →
      (pending s nodes).card < fuel →
      ∃ nodes' q', costLoop pq heur s.m_nodeEnd fuel nodes q = some nodes' ∧
        Inv s heur nodes' q' ∧ P nodes' q' ∧
        ∀ a ∈ q', (readNode nodes' a).m_bVisited = true ∨ a = s.m_nodeEnd := by
  intro fuel
  induction fuel with
  | zero => intro nodes q _ _ h; exact absurd h (Nat.not_lt_zero _)
  | succ f ih =>
    intro nodes q inv hp hlt
    unfold costLoop
    by_cases hq : q = []
    · rw [if_pos hq]
      subst hq
      exact ⟨nodes, [], rfl, inv, hp, fun a ha => absurd ha (List.not_mem_nil a)⟩
    · rw [if_neg hq]
      rcases costIter_spec hs pq heur nodes q inv.map (fun a ha => (inv.q_ok a ha).1) with
        ⟨h1, h2⟩ | ⟨nodes', q', q1, h1, st⟩
      · rw [h1]
        exact ⟨nodes, q, rfl, inv, hp, h2⟩
      · rw [h1]
        simp only
        have hcl : pq.top nodes q1 < s.size := (inv.q_ok _ (st.sub.subset st.cur_mem)).1
        have hdec := pending_decrease s nodes nodes' (pq.top nodes q1) hcl st.cur_ne_end
          st.cur_unvisited (st.vis hs hcl)
        exact ih nodes' q' (inv.step hs st) (hP nodes q nodes' q' q1 inv hp st) (by omega)

/-! ## Predecessor chains -/

theorem parentChain_head (nodes : List Node) (f n : Nat) :
    (parentChain nodes f n).head? = some n := by
  cases f with
  | zero => rfl
  | succ f =>
    unfold parentChain
    split <;> rfl

theorem parentChain_ne_nil (nodes : List Node) (f n : Nat) : parentChain nodes f n ≠ [] := by
  intro h
  have := parentChain_head nodes f n
  rw [h] at this
  exact absurd this (by simp)

theorem parentChain_rank_le (nodes : List Node) (rank : Nat → Nat)
    (hr : ∀ c p, (readNode nodes c).m_parent = some p → rank p < rank c) :
    ∀ (f n : Nat), ∀ b ∈ parentChain nodes f n, rank b ≤ rank n := by
  intro f
  induction f with
  | zero =>
    intro n b hb
    simp only [parentChain, List.mem_singleton] at hb
    rw [hb]
  | succ f ih =>
    intro n b hb
    unfold parentChain at hb
    split at hb
    · simp only [List.mem_singleton] at hb
      rw [hb]
    · rename_i p hp
      rw [List.mem_cons] at hb
      rcases hb with hb | hb
      · rw [hb]
      · have := ih p b hb
        have := hr n p hp
        omega

theorem parentChain_nodup (nodes : List Node) (rank : Nat → Nat)
    (hr : ∀ c p, (readNode nodes c).m_parent = some p → rank p < rank c) :
    ∀ (f n : Nat), (parentChain nodes f n).Nodup := by
  intro f
  induction f with
  | zero => intro n; simp [parentChain]
  | succ f ih =>
    intro n
    unfold parentChain
    split
    · simp
    · rename_i p hp
      rw [List.nodup_cons]
      refine ⟨?_, ih p⟩
      intro hmem
      have := parentChain_rank_le nodes rank hr f p n hmem
      have := hr n p hp
      omega

theorem parentChain_tail (nodes : List Node) (Q : Nat → Prop)
    (hQ : ∀ c p, (readNode nodes c).m_parent = some p → Q p) :
    ∀ (f n : Nat), ∀ b ∈ (parentChain nodes f n).tail, Q b := by
  intro f
  induction f with
  | zero => intro n b hb; simp [parentChain] at hb
  | succ f ih =>
    intro n b hb
    unfold parentChain at hb
    split at hb
    · simp at hb
    · rename_i p hp
      simp only [List.tail_cons] at hb
      have hne := parentChain_ne_nil nodes f p
      have hh := parentChain_head nodes f p
      cases hc : parentChain nodes f p with
      | nil => exact absurd hc hne
      | cons x l =>
        rw [hc] at hb hh
        simp only [List.head?_cons, Option.some.injEq] at hh
        rw [List.mem_cons] at hb
        rcases hb with hb | hb
        · rw [hb, hh]; exact hQ n p hp
        · apply ih p b
          rw [hc]; exact hb

theorem parentChain_complete (nodes : List Node) :
    ∀ (f n : Nat), (parentChain nodes f n).length ≤ f →
      ∃ z, (parentChain nodes f n).getLast? = some z ∧ (readNode nodes z).m_parent = none := by
  intro f
  induction f with
  | zero =>
    intro n h
    simp [parentChain] at h
  | succ f ih =>
    intro n h
    unfold parentChain at h ⊢
    split
    · rename_i hp
      exact ⟨n, rfl, hp⟩
    · rename_i p hp
      rw [hp] at h
      simp only [List.length_cons] at h
      obtain ⟨z, hz, hzp⟩ := ih p (by omega)
      refine ⟨z, ?_, hzp⟩
      have hne := parentChain_ne_nil nodes f p
      cases hc : parentChain nodes f p with
      | nil => exact absurd hc hne
      | cons x l =>
        rw [hc] at hz
        rw [List.getLast?_cons_cons]
        exact hz

theorem parentChain_isPath (s : State) (nodes : List Node)
    (hp : ∀ c p, (readNode nodes c).m_parent = some p →
      c ∈ (readNode s.m_nodes p).m_nodeNeighbors) :
    ∀ (f n : Nat), IsPath s (parentChain nodes f n) := by
  intro f
  induction f with
  | zero => intro n; simp [parentChain, IsPath]
  | succ f ih =>
    intro n
    unfold parentChain
    split
    · simp [IsPath]
    · rename_i p hpp
      have hne := parentChain_ne_nil nodes f p
      have hh := parentChain_head nodes f p
      have := ih p
      cases hc : parentChain nodes f p with
      | nil => exact absurd hc hne
      | cons x l =>
        rw [hc] at hh this
        simp only [List.head?_cons, Option.some.injEq] at hh
        subst hh
        exact ⟨hp n x hpp, this⟩

theorem length_le_of_nodup_lt (l : List Nat) (N : Nat) (hn : l.Nodup) (hl : ∀ b ∈ l, b < N) :
    l.length ≤ N := by
  have h1 : l.toFinset ⊆ Finset.range N := by
    intro b hb
    rw [List.mem_toFinset] at hb
    exact Finset.mem_range.2 (hl b hb)
  have h2 := Finset.card_le_card h1
  rw [List.toFinset_card_of_nodup hn, Finset.card_range] at h2
  exact h2

theorem mem_head_or_tail {l : List Nat} {n b : Nat} (hh : l.head? = some n) (hb : b ∈ l) :
    b = n ∨ b ∈ l.tail := by
  cases l with
  | nil => simp at hb
  | cons x l =>
    simp only [List.head?_cons, Option.some.injEq] at hh
    subst hh
    rw [List.mem_cons] at hb
    simpa using hb

/-! ## Outcome of a search -/

/-- The predecessor chain of a cell that has a predecessor. -/
theorem Outcome.chain {s : State} (hs : WellFormed s) {nodes : List Node}
    (o : Outcome s nodes) {c p : Nat} (hc : (readNode nodes c).m_parent = some p) :
    (parentChain nodes s.size c).head? = some c ∧
    (parentChain nodes s.size c).getLast? = some s.m_nodeStart ∧
    IsPath s (parentChain nodes s.size c) ∧
    (parentChain nodes s.size c).length ≤ s.size ∧
    2 ≤ (parentChain nodes s.size c).length ∧
    ∀ b ∈ (parentChain nodes s.size c).tail, (readNode nodes b).m_bVisited = true := by
  obtain ⟨rank, hr⟩ := o.ranked
  have hhead := parentChain_head nodes s.size c
  have htail := parentChain_tail nodes (fun b => (readNode nodes b).m_bVisited = true)
    (fun c p h => (o.par_ok c p h).1) s.size c
  have hp_lt : p < s.size := (o.vis_ok p (o.par_ok c p hc).1).2.1
  have hc_lt : c < s.size := ((hs.mem_neighbors hp_lt).1 (o.par_ok c p hc).2).1
  have hall : ∀ b ∈ parentChain nodes s.size c, b < s.size := by
    intro b hb
    rcases mem_head_or_tail hhead hb with h | h
    · rw [h]; exact hc_lt
    · exact (o.vis_ok b (htail b h)).2.1
  have hlen := length_le_of_nodup_lt _ s.size (parentChain_nodup nodes rank hr s.size c) hall
  obtain ⟨z, hz, hzp⟩ := parentChain_complete nodes s.size c hlen
  have hzmem : z ∈ parentChain nodes s.size c := List.mem_of_getLast?_eq_some hz
  have hz_start : z = s.m_nodeStart := by
    rcases mem_head_or_tail hhead hzmem with h | h
    · rw [h, hc] at hzp; exact absurd hzp (by simp)
    · by_contra hne
      obtain ⟨p', hp'⟩ := o.root z (htail z h) hne
      rw [hp'] at hzp; exact absurd hzp (by simp)
  refine ⟨hhead, by rw [hz, hz_start], ?_, hlen, ?_, htail⟩
  · exact parentChain_isPath s nodes (fun c p h => (o.par_ok c p h).2) s.size c
  · have : s.size = (s.size - 1) + 1 := by omega
    rw [this]
    unfold parentChain
    rw [hc]
    have := parentChain_ne_nil nodes (s.size - 1) p
    cases hh : parentChain nodes (s.size - 1) p with
    | nil => exact absurd hh this
    | cons x l => simp [hh]

/-- Cells of a predecessor chain, other than its first cell, are expandable
cells. -/
theorem Outcome.chain_free {s : State} (hs : WellFormed s) {nodes : List Node}
    (o : Outcome s nodes) {c p : Nat} (hc : (readNode nodes c).m_parent = some p)
    (hstart : (readNode s.m_nodes s.m_nodeStart).m_bObstacle = false)
    (hcfree : (readNode s.m_nodes c).m_bObstacle = false) :
    FreePath s s.m_nodeStart c (parentChain nodes s.size c) := by
  obtain ⟨h1, h2, h3, _, _, h6⟩ := o.chain hs hc
  refine ⟨h1, h2, h3, ?_⟩
  intro b hb
  rcases mem_head_or_tail h1 hb with h | h
  · rw [h]; exact hcfree
  · rcases (o.vis_ok b (h6 b h)).1.1 with e | e
    · rw [e]; exact hstart
    · exact e

/-- At the end of `AStar` and `dijkstra` every cell that a walk through
expandable cells reaches has a finite local goal. -/
theorem Inv.complete {s : State} {heur : Bool} {nodes : List Node} {q : List Nat}
    (inv : Inv s heur nodes q)
    (hq : ∀ a ∈ q, (readNode nodes a).m_bVisited = true ∨ a = s.m_nodeEnd) :
    ∀ k n, Reach s k n → ∃ gn, (readNode nodes n).m_localGoal = some gn := by
  intro k n h
  induction h with
  | start => exact ⟨0, inv.g_start⟩
  | @step k a b _ hE hb ih =>
    by_cases hv : (readNode nodes a).m_bVisited = true
    · exact inv.closed a hv b hb
    · have hv0 : (readNode nodes a).m_bVisited = false := by simpa using hv
      rcases hq a (inv.frontier a hv0 hE ih) with h | h
      · exact absurd h hv
      · exact absurd h hE.2

theorem Inv.outcome {s : State} {heur : Bool} {nodes : List Node} {q : List Nat}
    (inv : Inv s heur nodes q)
    (hq : ∀ a ∈ q, (readNode nodes a).m_bVisited = true ∨ a = s.m_nodeEnd) :
    Outcome s nodes := by
  refine ⟨inv.map, ?_, ?_, ?_, ?_, ?_, ?_⟩
  · intro v hv
    obtain ⟨k, hk⟩ := inv.vis_fin v hv
    exact ⟨(inv.vis_ok v hv).1, (inv.vis_ok v hv).2, k, inv.sound v k hk⟩
  · intro c p h
    exact ⟨(inv.par_ok c p h).1, (inv.par_ok c p h).2.1⟩
  · intro v hv hne
    obtain ⟨k, hk⟩ := inv.vis_fin v hv
    exact inv.par_some v k hk hne
  · cases hp : (readNode nodes s.m_nodeStart).m_parent with
    | none => rfl
    | some p =>
      obtain ⟨_, _, gn, gp, h1, _, h3⟩ := inv.par_ok _ p hp
      rw [inv.g_start] at h1
      have : 0 = gn := Option.some.inj h1
      omega
  · refine ⟨fun i => ((readNode nodes i).m_localGoal).getD 0, ?_⟩
    intro c p h
    obtain ⟨_, _, gn, gp, h1, h2, h3⟩ := inv.par_ok c p h
    simp only [h1, h2, Option.getD_some]
    exact h3
  · intro hne _ hr
    obtain ⟨k, hk⟩ := hr
    obtain ⟨gn, hgn⟩ := inv.complete hq k _ hk
    exact inv.par_some _ gn hgn (fun h => hne h.symm)

/-! ## Least costs -/

theorem Step.fin_mono {s : State} {heur : Bool} {nodes nodes' : List Node} {q q' q1 : List Nat}
    {cur : Nat} (st : Step s heur nodes q nodes' q' cur q1) {gc : Nat}
    (hgc : (readNode nodes cur).m_localGoal = some gc) {j k : Nat}
    (hk : (readNode nodes j).m_localGoal = some k) :
    ∃ k', (readNode nodes' j).m_localGoal = some k' ∧ k' ≤ k := by
  rcases st.cases hgc j with ⟨_, himp, hg, _, _⟩ | ⟨_, hg, _, _⟩
  · exact ⟨gc + 1, hg, by have := himp k hk; omega⟩
  · exact ⟨k, by rw [hg, hk], le_refl k⟩

theorem Step.nbr_fin {s : State} {heur : Bool} {nodes nodes' : List Node} {q q' q1 : List Nat}
    {cur : Nat} (st : Step s heur nodes q nodes' q' cur q1) {gc : Nat}
    (hgc : (readNode nodes cur).m_localGoal = some gc) {j : Nat}
    (hj : j ∈ (readNode s.m_nodes cur).m_nodeNeighbors) :
    ∃ k', (readNode nodes' j).m_localGoal = some k' ∧ k' ≤ gc + 1 := by
  rcases st.cases hgc j with ⟨_, _, hg, _, _⟩ | ⟨h2, hg, _, _⟩
  · exact ⟨gc + 1, hg, le_refl _⟩
  · obtain ⟨k, hk, hle⟩ := h2 hj
    exact ⟨k, by rw [hg, hk], hle⟩

theorem Step.cur_same {s : State} {heur : Bool} {nodes nodes' : List Node} {q q' q1 : List Nat}
    {cur : Nat} (st : Step s heur nodes q nodes' q' cur q1) (hs : WellFormed s)
    (hcl : cur < s.size) {gc : Nat} (hgc : (readNode nodes cur).m_localGoal = some gc) :
    (readNode nodes' cur).m_localGoal = some gc := by
  rcases st.cases hgc cur with ⟨hj, _⟩ | ⟨_, hg, _, _⟩
  · exact absurd hj (hs.not_self_neighbor hcl)
  · rw [hg, hgc]

theorem OInv.init_least {s : State} (hs : WellFormed s) (heur : Bool) : OInv s (seeded heur s) := by
  obtain ⟨_, hr⟩ := seeded_spec hs heur
  have hv : ∀ v, ¬ (readNode (seeded heur s) v).m_bVisited = true := by
    intro v h; rw [(hr v).1] at h; exact absurd h (by simp)
  refine ⟨fun v h => absurd h (hv v), fun v h => absurd h (hv v), ?_⟩
  intro n p h
  rw [(hr n).2.1] at h; exact absurd h (by simp)

/-- A visited cell, or the cell being expanded, is not improved by the
expansion when visited cells carry their least cost. -/
theorem OInv.frozen {s : State} (hs : WellFormed s) {heur : Bool} {nodes nodes' : List Node}
    {q q' q1 : List Nat} {cur : Nat} (inv : Inv s heur nodes q) (oinv : OInv s nodes)
    (st : Step s heur nodes q nodes' q' cur q1) {gc : Nat}
    (hgc : (readNode nodes cur).m_localGoal = some gc) {v : Nat}
    (hv : (readNode nodes v).m_bVisited = true ∨ v = cur) :
    (readNode nodes' v).m_localGoal = (readNode nodes v).m_localGoal ∧
    (readNode nodes' v).m_parent = (readNode nodes v).m_parent := by
  have hcq : cur ∈ q := st.sub.subset st.cur_mem
  have hcl : cur < s.size := (inv.q_ok cur hcq).1
  have hexp : Expandable s cur := ⟨(inv.q_ok cur hcq).2, st.cur_ne_end⟩
  rcases st.cases hgc v with ⟨hj, himp, _, _, _⟩ | ⟨_, hg, hp, _⟩
  · rcases hv with hv | hv
    · obtain ⟨gv, h1, h2⟩ := oinv.opt_vis v hv (gc + 1)
        (Reach.step (inv.sound _ _ hgc) hexp hj)
      have := himp gv h1
      omega
    · subst hv
      exact absurd hj (hs.not_self_neighbor hcl)
  · exact ⟨hg, hp⟩

theorem OInv.step_least {s : State} (hs : WellFormed s) {heur : Bool} {nodes nodes' : List Node}
    {q q' q1 : List Nat} {cur : Nat} (inv : Inv s heur nodes q) (oinv : OInv s nodes)
    (st : Step s heur nodes q nodes' q' cur q1)
    (hgood : ∀ k, Reach s k cur → ∃ gc, (readNode nodes cur).m_localGoal = some gc ∧ gc ≤ k) :
    OInv s nodes' := by
  have hcq : cur ∈ q := st.sub.subset st.cur_mem
  have hcl : cur < s.size := (inv.q_ok cur hcq).1
  obtain ⟨gc, hgc⟩ := inv.q_fin cur hcq
  refine ⟨?_, ?_, ?_⟩
  · intro v hv k hk
    have hv' := (st.vis hs hcl v).1 hv
    rw [(oinv.frozen hs inv st hgc hv').1]
    rcases hv' with h | h
    · exact oinv.opt_vis v h k hk
    · subst h; exact hgood k hk
  · intro v hv b hb
    have hv' := (st.vis hs hcl v).1 hv
    rw [(oinv.frozen hs inv st hgc hv').1]
    rcases hv' with h | h
    · obtain ⟨gv, gb, h1, h2, h3⟩ := oinv.closed1 v h b hb
      obtain ⟨gb', h4, h5⟩ := st.fin_mono hgc h2
      exact ⟨gv, gb', h1, h4, by omega⟩
    · subst h
      obtain ⟨gb', h4, h5⟩ := st.nbr_fin hgc hb
      exact ⟨gc, gb', hgc, h4, h5⟩
  · intro n p hp
    rcases st.cases hgc n with ⟨_, _, hg, hpar, _⟩ | ⟨_, hg, hpar, _⟩
    · rw [hpar] at hp
      have : cur = p := Option.some.inj hp
      subst this
      exact ⟨gc, st.cur_same hs hcl hgc, hg⟩
    · rw [hpar] at hp
      obtain ⟨gp, h1, h2⟩ := oinv.par_exact n p hp
      have hvp := (inv.par_ok n p hp).1
      rw [(oinv.frozen hs inv st hgc (Or.inl hvp)).1, hg]
      exact ⟨gp, h1, h2⟩

theorem manhattan_step {s : State} (hs : WellFormed s) {a b : Nat} (ha : a < s.size)
    (hb : b ∈ (readNode s.m_nodes a).m_nodeNeighbors) (m : Nat) :
    manhattan s m b ≤ manhattan s m a + 1 ∧ manhattan s a b = 1 := by
  obtain ⟨hb1, hb2⟩ := (hs.mem_neighbors ha).1 hb
  unfold manhattan
  rw [(hs.2.2.2 a ha).1, (hs.2.2.2 a ha).2.1, (hs.2.2.2 b hb1).1, (hs.2.2.2 b hb1).2.1]
  unfold Adj4 at hb2
  generalize a % s.m_nMapWidth = xa at hb2 ⊢
  generalize a / s.m_nMapWidth = ya at hb2 ⊢
  generalize b % s.m_nMapWidth = xb at hb2 ⊢
  generalize b / s.m_nMapWidth = yb at hb2 ⊢
  generalize (readNode s.m_nodes m).m_x = xm
  generalize (readNode s.m_nodes m).m_y = ym
  omega

/-- Along a walk from the start, either the target already has a local goal
no larger than the length of the walk, or a queued unvisited cell lies on
the way with a correspondingly small local goal. -/
theorem frontier_walk {s : State} (hs : WellFormed s) {heur : Bool} {nodes : List Node}
    {q : List Nat} (inv : Inv s heur nodes q) (oinv : OInv s nodes) :
    ∀ k n, Reach s k n →
      (∃ gn, (readNode nodes n).m_localGoal = some gn ∧ gn ≤ k) ∨
      (∃ m gm, m ∈ q ∧ (readNode nodes m).m_bVisited = false ∧ m ≠ s.m_nodeEnd ∧
        (readNode nodes m).m_localGoal = some gm ∧ gm + manhattan s m n ≤ k) := by
  intro k n h
  induction h with
  | start => exact Or.inl ⟨0, inv.g_start, le_refl 0⟩
  | @step k a b hr hE hb ih =>
    have ha : a < s.size := hr.lt hs
    rcases ih with ⟨ga, h1, h2⟩ | ⟨m, gm, h1, h2, h3, h4, h5⟩
    · by_cases hv : (readNode nodes a).m_bVisited = true
      · obtain ⟨gv, gb, e1, e2, e3⟩ := oinv.closed1 a hv b hb
        rw [h1] at e1
        have : ga = gv := Option.some.inj e1
        exact Or.inl ⟨gb, e2, by omega⟩
      · have hv0 : (readNode nodes a).m_bVisited = false := by simpa using hv
        right
        refine ⟨a, ga, inv.frontier a hv0 hE ⟨ga, h1⟩, hv0, hE.2, h1, ?_⟩
        have := (manhattan_step hs ha hb a).2
        omega
    · right
      refine ⟨m, gm, h1, h2, h3, h4, ?_⟩
      have := (manhattan_step hs ha hb m).1
      omega

/-- At the end of the loop every local goal is the least length of a walk. -/
theorem OInv.optimal {s : State} (hs : WellFormed s) {heur : Bool} {nodes : List Node}
    {q : List Nat} (inv : Inv s heur nodes q) (oinv : OInv s nodes)
    (hq : ∀ a ∈ q, (readNode nodes a).m_bVisited = true ∨ a = s.m_nodeEnd) :
    ∀ k n, Reach s k n → ∃ gn, (readNode nodes n).m_localGoal = some gn ∧ gn ≤ k := by
  intro k n h
  rcases frontier_walk hs inv oinv k n h with h1 | ⟨m, gm, h1, h2, h3, _, _⟩
  · exact h1
  · rcases hq m h1 with h | h
    · rw [h2] at h; exact absurd h (by simp)
    · exact absurd h h3

/-! ## The order of global goals and the choice made by `AStar` -/

theorem dominance_int (p r p' r' c : Int) (hc : |p - p'| + |r - r'| < c) :
    (p * p + r * r) - (p' * p' + r' * r') - c * c < 0 ∨
    ((p * p + r * r) - (p' * p' + r' * r') - c * c)
        * ((p * p + r * r) - (p' * p' + r' * r') - c * c)
      < 4 * c * c * (p' * p' + r' * r') := by
  by_cases he : (p * p + r * r) - (p' * p' + r' * r') - c * c < 0
  · exact Or.inl he
  · right
    have he0 : 0 ≤ (p * p + r * r) - (p' * p' + r' * r') - c * c := not_lt.1 he
    obtain ⟨u, hu⟩ : ∃ u, u = p - p' := ⟨_, rfl⟩
    obtain ⟨v, hv⟩ : ∃ v, v = r - r' := ⟨_, rfl⟩
    rw [← hu, ← hv] at hc
    have hp : p = p' + u := by rw [hu]; ring
    have hr : r = r' + v := by rw [hv]; ring
    subst hp; subst hr
    have hau := abs_nonneg u
    have hav := abs_nonneg v
    have hc0 : 0 < c := by linarith
    have huu : u * u = |u| * |u| := (abs_mul_abs_self u).symm
    have hvv : v * v = |v| * |v| := (abs_mul_abs_self v).symm
    have hw : u * u + v * v < c * c := by
      rw [huu, hvv]
      nlinarith [mul_nonneg hau hav]
    have hw0 : 0 ≤ u * u + v * v := by nlinarith [mul_self_nonneg u, mul_self_nonneg v]
    obtain ⟨t, ht⟩ : ∃ t, t = p' * u + r' * v := ⟨_, rfl⟩
    obtain ⟨e, hee⟩ : ∃ e, e = ((p' + u) * (p' + u) + (r' + v) * (r' + v))
        - (p' * p' + r' * r') - c * c := ⟨_, rfl⟩
    rw [← hee] at he0 ⊢
    have hE : e = 2 * t + (u * u + v * v) - c * c := by rw [hee, ht]; ring
    have het : e < 2 * t := by rw [hE]; linarith
    have hcs : t * t ≤ (p' * p' + r' * r') * (u * u + v * v) := by
      rw [ht]
      nlinarith [mul_self_nonneg (p' * v - r' * u)]
    have hrc : 0 ≤ p' * p' + r' * r' := by nlinarith [mul_self_nonneg p', mul_self_nonneg r']
    have h1 : e * e < 4 * (t * t) := by nlinarith
    have h2 : (p' * p' + r' * r') * (u * u + v * v) ≤ (p' * p' + r' * r') * (c * c) :=
      mul_le_mul_of_nonneg_left (le_of_lt hw) hrc
    nlinarith

theorem radTo_cast (s : State) (j : Nat) :
    ((radTo s j : Nat) : Int)
      = (((readNode s.m_nodes j).m_x : Int) - (readNode s.m_nodes s.m_nodeEnd).m_x)
          * (((readNode s.m_nodes j).m_x : Int) - (readNode s.m_nodes s.m_nodeEnd).m_x)
        + (((readNode s.m_nodes j).m_y : Int) - (readNode s.m_nodes s.m_nodeEnd).m_y)
          * (((readNode s.m_nodes j).m_y : Int) - (readNode s.m_nodes s.m_nodeEnd).m_y) := by
  unfold radTo Node.sqDistanceToNode
  apply Int.toNat_of_nonneg
  nlinarith [mul_self_nonneg (((readNode s.m_nodes j).m_x : Int)
      - (readNode s.m_nodes s.m_nodeEnd).m_x),
    mul_self_nonneg (((readNode s.m_nodes j).m_y : Int) - (readNode s.m_nodes s.m_nodeEnd).m_y)]

/-- A cell whose local goal is smaller by more than its grid distance to
another cell has the smaller global goal. -/
theorem key_dominance (s : State) (m c gm gc : Nat) (h : gm + manhattan s m c < gc) :
    GoalValue.lt ⟨gm, radTo s m⟩ ⟨gc, radTo s c⟩ = true := by
  unfold GoalValue.lt
  have hle : gm ≤ gc := by omega
  simp only [hle, if_true, decide_eq_true_eq]
  rw [radTo_cast s m, radTo_cast s c]
  apply dominance_int
  unfold manhattan at h
  have h1 : |((readNode s.m_nodes m).m_x : Int) - (readNode s.m_nodes s.m_nodeEnd).m_x
      - (((readNode s.m_nodes c).m_x : Int) - (readNode s.m_nodes s.m_nodeEnd).m_x)|
      = ((Int.natAbs (((readNode s.m_nodes m).m_x : Int) - (readNode s.m_nodes c).m_x) : Nat)
          : Int) := by
    rw [Int.natCast_natAbs]; congr 1; ring
  have h2 : |((readNode s.m_nodes m).m_y : Int) - (readNode s.m_nodes s.m_nodeEnd).m_y
      - (((readNode s.m_nodes c).m_y : Int) - (readNode s.m_nodes s.m_nodeEnd).m_y)|
      = ((Int.natAbs (((readNode s.m_nodes m).m_y : Int) - (readNode s.m_nodes c).m_y) : Nat)
          : Int) := by
    rw [Int.natCast_natAbs]; congr 1; ring
  rw [h1, h2]
  omega

/-- With an ordered priority queue the cell `AStar` expands carries its least
cost. -/
theorem astar_good {s : State} (hs : WellFormed s) {pq : PriorityQueue} (hord : pq.Ordered)
    {nodes nodes' : List Node} {q q' q1 : List Nat} (inv : Inv s true nodes q)
    (oinv : OInv s nodes) (st : Step s true nodes q nodes' q' (pq.top nodes q1) q1) :
    ∀ k, Reach s k (pq.top nodes q1) →
      ∃ gc, (readNode nodes (pq.top nodes q1)).m_localGoal = some gc ∧ gc ≤ k := by
  intro k hk
  have hcq : pq.top nodes q1 ∈ q := st.sub.subset st.cur_mem
  obtain ⟨gc, hgc⟩ := inv.q_fin _ hcq
  rcases frontier_walk hs inv oinv k _ hk with h1 | ⟨m, gm, h1, h2, h3, h4, h5⟩
  · exact h1
  · refine ⟨gc, hgc, ?_⟩
    have hm1 : m ∈ q1 := by
      rcases st.kept m h1 with h | h | h
      · exact h
      · rw [h2] at h; exact absurd h (by simp)
      · exact absurd h h3
    have ho := hord nodes q1 m hm1
    unfold compare at ho
    rw [inv.key rfl m gm h4, inv.key rfl _ gc hgc] at ho
    simp only [goalLt] at ho
    by_contra hcon
    have := key_dominance s m (pq.top nodes q1) gm gc (by omega)
    rw [this] at ho
    exact absurd ho (by simp)

/-- The run of `AStar` with any queue: it ends within its fuel in a state that
satisfies the loop invariant with a drained queue. -/
theorem AStar_run {s : State} (hs : WellFormed s) (pq : PriorityQueue) :
    ∃ nodes q, AStar pq s = some { s with m_nodes := nodes } ∧ Inv s true nodes q ∧
      (∀ a ∈ q, (readNode nodes a).m_bVisited = true ∨ a = s.m_nodeEnd) := by
  obtain ⟨nodes, q, h1, h2, _, h4⟩ := costLoop_run hs pq true
    (fun _ _ => True)
    (fun _ _ _ _ _ _ _ _ => trivial)
    s.size (seeded true s) [s.m_nodeStart] (Inv.init hs true) trivial
    (pending_card_lt s hs _)
  refine ⟨nodes, q, ?_, h2, h4⟩
  rw [AStar_eq, h1]
  rfl

/-- The run of `AStar` with an ideal least-first queue: the final state also
satisfies the least-cost invariant. -/
theorem AStar_run_ordered {s : State} (hs : WellFormed s) (pq : PriorityQueue)
    (hord : pq.Ordered) :
    ∃ nodes q, AStar pq s = some { s with m_nodes := nodes } ∧ Inv s true nodes q ∧
      (∀ a ∈ q, (readNode nodes a).m_bVisited = true ∨ a = s.m_nodeEnd) ∧
      OInv s nodes := by
  obtain ⟨nodes, q, h1, h2, h3, h4⟩ := costLoop_run hs pq true
    (fun nodes _ => OInv s nodes)
    (fun nodes q nodes' q' q1 inv hp st =>
      hp.step_least hs inv st (astar_good hs hord inv hp st))
    s.size (seeded true s) [s.m_nodeStart] (Inv.init hs true) (OInv.init_least hs true)
    (pending_card_lt s hs _)
  refine ⟨nodes, q, ?_, h2, h4, h3⟩
  rw [AStar_eq, h1]
  rfl

/-! ## The first-in first-out order of `dijkstra` -/

theorem gval_eq {nodes : List Node} {a k : Nat} (h : (readNode nodes a).m_localGoal = some k) :
    gval nodes a = k := by
  unfold gval; rw [h]; rfl

theorem active_iff (s : State) (nodes : List Node) (a : Nat) :
    active s nodes a = true ↔ a ≠ s.m_nodeEnd ∧ (readNode nodes a).m_bVisited = false := by
  unfold active
  simp

theorem reach_parity {s : State} (hs : WellFormed s) {k n : Nat} (h : Reach s k n) :
    (k + n % s.m_nMapWidth + n / s.m_nMapWidth) % 2
      = (s.m_nodeStart % s.m_nMapWidth + s.m_nodeStart / s.m_nMapWidth) % 2 := by
  induction h with
  | start => simp
  | @step k a b hr _ hb ih =>
    have hadj := ((hs.mem_neighbors (hr.lt hs)).1 hb).2
    unfold Adj4 at hadj
    generalize a % s.m_nMapWidth = xa at hadj ih
    generalize a / s.m_nMapWidth = ya at hadj ih
    generalize b % s.m_nMapWidth = xb at hadj ⊢
    generalize b / s.m_nMapWidth = yb at hadj ⊢
    generalize s.m_nodeStart % s.m_nMapWidth = xs at ih ⊢
    generalize s.m_nodeStart / s.m_nMapWidth = ys at ih ⊢
    omega

/-- Two neighbouring cells are not reached by walks of the same length. -/
theorem reach_neighbor_ne {s : State} (hs : WellFormed s) {k a b : Nat} (ha : Reach s k a)
    (hb : Reach s k b) (hab : b ∈ (readNode s.m_nodes a).m_nodeNeighbors) : False := by
  have h1 := reach_parity hs ha
  have h2 := reach_parity hs hb
  have hadj := ((hs.mem_neighbors (ha.lt hs)).1 hab).2
  unfold Adj4 at hadj
  generalize a % s.m_nMapWidth = xa at hadj h1
  generalize a / s.m_nMapWidth = ya at hadj h1
  generalize b % s.m_nMapWidth = xb at hadj h2
  generalize b / s.m_nMapWidth = yb at hadj h2
  generalize s.m_nodeStart % s.m_nMapWidth = xs at h1 h2
  generalize s.m_nodeStart / s.m_nMapWidth = ys at h1 h2
  omega

theorem FInv.init_sorted {s : State} (hs : WellFormed s) (heur : Bool) :
    FInv s (seeded heur s) [s.m_nodeStart] := by
  obtain ⟨_, hr⟩ := seeded_spec hs heur
  refine ⟨?_, ?_⟩
  · rw [List.filter_cons]
    split <;> simp
  · intro v a hv
    rw [(hr v).1] at hv; exact absurd hv (by simp)

theorem fifo_top_cons (nodes : List Node) (q1 : List Nat) (h : fifo.top nodes q1 ∈ q1) :
    ∃ rest, q1 = fifo.top nodes q1 :: rest := by
  cases q1 with
  | nil => simp at h
  | cons a l => exact ⟨l, rfl⟩

/-- In `dijkstra` the front of the drained queue has the least local goal
among the queued cells that are not inert. -/
theorem fifo_head_le {s : State} {nodes nodes' : List Node} {q q' q1 : List Nat}
    (finv : FInv s nodes q)
    (st : Step s false nodes q nodes' q' (fifo.top nodes q1) q1) {m : Nat} (hm : m ∈ q)
    (hact : active s nodes m = true) :
    gval nodes (fifo.top nodes q1) ≤ gval nodes m := by
  have hm1 : m ∈ q1 := by
    rcases st.kept m hm with h | h | h
    · exact h
    · rw [((active_iff s nodes m).1 hact).2] at h; exact absurd h (by simp)
    · exact absurd h ((active_iff s nodes m).1 hact).1
  obtain ⟨rest, hrest⟩ := fifo_top_cons nodes q1 st.cur_mem
  have hcact : active s nodes (fifo.top nodes q1) = true :=
    (active_iff s nodes _).2 ⟨st.cur_ne_end, st.cur_unvisited⟩
  have hsub : (q1.filter (active s nodes)).Sublist (q.filter (active s nodes)) :=
    st.sub.filter _
  have hp := finv.sorted.sublist hsub
  rw [hrest, List.filter_cons, if_pos hcact, List.pairwise_cons] at hp
  rw [hrest, List.mem_cons] at hm1
  rcases hm1 with h | h
  · rw [h]
  · exact hp.1 m (List.mem_filter.2 ⟨h, hact⟩)

theorem fifo_good {s : State} (hs : WellFormed s) {nodes nodes' : List Node}
    {q q' q1 : List Nat} (inv : Inv s false nodes q) (oinv : OInv s nodes)
    (finv : FInv s nodes q) (st : Step s false nodes q nodes' q' (fifo.top nodes q1) q1) :
    ∀ k, Reach s k (fifo.top nodes q1) →
      ∃ gc, (readNode nodes (fifo.top nodes q1)).m_localGoal = some gc ∧ gc ≤ k := by
  intro k hk
  have hcq : fifo.top nodes q1 ∈ q := st.sub.subset st.cur_mem
  obtain ⟨gc, hgc⟩ := inv.q_fin _ hcq
  rcases frontier_walk hs inv oinv k _ hk with h1 | ⟨m, gm, h1, h2, h3, h4, h5⟩
  · exact h1
  · refine ⟨gc, hgc, ?_⟩
    have := fifo_head_le finv st h1 ((active_iff s nodes m).2 ⟨h3, h2⟩)
    rw [gval_eq hgc, gval_eq h4] at this
    omega

theorem FInv.step_sorted {s : State} (hs : WellFormed s) {nodes nodes' : List Node}
    {q q' q1 : List Nat} (inv : Inv s false nodes q) (oinv : OInv s nodes)
    (finv : FInv s nodes q) (st : Step s false nodes q nodes' q' (fifo.top nodes q1) q1) :
    FInv s nodes' q' := by
  have hcq : fifo.top nodes q1 ∈ q := st.sub.subset st.cur_mem
  have hcl : fifo.top nodes q1 < s.size := (inv.q_ok _ hcq).1
  obtain ⟨gc, hgc⟩ := inv.q_fin _ hcq
  have hexp : Expandable s (fifo.top nodes q1) := ⟨(inv.q_ok _ hcq).2, st.cur_ne_end⟩
  have hreach : Reach s gc (fifo.top nodes q1) := inv.sound _ _ hgc
  have hcact : active s nodes (fifo.top nodes q1) = true :=
    (active_iff s nodes _).2 ⟨st.cur_ne_end, st.cur_unvisited⟩
  have hgvc : gval nodes (fifo.top nodes q1) = gc := gval_eq hgc
  -- queued cells that are not inert are at most one step behind the front
  have span : ∀ a ∈ q, active s nodes a = true → gval nodes a ≤ gc + 1 := by
    intro a ha _
    obtain ⟨ka, hka⟩ := inv.q_fin a ha
    rw [gval_eq hka]
    by_cases hst : a = s.m_nodeStart
    · rw [hst, inv.g_start] at hka
      have : 0 = ka := Option.some.inj hka
      omega
    · obtain ⟨p, hp⟩ := inv.par_some a ka hka hst
      obtain ⟨gp, h1, h2⟩ := oinv.par_exact a p hp
      have hvp := (inv.par_ok a p hp).1
      have := finv.before p _ hvp hcq hcact
      rw [gval_eq h1, hgvc] at this
      rw [hka] at h2
      have : ka = gp + 1 := Option.some.inj h2
      omega
  have keep : ∀ a ∈ q, active s nodes a = true → gval nodes' a = gval nodes a := by
    intro a ha hact
    obtain ⟨ka, hka⟩ := inv.q_fin a ha
    rcases st.cases hgc a with ⟨_, himp, _⟩ | ⟨_, hg, _, _⟩
    · have := himp ka hka
      have := span a ha hact
      rw [gval_eq hka] at this
      omega
    · unfold gval; rw [hg]
  have frozen : ∀ v, ((readNode nodes v).m_bVisited = true ∨ v = fifo.top nodes q1) →
      gval nodes' v = gval nodes v := by
    intro v hv
    unfold gval
    rw [(oinv.frozen hs inv st hgc hv).1]
  have act_imp : ∀ a, active s nodes' a = true →
      active s nodes a = true ∧ a ≠ fifo.top nodes q1 := by
    intro a ha
    obtain ⟨h1, h2⟩ := (active_iff s nodes' a).1 ha
    have hnot : ¬ ((readNode nodes a).m_bVisited = true ∨ a = fifo.top nodes q1) := by
      intro hcon
      have := (st.vis hs hcl a).2 hcon
      rw [h2] at this; exact absurd this (by simp)
    refine ⟨(active_iff s nodes a).2 ⟨h1, ?_⟩, fun h => hnot (Or.inr h)⟩
    by_contra hcon
    exact hnot (Or.inl (by simpa using hcon))
  -- a cell pushed by this expansion that is not inert is exactly one step behind
  have pushed : ∀ b ∈ (readNode s.m_nodes (fifo.top nodes q1)).m_nodeNeighbors.filter
      (pushable nodes), active s nodes' b = true → gval nodes' b = gc + 1 := by
    intro b hb hact
    rw [List.mem_filter] at hb
    obtain ⟨hbn, hbp⟩ := hb
    obtain ⟨hba, hbc⟩ := act_imp b hact
    obtain ⟨hbe, hbv⟩ := (active_iff s nodes b).1 hba
    rcases st.cases hgc b with ⟨_, _, hg, _, _⟩ | ⟨h2, hg, _, _⟩
    · exact gval_eq hg
    · obtain ⟨kb, hkb, hle⟩ := h2 hbn
      have hob : (readNode s.m_nodes b).m_bObstacle = false := by
        simp only [pushable, Bool.and_eq_true, Bool.not_eq_true'] at hbp
        rw [← (inv.map.2 b).1]; exact hbp.2
      have hbq : b ∈ q := inv.frontier b hbv ⟨Or.inr hob, hbe⟩ ⟨kb, hkb⟩
      have h3 := fifo_head_le finv st hbq hba
      rw [hgvc, gval_eq hkb] at h3
      have hkb' : (readNode nodes' b).m_localGoal = some kb := by rw [hg, hkb]
      rw [gval_eq hkb']
      by_contra hne
      have hkk : kb = gc := by omega
      rw [hkk] at hkb
      exact reach_neighbor_ne hs hreach (inv.sound b gc hkb) hbn
  refine ⟨?_, ?_⟩
  · rw [st.queue, List.filter_append, List.pairwise_append]
    refine ⟨?_, ?_, ?_⟩
    · have hsub : (q1.filter (active s nodes')).Sublist (q.filter (active s nodes)) := by
        have h1 : q1.filter (active s nodes')
            = (q1.filter (active s nodes)).filter (active s nodes') := by
          rw [List.filter_filter]
          apply List.filter_congr
          intro a _
          cases h : active s nodes' a with
          | false => simp
          | true => simp [(act_imp a h).1]
        rw [h1]
        exact (List.filter_sublist _).trans (st.sub.filter _)
      refine (finv.sorted.sublist hsub).imp_of_mem ?_
      intro a b ha hb hab
      rw [List.mem_filter] at ha hb
      rw [keep a (st.sub.subset ha.1) (act_imp a ha.2).1,
        keep b (st.sub.subset hb.1) (act_imp b hb.2).1]
      exact hab
    · have htriv : ((readNode s.m_nodes (fifo.top nodes q1)).m_nodeNeighbors.filter
          (pushable nodes)).filter (active s nodes') |>.Pairwise (fun _ _ => True) :=
        List.pairwise_of_forall (fun _ _ => trivial)
      refine htriv.imp_of_mem ?_
      intro a b ha hb _
      rw [List.mem_filter] at ha hb
      rw [pushed a ha.1 ha.2, pushed b hb.1 hb.2]
    · intro a ha b hb
      rw [List.mem_filter] at ha hb
      rw [keep a (st.sub.subset ha.1) (act_imp a ha.2).1, pushed b hb.1 hb.2]
      exact span a (st.sub.subset ha.1) (act_imp a ha.2).1
  · intro v a hv ha hact
    have hv' := (st.vis hs hcl v).1 hv
    rw [frozen v hv']
    have hvc : gval nodes v ≤ gc := by
      rcases hv' with h | h
      · have := finv.before v _ h hcq hcact
        rw [hgvc] at this; exact this
      · rw [h, hgvc]
    rw [st.queue, List.mem_append] at ha
    rcases ha with ha | ha
    · rw [keep a (st.sub.subset ha) (act_imp a hact).1]
      rcases hv' with h | h
      · exact finv.before v a h (st.sub.subset ha) (act_imp a hact).1
      · rw [h]
        exact fifo_head_le finv st (st.sub.subset ha) (act_imp a hact).1
    · rw [pushed a ha hact]
      omega

/-- The run of `dijkstra`: it ends within its fuel in a state that satisfies
the loop invariant with a drained queue and the least-cost invariant. -/
theorem dijkstra_run {s : State} (hs : WellFormed s) :
    ∃ nodes q, dijkstra s = some { s with m_nodes := nodes } ∧ Inv s false nodes q ∧
      (∀ a ∈ q, (readNode nodes a).m_bVisited = true ∨ a = s.m_nodeEnd) ∧
      OInv s nodes ∧ FInv s nodes q := by
  obtain ⟨nodes, q, h1, h2, h3, h4⟩ := costLoop_run hs fifo false
    (fun nodes q => OInv s nodes ∧ FInv s nodes q)
    (fun nodes q nodes' q' q1 inv hp st =>
      ⟨hp.1.step_least hs inv st (fifo_good hs inv hp.1 hp.2 st), hp.2.step_sorted hs inv hp.1 st⟩)
    s.size (seeded false s) [s.m_nodeStart] (Inv.init hs false)
    ⟨OInv.init_least hs false, FInv.init_sorted hs false⟩ (pending_card_lt s hs _)
  refine ⟨nodes, q, ?_, h2, h4, h3.1, h3.2⟩
  rw [dijkstra_eq, h1]
  rfl

/-! ## The neighbour loop of `bfs` -/

theorem pushable_iff (nodes : List Node) (b : Nat) :
    pushable nodes b = true ↔
      (readNode nodes b).m_bVisited = false ∧ (readNode nodes b).m_bObstacle = false := by
  unfold pushable
  simp

/-- The neighbour loop of `bfs` only assigns `m_parent`, to the neighbours
that pass the push test, up to the end cell when it is among them. -/
theorem bfs_neighbors_spec (nodeEnd cur : Nat) :
    ∀ (l : List Nat) (B : List Node) (qB : List Nat), (∀ b ∈ l, b < B.length) →
      (bfs.neighbors nodeEnd cur l B qB).1.length = B.length ∧
      (∀ j, (readNode (bfs.neighbors nodeEnd cur l B qB).1 j).m_bObstacle
            = (readNode B j).m_bObstacle ∧
          (readNode (bfs.neighbors nodeEnd cur l B qB).1 j).m_bVisited
            = (readNode B j).m_bVisited ∧
          (readNode (bfs.neighbors nodeEnd cur l B qB).1 j).m_x = (readNode B j).m_x ∧
          (readNode (bfs.neighbors nodeEnd cur l B qB).1 j).m_y = (readNode B j).m_y ∧
          (readNode (bfs.neighbors nodeEnd cur l B qB).1 j).m_nodeNeighbors
            = (readNode B j).m_nodeNeighbors) ∧
      (∀ j, (readNode (bfs.neighbors nodeEnd cur l B qB).1 j).m_parent = (readNode B j).m_parent ∨
          (j ∈ l ∧ pushable B j = true ∧
            (readNode (bfs.neighbors nodeEnd cur l B qB).1 j).m_parent = some cur)) ∧
      ((bfs.neighbors nodeEnd cur l B qB).2.2 = false →
          (bfs.neighbors nodeEnd cur l B qB).2.1 = qB ++ l.filter (pushable B) ∧
          ∀ j ∈ l, pushable B j = true →
            (readNode (bfs.neighbors nodeEnd cur l B qB).1 j).m_parent = some cur ∧
            j ≠ nodeEnd) ∧
      ((bfs.neighbors nodeEnd cur l B qB).2.2 = true →
          (readNode (bfs.neighbors nodeEnd cur l B qB).1 nodeEnd).m_parent = some cur ∧
          pushable B nodeEnd = true ∧ nodeEnd ∈ l) := by
  intro l
  induction l with
  | nil =>
    intro B qB _
    simp [bfs.neighbors]
  | cons a l ih =>
    intro B qB hl
    have ha : a < B.length := hl a (List.mem_cons_self a l)
    unfold bfs.neighbors
    by_cases hc : (readNode B a).m_bVisited = false ∧ (readNode B a).m_bObstacle = false
    · rw [if_pos hc]
      have hpa : pushable B a = true := (pushable_iff B a).2 hc
      have hrd : ∀ j, readNode (writeNode B a { readNode B a with m_parent := some cur }) j
          = if j = a then { readNode B a with m_parent := some cur } else readNode B j := by
        intro j
        rw [readNode_writeNode]
        by_cases hj : j = a
        · simp [hj, ha]
        · simp [hj]
      have hfr : ∀ j,
          (readNode (writeNode B a { readNode B a with m_parent := some cur }) j).m_bObstacle
            = (readNode B j).m_bObstacle ∧
          (readNode (writeNode B a { readNode B a with m_parent := some cur }) j).m_bVisited
            = (readNode B j).m_bVisited ∧
          (readNode (writeNode B a { readNode B a with m_parent := some cur }) j).m_x
            = (readNode B j).m_x ∧
          (readNode (writeNode B a { readNode B a with m_parent := some cur }) j).m_y
            = (readNode B j).m_y ∧
          (readNode (writeNode B a { readNode B a with m_parent := some cur }) j).m_nodeNeighbors
            = (readNode B j).m_nodeNeighbors := by
        intro j
        rw [hrd j]
        by_cases hj : j = a
        · subst hj; simp
        · simp [hj]
      have hpar : ∀ j,
          (readNode (writeNode B a { readNode B a with m_parent := some cur }) j).m_parent
            = if j = a then some cur else (readNode B j).m_parent := by
        intro j
        rw [hrd j]
        by_cases hj : j = a
        · simp [hj]
        · simp [hj]
      have hpush : ∀ j, pushable (writeNode B a { readNode B a with m_parent := some cur }) j
          = pushable B j := fun j => pushable_congr (hfr j).2.1 (hfr j).1
      by_cases hae : a = nodeEnd
      · rw [if_pos hae]
        simp only
        refine ⟨length_writeNode _ _ _, hfr, ?_, ?_, ?_⟩
        · intro j
          rw [hpar j]
          by_cases hj : j = a
          · right
            rw [if_pos hj]
            exact ⟨by rw [hj]; exact List.mem_cons_self a l, by rw [hj]; exact hpa, rfl⟩
          · left; rw [if_neg hj]
        · intro h; exact absurd h (by simp)
        · intro _
          rw [hpar nodeEnd, if_pos hae.symm]
          exact ⟨rfl, by rw [← hae]; exact hpa, by rw [← hae]; exact List.mem_cons_self a l⟩
      · rw [if_neg hae]
        obtain ⟨i1, i2, i3, i4, i5⟩ := ih (writeNode B a { readNode B a with m_parent := some cur })
          (qB ++ [a]) (fun b hb => by
            rw [length_writeNode]; exact hl b (List.mem_cons_of_mem a hb))
        refine ⟨by rw [i1, length_writeNode], ?_, ?_, ?_, ?_⟩
        · intro j
          obtain ⟨f1, f2, f3, f4, f5⟩ := i2 j
          obtain ⟨g1, g2, g3, g4, g5⟩ := hfr j
          exact ⟨f1.trans g1, f2.trans g2, f3.trans g3, f4.trans g4, f5.trans g5⟩
        · intro j
          rcases i3 j with h | ⟨h1, h2, h3⟩
          · rw [h, hpar j]
            by_cases hj : j = a
            · right
              rw [if_pos hj]
              exact ⟨by rw [hj]; exact List.mem_cons_self a l, by rw [hj]; exact hpa, rfl⟩
            · left; rw [if_neg hj]
          · right
            exact ⟨List.mem_cons_of_mem a h1, by rw [← hpush j]; exact h2, h3⟩
        · intro hf
          obtain ⟨h1, h2⟩ := i4 hf
          refine ⟨?_, ?_⟩
          · rw [h1, List.filter_cons, if_pos hpa]
            have : pushable (writeNode B a { readNode B a with m_parent := some cur })
                = pushable B := funext hpush
            rw [this]
            simp
          · intro j hj hpj
            rw [List.mem_cons] at hj
            rcases hj with hj | hj
            · subst hj
              refine ⟨?_, hae⟩
              rcases i3 j with h | ⟨_, _, h3⟩
              · rw [h, hpar j, if_pos rfl]
              · exact h3
            · exact h2 j hj (by rw [hpush j]; exact hpj)
        · intro hf
          obtain ⟨h1, h2, h3⟩ := i5 hf
          exact ⟨h1, by rw [← hpush nodeEnd]; exact h2, List.mem_cons_of_mem a h3⟩
    · rw [if_neg hc]
      have hpa : ¬ pushable B a = true := fun h => hc ((pushable_iff B a).1 h)
      obtain ⟨i1, i2, i3, i4, i5⟩ := ih B qB (fun b hb => hl b (List.mem_cons_of_mem a hb))
      refine ⟨i1, i2, ?_, ?_, ?_⟩
      · intro j
        rcases i3 j with h | ⟨h1, h2, h3⟩
        · exact Or.inl h
        · exact Or.inr ⟨List.mem_cons_of_mem a h1, h2, h3⟩
      · intro hf
        obtain ⟨h1, h2⟩ := i4 hf
        refine ⟨by rw [h1, List.filter_cons, if_neg hpa], ?_⟩
        intro j hj hpj
        rw [List.mem_cons] at hj
        rcases hj with hj | hj
        · rw [hj] at hpj; exact absurd hpj hpa
        · exact h2 j hj hpj
      · intro hf
        obtain ⟨h1, h2, h3⟩ := i5 hf
        exact ⟨h1, h2, List.mem_cons_of_mem a h3⟩

/-! ## `bfs` in step with `dijkstra` -/

theorem drain_congr {B D : List Node} (nodeEnd : Nat)
    (h : ∀ i, (readNode B i).m_bVisited = (readNode D i).m_bVisited) :
    ∀ q, dijkstra.drain B nodeEnd q = dijkstra.drain D nodeEnd q := by
  intro q
  induction q with
  | nil => rfl
  | cons a l ih =>
    unfold dijkstra.drain
    rw [h a, ih]

theorem fifo_not_improved {s : State} {nodes nodes' : List Node}
    {q q' q1 : List Nat} (inv : Inv s false nodes q)
    (finv : FInv s nodes q) (st : Step s false nodes q nodes' q' (fifo.top nodes q1) q1)
    {n p gp : Nat} (hvp : (readNode nodes p).m_bVisited = true)
    (hgp : (readNode nodes p).m_localGoal = some gp)
    (hgn : (readNode nodes n).m_localGoal = some (gp + 1)) :
    (readNode nodes' n).m_localGoal = some (gp + 1) := by
  have hcq : fifo.top nodes q1 ∈ q := st.sub.subset st.cur_mem
  obtain ⟨gc, hgc⟩ := inv.q_fin _ hcq
  have hcact : active s nodes (fifo.top nodes q1) = true :=
    (active_iff s nodes _).2 ⟨st.cur_ne_end, st.cur_unvisited⟩
  rcases st.cases hgc n with ⟨_, himp, _⟩ | ⟨_, hg, _, _⟩
  · have h1 := himp _ hgn
    have h2 := finv.before p _ hvp hcq hcact
    rw [gval_eq hgp, gval_eq hgc] at h2
    omega
  · rw [hg, hgn]

theorem fifo_new_goal {s : State} (hs : WellFormed s) {nodes nodes' : List Node}
    {q q' q1 : List Nat} (inv : Inv s false nodes q)
    (finv : FInv s nodes q) (st : Step s false nodes q nodes' q' (fifo.top nodes q1) q1)
    {gc : Nat} (hgc : (readNode nodes (fifo.top nodes q1)).m_localGoal = some gc) {b : Nat}
    (hbn : b ∈ (readNode s.m_nodes (fifo.top nodes q1)).m_nodeNeighbors)
    (hbp : pushable nodes b = true)
    (hbe : b ≠ s.m_nodeEnd ∨ (readNode nodes b).m_localGoal = none) :
    (readNode nodes' b).m_localGoal = some (gc + 1) := by
  have hcq : fifo.top nodes q1 ∈ q := st.sub.subset st.cur_mem
  have hreach : Reach s gc (fifo.top nodes q1) := inv.sound _ _ hgc
  rcases st.cases hgc b with ⟨_, _, hg, _, _⟩ | ⟨h2, hg, _, _⟩
  · exact hg
  · obtain ⟨kb, hkb, hle⟩ := h2 hbn
    have hbe' : b ≠ s.m_nodeEnd := by
      rcases hbe with h | h
      · exact h
      · rw [h] at hkb; exact absurd hkb (by simp)
    obtain ⟨hbv, hbo⟩ := (pushable_iff nodes b).1 hbp
    have hob : (readNode s.m_nodes b).m_bObstacle = false := by
      rw [← (inv.map.2 b).1]; exact hbo
    have hbq : b ∈ q := inv.frontier b hbv ⟨Or.inr hob, hbe'⟩ ⟨kb, hkb⟩
    have h3 := fifo_head_le finv st hbq ((active_iff s nodes b).2 ⟨hbe', hbv⟩)
    rw [gval_eq hgc, gval_eq hkb] at h3
    rw [hg, hkb]
    by_contra hne
    have hkk : kb = gc := by
      by_contra h4
      apply hne
      have : kb = gc + 1 := by omega
      rw [this]
    rw [hkk] at hkb
    exact reach_neighbor_ne hs hreach (inv.sound b gc hkb) hbn

theorem manhattan_pos {s : State} (hs : WellFormed s) {a b : Nat} (ha : a < s.size)
    (hb : b < s.size) (hab : a ≠ b) : 1 ≤ manhattan s a b := by
  unfold manhattan
  rw [(hs.2.2.2 a ha).1, (hs.2.2.2 a ha).2.1, (hs.2.2.2 b hb).1, (hs.2.2.2 b hb).2.1]
  by_contra hcon
  apply hab
  have h1 : a % s.m_nMapWidth = b % s.m_nMapWidth := by omega
  have h2 : a / s.m_nMapWidth = b / s.m_nMapWidth := by omega
  rw [← Nat.div_add_mod a s.m_nMapWidth, ← Nat.div_add_mod b s.m_nMapWidth, h1, h2]

/-- When the start cell is the end cell no walk leaves it. -/
theorem reach_start_end {s : State} (hse : s.m_nodeStart = s.m_nodeEnd) {k n : Nat}
    (h : Reach s k n) : n = s.m_nodeStart := by
  induction h with
  | start => rfl
  | @step k a b _ hE _ ih =>
    exact absurd (ih.trans hse) hE.2

/-- One pass through the body of the outer loop of `bfs`, in step with the
pass of `dijkstra` from the related state. -/
theorem bfs_iter_sim {s : State} (hs : WellFormed s) {B D : List Node} {q : List Nat}
    (inv : Inv s false D q) (oinv : OInv s D) (finv : FInv s D q) (sim : Sim s B D)
    (siml : SimLoop s B D) :
    (bfs.iter s.m_nodeEnd B q = none ∧
      ∀ a ∈ q, (readNode D a).m_bVisited = true ∨ a = s.m_nodeEnd) ∨
    ∃ B' qB found D' q', bfs.iter s.m_nodeEnd B q = some (B', qB, found) ∧
      Inv s false D' q' ∧ OInv s D' ∧ FInv s D' q' ∧ Sim s B' D' ∧
      (pending s B').card < (pending s B).card ∧
      (found = false → qB = q' ∧ SimLoop s B' D') ∧
      (found = true → (∃ p, (readNode B' s.m_nodeEnd).m_parent = some p) ∧
        ∀ k, Reach s k s.m_nodeEnd →
          ∃ ge, (readNode D' s.m_nodeEnd).m_localGoal = some ge ∧ ge ≤ k) := by
  have hdr : dijkstra.drain B s.m_nodeEnd q = AStar.drain fifo D s.m_nodeEnd q.length q := by
    rw [drain_fifo D s.m_nodeEnd q.length q (le_refl _)]
    exact drain_congr s.m_nodeEnd sim.vis q
  rcases costIter_cases hs fifo false D q inv.map (fun a ha => (inv.q_ok a ha).1) with
    ⟨h0, _, h2⟩ | ⟨h0, D', q', _, st0⟩
  · left
    unfold bfs.iter
    rw [hdr, h0]
    exact ⟨rfl, h2⟩
  · right
    generalize hq1 : AStar.drain fifo D s.m_nodeEnd q.length q = q1 at hdr h0 st0
    obtain ⟨rest, hrest0⟩ := fifo_top_cons D q1 st0.cur_mem
    obtain ⟨cur, hcur⟩ : ∃ c, c = fifo.top D q1 := ⟨_, rfl⟩
    have st : Step s false D q D' q' cur q1 := by rw [hcur]; exact st0
    have hrest : q1 = cur :: rest := by rw [hcur]; exact hrest0
    have hcq : cur ∈ q := st.sub.subset st.cur_mem
    have hcl : cur < s.size := (inv.q_ok _ hcq).1
    obtain ⟨gc, hgc⟩ := inv.q_fin _ hcq
    have hcn : cur ∉ (readNode s.m_nodes cur).m_nodeNeighbors := hs.not_self_neighbor hcl
    have hclB : cur < B.length := by rw [sim.map.1]; exact hcl
    have inv' : Inv s false D' q' := inv.step hs st
    have hgood : ∀ k, Reach s k cur →
        ∃ gc, (readNode D cur).m_localGoal = some gc ∧ gc ≤ k := by
      rw [hcur]
      exact fifo_good hs inv oinv finv st0
    have oinv' : OInv s D' := oinv.step_least hs inv st hgood
    have finv' : FInv s D' q' := finv.step_sorted hs inv oinv st0
    have hgc' : (readNode D' cur).m_localGoal = some gc := st.cur_same hs hcl hgc
    have hvis' : ∀ j, (readNode D' j).m_bVisited = true ↔
        (readNode D j).m_bVisited = true ∨ j = cur := st.vis hs hcl
    -- the state of `bfs` after marking `cur` visited
    have hm1 : SameMap s (writeNode B cur { readNode B cur with m_bVisited := true }) :=
      sim.map.write cur _ rfl rfl rfl rfl
    have hr1 : ∀ j, readNode (writeNode B cur { readNode B cur with m_bVisited := true }) j
        = if j = cur then { readNode B cur with m_bVisited := true } else readNode B j := by
      intro j
      rw [readNode_writeNode]
      by_cases hj : j = cur
      · simp [hj, hclB]
      · simp [hj]
    have hnb : (readNode (writeNode B cur { readNode B cur with m_bVisited := true })
        cur).m_nodeNeighbors = (readNode s.m_nodes cur).m_nodeNeighbors := (hm1.2 cur).2.2.2
    have hpar1 : ∀ j, (readNode (writeNode B cur { readNode B cur with m_bVisited := true })
        j).m_parent = (readNode B j).m_parent := by
      intro j
      rw [hr1 j]
      by_cases hj : j = cur
      · subst hj; simp
      · simp [hj]
    have hvis1 : ∀ j, (readNode (writeNode B cur { readNode B cur with m_bVisited := true })
        j).m_bVisited = true ↔ (readNode D j).m_bVisited = true ∨ j = cur := by
      intro j
      rw [hr1 j]
      by_cases hj : j = cur
      · simp [hj]
      · simp [hj, sim.vis j]
    have hlen1 : ∀ b ∈ (readNode s.m_nodes cur).m_nodeNeighbors,
        b < (writeNode B cur { readNode B cur with m_bVisited := true }).length := by
      intro b hb
      rw [hm1.1]
      exact ((hs.mem_neighbors hcl).1 hb).1
    obtain ⟨n1, n2, n3, n4, n5⟩ := bfs_neighbors_spec s.m_nodeEnd cur
      (readNode s.m_nodes cur).m_nodeNeighbors
      (writeNode B cur { readNode B cur with m_bVisited := true }) q1 hlen1
    have hiter : bfs.iter s.m_nodeEnd B q = some (bfs.neighbors s.m_nodeEnd cur
        (readNode s.m_nodes cur).m_nodeNeighbors
        (writeNode B cur { readNode B cur with m_bVisited := true }) q1) := by
      unfold bfs.iter
      rw [hdr, hrest]
      simp only
      rw [hnb]
    generalize bfs.neighbors s.m_nodeEnd cur (readNode s.m_nodes cur).m_nodeNeighbors
      (writeNode B cur { readNode B cur with m_bVisited := true }) q1 = r at n1 n2 n3 n4 n5 hiter
    -- pushable in the `bfs` state is pushable in the `dijkstra` state
    have hpush : ∀ b, b ≠ cur →
        pushable (writeNode B cur { readNode B cur with m_bVisited := true }) b
          = pushable D b := by
      intro b hb
      apply pushable_congr
      · rw [hr1 b, if_neg hb]; exact sim.vis b
      · rw [(hm1.2 b).1, (inv.map.2 b).1]
    have hvisB' : ∀ j, (readNode r.1 j).m_bVisited = true ↔
        (readNode D j).m_bVisited = true ∨ j = cur := by
      intro j
      rw [(n2 j).2.1]; exact hvis1 j
    have hmapB' : SameMap s r.1 := by
      refine ⟨by rw [n1]; exact hm1.1, ?_⟩
      intro i
      obtain ⟨f1, _, f3, f4, f5⟩ := n2 i
      rw [f1, f3, f4, f5]
      exact hm1.2 i
    -- a neighbour to which `bfs` gives the predecessor `cur`
    have hnew : ∀ n, n ∈ (readNode s.m_nodes cur).m_nodeNeighbors →
        pushable (writeNode B cur { readNode B cur with m_bVisited := true }) n = true →
        (readNode s.m_nodes n).m_bObstacle = false ∧
        (readNode D' n).m_localGoal = some (gc + 1) := by
      intro n hn hp
      have hnc : n ≠ cur := by rintro rfl; exact hcn hn
      have hpD : pushable D n = true := by rw [← hpush n hnc]; exact hp
      have hob : (readNode s.m_nodes n).m_bObstacle = false := by
        rw [← (inv.map.2 n).1]; exact ((pushable_iff D n).1 hpD).2
      refine ⟨hob, ?_⟩
      have hgc0 : (readNode D (fifo.top D q1)).m_localGoal = some gc := by rw [← hcur]; exact hgc
      have hn0 : n ∈ (readNode s.m_nodes (fifo.top D q1)).m_nodeNeighbors := by
        rw [← hcur]; exact hn
      apply fifo_new_goal hs inv finv st0 hgc0 hn0 hpD
      by_cases hne : n = s.m_nodeEnd
      · right
        cases hg : (readNode D n).m_localGoal with
        | none => rfl
        | some k =>
          exfalso
          by_cases hns : n = s.m_nodeStart
          · have hse : s.m_nodeStart = s.m_nodeEnd := by rw [← hns, hne]
            have := reach_start_end hse (inv.sound _ gc hgc)
            exact st.cur_ne_end (by rw [this, hse])
          · obtain ⟨p, hp⟩ := siml.found n hob hns ⟨k, hg⟩
            rw [hne, siml.end_none] at hp
            exact absurd hp (by simp)
      · exact Or.inl hne
    have hparB' : ∀ v p, (readNode B v).m_parent = some p →
        ∃ p', (readNode r.1 v).m_parent = some p' := by
      intro v p hp
      rcases n3 v with h | ⟨_, _, h3⟩
      · exact ⟨p, by rw [h, hpar1 v, hp]⟩
      · exact ⟨cur, h3⟩
    have hvcur : (readNode D' cur).m_bVisited = true := (hvis' cur).2 (Or.inr rfl)
    refine ⟨r.1, r.2.1, r.2.2, D', q', hiter, inv', oinv', finv', ?_, ?_, ?_, ?_⟩
    · refine ⟨hmapB', ?_, ?_, ?_⟩
      · intro i
        rw [Bool.eq_iff_iff, hvisB' i, hvis' i]
      · intro n p hp
        rcases n3 n with h | ⟨h1, h2, h3⟩
        · rw [h, hpar1 n] at hp
          obtain ⟨hv, hn, hob, gp, e1, e2⟩ := sim.par n p hp
          refine ⟨(hvis' p).2 (Or.inl hv), hn, hob, gp, ?_, ?_⟩
          · rw [(oinv.frozen hs inv st hgc (Or.inl hv)).1]; exact e1
          · exact fifo_not_improved inv finv st0 hv e1 e2
        · rw [h3] at hp
          have : cur = p := Option.some.inj hp
          subst this
          obtain ⟨hob, hg⟩ := hnew n h1 h2
          exact ⟨hvcur, h1, hob, gc, hgc', hg⟩
      · intro v hv hne
        rcases (hvis' v).1 hv with h | h
        · obtain ⟨p, hp⟩ := sim.rooted v h hne
          exact hparB' v p hp
        · have hob : (readNode s.m_nodes v).m_bObstacle = false := by
            rcases (inv.q_ok cur hcq).2 with e | e
            · rw [h] at hne; exact absurd e hne
            · rw [h]; exact e
          obtain ⟨p, hp⟩ := siml.found v hob hne ⟨gc, by rw [h]; exact hgc⟩
          exact hparB' v p hp
    · apply pending_decrease s B r.1 cur hcl st.cur_ne_end
      · rw [sim.vis cur]; exact st.cur_unvisited
      · intro j
        rw [hvisB' j, sim.vis j]
    · intro hf
      obtain ⟨m1, m2⟩ := n4 hf
      refine ⟨?_, ?_, ?_⟩
      · rw [m1, st.queue]
        congr 1
        apply List.filter_congr
        intro b hb
        exact hpush b (by rintro rfl; exact hcn hb)
      · intro n hob hns hfin
        by_cases hold : ∃ k, (readNode D n).m_localGoal = some k
        · obtain ⟨p, hp⟩ := siml.found n hob hns hold
          exact hparB' n p hp
        · rcases st.cases hgc n with ⟨hn, _, _, _, _⟩ | ⟨_, hg, _, _⟩
          · have hnc : n ≠ cur := by rintro rfl; exact hcn hn
            have hvn : (readNode D n).m_bVisited = false := by
              by_contra hcon
              exact hold (inv.vis_fin n (by simpa using hcon))
            have hp : pushable (writeNode B cur { readNode B cur with m_bVisited := true }) n
                = true := by
              rw [hpush n hnc, pushable_iff]
              exact ⟨hvn, by rw [(inv.map.2 n).1]; exact hob⟩
            exact ⟨cur, (m2 n hn hp).1⟩
          · rw [hg] at hfin; exact absurd hfin hold
      · rcases n3 s.m_nodeEnd with h | ⟨h1, h2, _⟩
        · rw [h, hpar1]; exact siml.end_none
        · exact absurd rfl (m2 _ h1 h2).2
    · intro hf
      obtain ⟨f1, f2, f3⟩ := n5 hf
      refine ⟨⟨cur, f1⟩, ?_⟩
      have hge := (hnew _ f3 f2).2
      intro k hk
      rcases frontier_walk hs inv' oinv' k _ hk with h | ⟨m, gm, h1, h2, h3, h4, h5⟩
      · exact h
      · refine ⟨gc + 1, hge, ?_⟩
        have hb := finv'.before cur m hvcur h1 ((active_iff s D' m).2 ⟨h3, h2⟩)
        rw [gval_eq hgc', gval_eq h4] at hb
        have := manhattan_pos hs (inv'.q_ok m h1).1 hs.2.2.1 h3
        omega

theorem bfs_loop_run {s : State} (hs : WellFormed s) :
    ∀ (fuel : Nat) (B D : List Node) (q : List Nat), Inv s false D q → OInv s D →
      FInv s D q → Sim s B D → SimLoop s B D → (pending s B).card < fuel →
      ∃ B' D' q', bfs.loop s.m_nodeEnd fuel B q = some B' ∧ Inv s false D' q' ∧ Sim s B' D' ∧
        ((readNode s.m_nodes s.m_nodeEnd).m_bObstacle = false →
          s.m_nodeStart ≠ s.m_nodeEnd → (∃ k, Reach s k s.m_nodeEnd) →
          ∃ p, (readNode B' s.m_nodeEnd).m_parent = some p) ∧
        ((∃ p, (readNode B' s.m_nodeEnd).m_parent = some p) →
          ∀ k, Reach s k s.m_nodeEnd →
            ∃ ge, (readNode D' s.m_nodeEnd).m_localGoal = some ge ∧ ge ≤ k) := by
  intro fuel
  induction fuel with
  | zero => intro B D q _ _ _ _ _ h; exact absurd h (Nat.not_lt_zero _)
  | succ f ih =>
    intro B D q inv oinv finv sim siml hlt
    have stop : (∀ a ∈ q, (readNode D a).m_bVisited = true ∨ a = s.m_nodeEnd) →
        ∃ B' D' q', some B = some B' ∧ Inv s false D' q' ∧ Sim s B' D' ∧
        ((readNode s.m_nodes s.m_nodeEnd).m_bObstacle = false →
          s.m_nodeStart ≠ s.m_nodeEnd → (∃ k, Reach s k s.m_nodeEnd) →
          ∃ p, (readNode B' s.m_nodeEnd).m_parent = some p) ∧
        ((∃ p, (readNode B' s.m_nodeEnd).m_parent = some p) →
          ∀ k, Reach s k s.m_nodeEnd →
            ∃ ge, (readNode D' s.m_nodeEnd).m_localGoal = some ge ∧ ge ≤ k) := by
      intro hq
      refine ⟨B, D, q, rfl, inv, sim, ?_, ?_⟩
      · intro hob hne hr
        obtain ⟨k, hk⟩ := hr
        exact siml.found _ hob (fun h => hne h.symm) (inv.complete hq k _ hk)
      · intro _ k hk
        exact oinv.optimal hs inv hq k _ hk
    unfold bfs.loop
    by_cases hq : q = []
    · rw [if_pos hq]
      exact stop (by intro a ha; rw [hq] at ha; exact absurd ha (List.not_mem_nil a))
    · rw [if_neg hq]
      rcases bfs_iter_sim hs inv oinv finv sim siml with
        ⟨h1, h2⟩ | ⟨B', qB, found, D', q', h1, inv', oinv', finv', sim', hdec, hnf, hf⟩
      · rw [h1]
        exact stop h2
      · rw [h1]
        cases found with
        | true =>
          simp only
          obtain ⟨hp, hopt⟩ := hf rfl
          exact ⟨B', D', q', rfl, inv', sim', fun _ _ _ => hp, fun _ => hopt⟩
        | false =>
          simp only
          obtain ⟨hqq, siml'⟩ := hnf rfl
          rw [hqq]
          exact ih B' D' q' inv' oinv' finv' sim' siml' (by omega)

theorem Sim.forest {s : State} {B D : List Node} {q : List Nat} (inv : Inv s false D q)
    (sim : Sim s B D)
    (compl : (readNode s.m_nodes s.m_nodeEnd).m_bObstacle = false →
      s.m_nodeStart ≠ s.m_nodeEnd → (∃ k, Reach s k s.m_nodeEnd) →
      ∃ p, (readNode B s.m_nodeEnd).m_parent = some p) : Outcome s B := by
  refine ⟨sim.map, ?_, ?_, ?_, ?_, ?_, ?_⟩
  · intro v hv
    rw [sim.vis v] at hv
    obtain ⟨k, hk⟩ := inv.vis_fin v hv
    exact ⟨(inv.vis_ok v hv).1, (inv.vis_ok v hv).2, k, inv.sound v k hk⟩
  · intro c p h
    obtain ⟨h1, h2, _, _⟩ := sim.par c p h
    exact ⟨by rw [sim.vis p]; exact h1, h2⟩
  · intro v hv hne
    rw [sim.vis v] at hv
    exact sim.rooted v hv hne
  · cases hp : (readNode B s.m_nodeStart).m_parent with
    | none => rfl
    | some p =>
      obtain ⟨_, _, _, gp, _, h2⟩ := sim.par _ p hp
      rw [inv.g_start] at h2
      exact absurd (Option.some.inj h2) (by omega)
  · refine ⟨gval D, ?_⟩
    intro c p h
    obtain ⟨_, _, _, gp, h1, h2⟩ := sim.par c p h
    rw [gval_eq h1, gval_eq h2]
    omega
  · intro hne hob hr
    exact compl hob hne hr

/-- The run of `bfs` when the start cell is not the end cell: it ends within
its fuel, in step with a state `D` of `dijkstra`. -/
theorem bfs_run {s : State} (hs : WellFormed s) :
    ∃ B D q, bfs s = some { s with m_nodes := B } ∧ Inv s false D q ∧ Sim s B D ∧
      Outcome s B ∧
      ((∃ p, (readNode B s.m_nodeEnd).m_parent = some p) →
        ∀ k, Reach s k s.m_nodeEnd →
          ∃ ge, (readNode D s.m_nodeEnd).m_localGoal = some ge ∧ ge ≤ k) := by
  obtain ⟨hl, hr⟩ := forXY_reset s.m_nMapWidth s.m_nMapHeight s.m_nodes hs.1
  obtain ⟨hm, hsd⟩ := seeded_spec hs false
  have hB0 : ∀ j, (readNode (forXY s.m_nMapWidth s.m_nMapHeight (resetNode s.m_nMapWidth)
      s.m_nodes) j).m_bVisited = false ∧
      (readNode (forXY s.m_nMapWidth s.m_nMapHeight (resetNode s.m_nMapWidth)
      s.m_nodes) j).m_parent = none := by
    intro j; rw [hr j]; exact ⟨rfl, rfl⟩
  have sim0 : Sim s (forXY s.m_nMapWidth s.m_nMapHeight (resetNode s.m_nMapWidth) s.m_nodes)
      (seeded false s) := by
    refine ⟨⟨by rw [hl]; exact hs.1, fun i => by rw [hr i]; exact ⟨rfl, rfl, rfl, rfl⟩⟩, ?_, ?_, ?_⟩
    · intro i; rw [(hB0 i).1, (hsd i).1]
    · intro n p h; rw [(hB0 n).2] at h; exact absurd h (by simp)
    · intro v hv; rw [(hsd v).1] at hv; exact absurd hv (by simp)
  have siml0 : SimLoop s (forXY s.m_nMapWidth s.m_nMapHeight (resetNode s.m_nMapWidth)
      s.m_nodes) (seeded false s) := by
    refine ⟨?_, (hB0 _).2⟩
    intro n _ hns hfin
    obtain ⟨k, hk⟩ := hfin
    rw [(hsd n).2.2.1, if_neg hns] at hk
    exact absurd hk (by simp)
  obtain ⟨B', D', q', h1, h2, h3, h4, h5⟩ := bfs_loop_run hs s.size _ _ [s.m_nodeStart]
    (Inv.init hs false) (OInv.init_least hs false) (FInv.init_sorted hs false) sim0 siml0
    (pending_card_lt s hs _)
  refine ⟨B', D', q', ?_, h2, h3, h3.forest h2 h4, h5⟩
  unfold bfs
  simp only
  rw [h1]
  rfl

/-! ## Paths and the length of predecessor chains -/

/-- A path of cells that are not obstacles, from the start cell, contains a
walk to the end cell through expandable cells when it passes through the
end cell, and is such a walk when it does not. -/
theorem path_reach (s : State) :
    ∀ (l : List Nat) (t : Nat), l.head? = some t → l.getLast? = some s.m_nodeStart →
      IsPath s l → (∀ c ∈ l, (readNode s.m_nodes c).m_bObstacle = false) →
      (s.m_nodeEnd ∈ l → ∃ k, k + 1 ≤ l.length ∧ Reach s k s.m_nodeEnd) ∧
      (s.m_nodeEnd ∉ l → Reach s (l.length - 1) t) := by
  intro l
  induction l with
  | nil => intro t h; simp at h
  | cons a l ih =>
    intro t hh hlast hp hfree
    simp only [List.head?_cons, Option.some.injEq] at hh
    subst hh
    cases l with
    | nil =>
      simp only [List.getLast?_singleton, Option.some.injEq] at hlast
      subst hlast
      refine ⟨?_, fun _ => Reach.start⟩
      intro he
      rw [List.mem_singleton] at he
      exact ⟨0, by simp, by rw [he]; exact Reach.start⟩
    | cons p rest =>
      rw [List.getLast?_cons_cons] at hlast
      obtain ⟨hadj, hp'⟩ := hp
      obtain ⟨i1, i2⟩ := ih p rfl hlast hp'
        (fun c hc => hfree c (List.mem_cons_of_mem _ hc))
      by_cases he : s.m_nodeEnd ∈ p :: rest
      · obtain ⟨k, hk1, hk2⟩ := i1 he
        refine ⟨fun _ => ⟨k, by simp only [List.length_cons] at hk1 ⊢; omega, hk2⟩, ?_⟩
        intro hn
        exact absurd (List.mem_cons_of_mem _ he) hn
      · have hrp := i2 he
        have hpe : p ≠ s.m_nodeEnd := by
          intro h; apply he; rw [← h]; exact List.mem_cons_self p rest
        have hE : Expandable s p :=
          ⟨Or.inr (hfree p (List.mem_cons_of_mem _ (List.mem_cons_self p rest))), hpe⟩
        have hra : Reach s ((p :: rest).length - 1 + 1) a := Reach.step hrp hE hadj
        have hlen : (p :: rest).length - 1 + 1 = (a :: p :: rest).length - 1 := by
          simp only [List.length_cons]; omega
        rw [hlen] at hra
        refine ⟨?_, fun _ => hra⟩
        intro hmem
        rw [List.mem_cons] at hmem
        rcases hmem with h | h
        · refine ⟨(a :: p :: rest).length - 1, by simp only [List.length_cons]; omega, ?_⟩
          rw [h]; exact hra
        · exact absurd h he

/-- A path of cells that are not obstacles from the start cell to the end
cell contains a walk to the end cell that is not longer. -/
theorem FreePath.reach {s : State} {p : List Nat}
    (h : FreePath s s.m_nodeStart s.m_nodeEnd p) :
    ∃ k, k + 1 ≤ p.length ∧ Reach s k s.m_nodeEnd := by
  obtain ⟨h1, h2, h3, h4⟩ := h
  have hmem : s.m_nodeEnd ∈ p := by
    cases p with
    | nil => simp at h1
    | cons a l =>
      simp only [List.head?_cons, Option.some.injEq] at h1
      rw [h1]; exact List.mem_cons_self _ _
  exact (path_reach s p s.m_nodeEnd h1 h2 h3 h4).1 hmem

theorem parentChain_length_eq (nodes : List Node) (lev : Nat → Nat)
    (hl : ∀ c p, (readNode nodes c).m_parent = some p → lev c = lev p + 1) :
    ∀ (f c z : Nat), (parentChain nodes f c).getLast? = some z →
      (parentChain nodes f c).length + lev z = lev c + 1 := by
  intro f
  induction f with
  | zero =>
    intro c z h
    simp only [parentChain, List.getLast?_singleton, Option.some.injEq] at h
    subst h
    simp only [parentChain, List.length_singleton]; omega
  | succ f ih =>
    intro c z h
    unfold parentChain at h ⊢
    split
    · rename_i hp
      rw [hp] at h
      simp only [List.getLast?_singleton, Option.some.injEq] at h
      subst h
      simp only [List.length_singleton]; omega
    · rename_i p hp
      rw [hp] at h
      simp only at h
      have hne := parentChain_ne_nil nodes f p
      cases hc : parentChain nodes f p with
      | nil => exact absurd hc hne
      | cons x l =>
        rw [hc, List.getLast?_cons_cons] at h
        have := ih p z (by rw [hc]; exact h)
        rw [hc] at this
        have := hl c p hp
        simp only [List.length_cons] at *
        omega

/-- When the predecessor links go down by exactly one in the local goals, the
predecessor chain of a cell has one more cell than its local goal. -/
theorem chain_length {s : State} (hs : WellFormed s) {nodes D : List Node}
    (o : Outcome s nodes)
    (hl : ∀ c p, (readNode nodes c).m_parent = some p → gval D c = gval D p + 1)
    (h0 : gval D s.m_nodeStart = 0) {c p : Nat} (hc : (readNode nodes c).m_parent = some p) :
    (parentChain nodes s.size c).length = gval D c + 1 := by
  obtain ⟨_, h2, _⟩ := o.chain hs hc
  have := parentChain_length_eq nodes (gval D) hl s.size c s.m_nodeStart h2
  omega

/-! ## The comparison of global goals is the comparison of real numbers -/

theorem lt_real_le (wa wb ra rb : ℕ) (h : wa ≤ wb) :
    (((ra : ℤ) - rb - ((wb : ℤ) - wa) * ((wb : ℤ) - wa) < 0) ∨
      ((ra : ℤ) - rb - ((wb : ℤ) - wa) * ((wb : ℤ) - wa))
        * ((ra : ℤ) - rb - ((wb : ℤ) - wa) * ((wb : ℤ) - wa))
        < 4 * ((wb : ℤ) - wa) * ((wb : ℤ) - wa) * rb) ↔
    (wa : ℝ) + Real.sqrt ra < (wb : ℝ) + Real.sqrt rb := by
  have hA := Real.sqrt_nonneg (ra : ℝ)
  have hB := Real.sqrt_nonneg (rb : ℝ)
  have hA2 : Real.sqrt ra * Real.sqrt ra = ra := Real.mul_self_sqrt (Nat.cast_nonneg _)
  have hB2 : Real.sqrt rb * Real.sqrt rb = rb := Real.mul_self_sqrt (Nat.cast_nonneg _)
  have hc : (0 : ℝ) ≤ (wb : ℝ) - wa := by
    have : (wa : ℝ) ≤ wb := by exact_mod_cast h
    linarith
  generalize Real.sqrt (ra : ℝ) = A at *
  generalize Real.sqrt (rb : ℝ) = B at *
  obtain ⟨c, hcd⟩ : ∃ c : ℝ, c = (wb : ℝ) - wa := ⟨_, rfl⟩
  rw [← hcd] at hc
  have hI : ∀ x y : ℤ, x < y ↔ (x : ℝ) < (y : ℝ) := fun x y => Int.cast_lt.symm
  rw [hI, hI]
  push_cast
  rw [← hcd, ← hA2, ← hB2]
  constructor
  · intro hh
    by_contra hcon
    have h1 : c + B ≤ A := by linarith
    have h2 : (c + B) * (c + B) ≤ A * A := by nlinarith
    have h3 : 2 * c * B ≤ A * A - B * B - c * c := by nlinarith
    have h4 : 0 ≤ 2 * c * B := by positivity
    rcases hh with hh | hh
    · linarith
    · nlinarith
  · intro hh
    have h1 : A < c + B := by linarith
    have h2 : A * A < (c + B) * (c + B) := by nlinarith
    by_cases he : A * A - B * B - c * c < 0
    · left; exact he
    · right
      have h3 : A * A - B * B - c * c < 2 * c * B := by nlinarith
      nlinarith

theorem lt_real_gt (wa wb ra rb : ℕ) (h : wb < wa) :
    ((0 < (rb : ℤ) - ra - ((wa : ℤ) - wb) * ((wa : ℤ) - wb)) ∧
      4 * ((wa : ℤ) - wb) * ((wa : ℤ) - wb) * ra
        < ((rb : ℤ) - ra - ((wa : ℤ) - wb) * ((wa : ℤ) - wb))
          * ((rb : ℤ) - ra - ((wa : ℤ) - wb) * ((wa : ℤ) - wb))) ↔
    (wa : ℝ) + Real.sqrt ra < (wb : ℝ) + Real.sqrt rb := by
  have hA := Real.sqrt_nonneg (ra : ℝ)
  have hB := Real.sqrt_nonneg (rb : ℝ)
  have hA2 : Real.sqrt ra * Real.sqrt ra = ra := Real.mul_self_sqrt (Nat.cast_nonneg _)
  have hB2 : Real.sqrt rb * Real.sqrt rb = rb := Real.mul_self_sqrt (Nat.cast_nonneg _)
  have hc : (0 : ℝ) < (wa : ℝ) - wb := by
    have : (wb : ℝ) < wa := by exact_mod_cast h
    linarith
  generalize Real.sqrt (ra : ℝ) = A at *
  generalize Real.sqrt (rb : ℝ) = B at *
  obtain ⟨c, hcd⟩ : ∃ c : ℝ, c = (wa : ℝ) - wb := ⟨_, rfl⟩
  rw [← hcd] at hc
  have hI : ∀ x y : ℤ, x < y ↔ (x : ℝ) < (y : ℝ) := fun x y => Int.cast_lt.symm
  rw [hI, hI]
  push_cast
  rw [← hcd, ← hA2, ← hB2]
  constructor
  · rintro ⟨h1, h2⟩
    by_contra hcon
    have h3 : B ≤ c + A := by linarith
    have h4 : B * B ≤ (c + A) * (c + A) := by nlinarith
    have h5 : B * B - A * A - c * c ≤ 2 * c * A := by nlinarith
    nlinarith
  · intro hh
    have h1 : c + A < B := by linarith
    have h2 : (c + A) * (c + A) < B * B := by nlinarith
    have h3 : 2 * c * A < B * B - A * A - c * c := by nlinarith
    have h4 : 0 ≤ 2 * c * A := by positivity
    constructor
    · linarith
    · nlinarith

/-- The integer test `GoalValue.lt` decides the order of the real numbers
`whole + sqrt rad`. -/
theorem GoalValue.lt_iff (a b : GoalValue) :
    a.lt b = true ↔
      (a.whole : ℝ) + Real.sqrt a.rad < (b.whole : ℝ) + Real.sqrt b.rad := by
  unfold GoalValue.lt
  by_cases h : a.whole ≤ b.whole
  · simp only [h, if_true, decide_eq_true_eq]
    exact lt_real_le a.whole b.whole a.rad b.rad h
  · simp only [h, if_false, decide_eq_true_eq]
    exact lt_real_gt a.whole b.whole a.rad b.rad (by omega)

theorem goalLt_irrefl (a : Option GoalValue) : goalLt a a = false := by
  cases a with
  | none => rfl
  | some x =>
    simp only [goalLt]
    by_contra hcon
    have := (GoalValue.lt_iff x x).1 (by simpa using hcon)
    exact lt_irrefl _ this

/-- If `m` is before `b` and `m'` is not before `b`, then `m'` is not before
`m`. -/
theorem goalLt_chain {m b m' : Option GoalValue} (h1 : goalLt m b = true)
    (h2 : goalLt m' b = false) : goalLt m' m = false := by
  cases m' with
  | none => rfl
  | some z =>
    cases m with
    | none => simp [goalLt] at h1
    | some x =>
      cases b with
      | none => simp [goalLt] at h2
      | some y =>
        simp only [goalLt] at h1 h2 ⊢
        by_contra hcon
        have e1 := (GoalValue.lt_iff x y).1 h1
        have e3 := (GoalValue.lt_iff z x).1 (by simpa using hcon)
        have e2 : z.lt y = true := (GoalValue.lt_iff z y).2 (lt_trans e3 e1)
        rw [e2] at h2
        exact absurd h2 (by simp)

theorem leastFirst_fold (nodes : List Node) :
    ∀ (l : List Nat) (b : Nat) (seen : List Nat),
      (∀ m ∈ seen, compare (readNode nodes b) (readNode nodes m) = false) →
      ∀ m, m ∈ seen ∨ m ∈ l →
        compare (readNode nodes (l.foldl
          (fun b m => if compare (readNode nodes b) (readNode nodes m) then m else b) b))
          (readNode nodes m) = false := by
  intro l
  induction l with
  | nil =>
    intro b seen hb m hm
    rcases hm with hm | hm
    · exact hb m hm
    · exact absurd hm (List.not_mem_nil m)
  | cons a l ih =>
    intro b seen hb m hm
    rw [List.foldl_cons]
    apply ih _ (a :: seen)
    · intro m' hm'
      by_cases hc : compare (readNode nodes b) (readNode nodes a) = true
      · rw [if_pos hc]
        rw [List.mem_cons] at hm'
        rcases hm' with h | h
        · rw [h]; exact goalLt_irrefl _
        · unfold compare at hc ⊢
          exact goalLt_chain hc (hb m' h)
      · rw [if_neg hc]
        rw [List.mem_cons] at hm'
        rcases hm' with h | h
        · rw [h]; simpa using hc
        · exact hb m' h
    · rcases hm with hm | hm
      · exact Or.inl (List.mem_cons_of_mem a hm)
      · rw [List.mem_cons] at hm
        rcases hm with hm | hm
        · exact Or.inl (by rw [hm]; exact List.mem_cons_self a seen)
        · exact Or.inr hm

/-- The queue `leastFirst` is an ideal least-first queue. -/
theorem leastFirst_ordered : leastFirst.Ordered := by
  intro nodes q m hm
  exact leastFirst_fold nodes q (q.headD 0) [] (fun _ h => absurd h (List.not_mem_nil _)) m
    (Or.inr hm)

/-! ## From the outcome of a search to the properties of its result -/

theorem IsPath_congr {s r : State}
    (h : ∀ i, (readNode r.m_nodes i).m_nodeNeighbors = (readNode s.m_nodes i).m_nodeNeighbors) :
    ∀ l, IsPath s l → IsPath r l := by
  intro l
  induction l with
  | nil => intro _; trivial
  | cons a l ih =>
    intro hp
    cases l with
    | nil => trivial
    | cons p rest =>
      obtain ⟨h1, h2⟩ := hp
      exact ⟨by rw [h p]; exact h1, ih h2⟩

theorem parentChain_length_le {s : State} (hs : WellFormed s) {nodes : List Node}
    (o : Outcome s nodes) (c : Nat) : (parentChain nodes s.size c).length ≤ s.size := by
  cases hp : (readNode nodes c).m_parent with
  | none =>
    have h1 : 1 ≤ s.size := by have := hs.2.1; omega
    obtain ⟨n, hn⟩ : ∃ n, s.size = n + 1 := ⟨s.size - 1, by omega⟩
    rw [hn]
    unfold parentChain
    rw [hp]
    simp
  | some p => exact (o.chain hs hp).2.2.2.1

theorem pathWalk_loop_some (nodes : List Node) :
    ∀ (f c : Nat), (parentChain nodes f c).length ≤ f →
      ∃ cells, pathWalk.loop nodes f c = some cells := by
  intro f
  induction f with
  | zero => intro c h; simp [parentChain] at h
  | succ f ih =>
    intro c h
    unfold parentChain at h
    unfold pathWalk.loop
    cases hp : (readNode nodes c).m_parent with
    | none => exact ⟨[], rfl⟩
    | some p =>
      rw [hp] at h
      simp only [List.length_cons] at h
      obtain ⟨cells, hc⟩ := ih p (by omega)
      exact ⟨c :: cells, by simp [hc]⟩

theorem walkBack_chain (nodes : List Node) (start : Nat)
    (hstart : (readNode nodes start).m_parent = none) :
    ∀ (f c : Nat) (acc : List Nat), (parentChain nodes f c).getLast? = some start →
      walkBack nodes start f c acc = some ((parentChain nodes f c).reverse ++ acc) := by
  intro f
  induction f with
  | zero =>
    intro c acc h
    simp only [parentChain, List.getLast?_singleton, Option.some.injEq] at h
    subst h
    simp [walkBack, parentChain]
  | succ f ih =>
    intro c acc h
    unfold walkBack
    by_cases hc : c = start
    · subst hc
      rw [if_pos rfl]
      unfold parentChain
      rw [hstart]
      simp
    · rw [if_neg hc]
      unfold parentChain at h ⊢
      cases hp : (readNode nodes c).m_parent with
      | none =>
        rw [hp] at h
        simp only [List.getLast?_singleton, Option.some.injEq] at h
        exact absurd h hc
      | some p =>
        rw [hp] at h
        simp only at h ⊢
        have hne := parentChain_ne_nil nodes f p
        cases hch : parentChain nodes f p with
        | nil => exact absurd hch hne
        | cons x l =>
          rw [hch, List.getLast?_cons_cons] at h
          rw [ih p (c :: acc) (by rw [hch]; exact h), hch]
          simp

theorem Outcome.valid {s : State} (hs : WellFormed s) {nodes : List Node}
    (o : Outcome s nodes) : PredecessorsValid { s with m_nodes := nodes } := by
  refine ⟨?_, ?_⟩
  · intro c p h
    simp only at h ⊢
    obtain ⟨hv, hn⟩ := o.par_ok c p h
    have hp_lt : p < s.size := (o.vis_ok p hv).2.1
    obtain ⟨hc_lt, hsym⟩ := hs.neighbor_symm hp_lt hn
    refine ⟨by rw [(o.map.2 c).2.2.2]; exact hsym, by rw [(o.map.2 p).2.2.2]; exact hn, hv, ?_⟩
    rcases (o.vis_ok p hv).1.1 with e | e
    · exact Or.inl e
    · exact Or.inr (by rw [(o.map.2 p).1]; exact e)
  · intro p h
    simp only at h
    obtain ⟨h1, h2, h3, _, _, h6⟩ := o.chain hs h
    refine ⟨h1, h2, ?_, ?_⟩
    · exact @IsPath_congr s { s with m_nodes := nodes } (fun i => (o.map.2 i).2.2.2) _ h3
    · intro c hc hce hcs
      rcases mem_head_or_tail h1 hc with e | e
      · exact absurd e hce
      · simp only
        rw [(o.map.2 c).1]
        rcases (o.vis_ok c (h6 c e)).1.1 with e2 | e2
        · exact absurd e2 hcs
        · exact e2

theorem Outcome.acyclic {s : State} (hs : WellFormed s) {nodes : List Node}
    (o : Outcome s nodes) : Acyclic { s with m_nodes := nodes } := by
  have h1 : 1 ≤ s.size := by have := hs.2.1; omega
  refine ⟨o.start_root, ?_, ?_, ?_⟩
  · intro c p h
    obtain ⟨_, h2, _, h4, h5, _⟩ := o.chain hs h
    refine ⟨h2, ?_⟩
    show (parentChain nodes s.size c).length - 1 < s.size
    omega
  · unfold pathWalk
    exact pathWalk_loop_some nodes s.size _ (parentChain_length_le hs o _)
  · unfold reconstruct
    simp only
    by_cases hc : (readNode nodes s.m_nodeEnd).m_parent = none ∧ s.m_nodeEnd ≠ s.m_nodeStart
    · rw [if_pos hc]
      exact ⟨_, rfl, by simp⟩
    · rw [if_neg hc]
      have hlast : (parentChain nodes s.size s.m_nodeEnd).getLast? = some s.m_nodeStart := by
        cases hp : (readNode nodes s.m_nodeEnd).m_parent with
        | some p => exact (o.chain hs hp).2.1
        | none =>
          have he : s.m_nodeEnd = s.m_nodeStart := by
            by_contra hne
            exact hc ⟨hp, hne⟩
          obtain ⟨n, hn⟩ : ∃ n, s.size = n + 1 := ⟨s.size - 1, by omega⟩
          rw [hn]
          unfold parentChain
          rw [hp]
          simp [he]
      have hsz : ({ s with m_nodes := nodes } : State).size = s.size := rfl
      rw [hsz, walkBack_chain nodes s.m_nodeStart o.start_root s.size s.m_nodeEnd [] hlast]
      refine ⟨_, rfl, ?_⟩
      simp only [List.append_nil, List.length_reverse]
      exact parentChain_length_le hs o _

theorem Outcome.found {s : State} (hs : WellFormed s) {nodes : List Node}
    (o : Outcome s nodes) (hne : s.m_nodeStart ≠ s.m_nodeEnd)
    (hob : (readNode s.m_nodes s.m_nodeEnd).m_bObstacle = false)
    (hr : ∃ k, Reach s k s.m_nodeEnd) : GoalFound { s with m_nodes := nodes } := by
  obtain ⟨p, hp⟩ := o.complete hne hob hr
  obtain ⟨h1, h2, _⟩ := o.chain hs hp
  exact ⟨⟨p, hp⟩, h1, h2⟩

/-- When every path from the start cell to the end cell meets an obstacle, the
end cell has no predecessor. -/
theorem Outcome.separated {s : State} (hs : WellFormed s) {nodes : List Node}
    (o : Outcome s nodes)
    (hstart : (readNode s.m_nodes s.m_nodeStart).m_bObstacle = false)
    (hgoal : (readNode s.m_nodes s.m_nodeEnd).m_bObstacle = false)
    (hsep : ∀ p, p.head? = some s.m_nodeEnd → p.getLast? = some s.m_nodeStart → IsPath s p →
      ∃ c ∈ p, (readNode s.m_nodes c).m_bObstacle = true) :
    (readNode nodes s.m_nodeEnd).m_parent = none := by
  cases hp : (readNode nodes s.m_nodeEnd).m_parent with
  | none => rfl
  | some p =>
    obtain ⟨h1, h2, h3, h4⟩ := o.chain_free hs hp hstart hgoal
    obtain ⟨c, hc, hob⟩ := hsep _ h1 h2 h3
    rw [h4 c hc] at hob
    exact absurd hob (by simp)

/-! ## Connectivity of a map without obstacles -/

theorem neighbor_cell {s : State} (hs : WellFormed s) {c : Nat} (hc : c < s.size)
    {x' y' : Nat} (hx' : x' < s.m_nMapWidth) (hy' : y' < s.m_nMapHeight)
    (hadj : Adj4 (c % s.m_nMapWidth) (c / s.m_nMapWidth) x' y') :
    y' * s.m_nMapWidth + x' ∈ (readNode s.m_nodes c).m_nodeNeighbors ∧
    y' * s.m_nMapWidth + x' < s.size ∧
    (readNode s.m_nodes (y' * s.m_nMapWidth + x')).m_x = x' ∧
    (readNode s.m_nodes (y' * s.m_nMapWidth + x')).m_y = y' := by
  obtain ⟨hd, hm⟩ := cell_div_mod s.m_nMapWidth x' y' hx'
  have hlt : y' * s.m_nMapWidth + x' < s.size := cell_lt _ _ _ _ hx' hy'
  refine ⟨(hs.mem_neighbors hc).2 ⟨hlt, by rw [hd, hm]; exact hadj⟩, hlt, ?_, ?_⟩
  · rw [(hs.2.2.2 _ hlt).1, hm]
  · rw [(hs.2.2.2 _ hlt).2.1, hd]

theorem manhattan_self (s : State) (a : Nat) : manhattan s a a = 0 := by
  unfold manhattan
  simp

/-- On a map without obstacles every cell reached from the start cell is
joined to the end cell. -/
theorem grid_connected {s : State} (hs : WellFormed s)
    (hfree : ∀ i, (readNode s.m_nodes i).m_bObstacle = false) :
    ∀ (d c : Nat), manhattan s c s.m_nodeEnd = d → ∀ k, Reach s k c →
      ∃ k', Reach s k' s.m_nodeEnd := by
  intro d
  induction d with
  | zero =>
    intro c hd k hk
    have hce : c = s.m_nodeEnd := by
      by_contra hne
      have := manhattan_pos hs (hk.lt hs) hs.2.2.1 hne
      omega
    rw [← hce]
    exact ⟨k, hk⟩
  | succ d ih =>
    intro c hd k hk
    have hc : c < s.size := hk.lt hs
    have hce : c ≠ s.m_nodeEnd := by
      intro h
      rw [h, manhattan_self] at hd
      omega
    have hE : Expandable s c := ⟨Or.inr (hfree c), hce⟩
    obtain ⟨hcx, hcy⟩ := coord_lt hc
    obtain ⟨hex, hey⟩ := coord_lt hs.2.2.1
    have hxc := (hs.2.2.2 c hc).1
    have hyc := (hs.2.2.2 c hc).2.1
    have hxe := (hs.2.2.2 _ hs.2.2.1).1
    have hye := (hs.2.2.2 _ hs.2.2.1).2.1
    have key : ∀ x' y', x' < s.m_nMapWidth → y' < s.m_nMapHeight →
        Adj4 (c % s.m_nMapWidth) (c / s.m_nMapWidth) x' y' →
        Int.natAbs ((x' : Int) - (s.m_nodeEnd % s.m_nMapWidth : Nat))
          + Int.natAbs ((y' : Int) - (s.m_nodeEnd / s.m_nMapWidth : Nat)) = d →
        ∃ k', Reach s k' s.m_nodeEnd := by
      intro x' y' hx' hy' hadj hdist
      obtain ⟨n1, n2, n3, n4⟩ := neighbor_cell hs hc hx' hy' hadj
      apply ih (y' * s.m_nMapWidth + x') _ (k + 1) (Reach.step hk hE n1)
      unfold manhattan
      rw [n3, n4, hxe, hye]
      exact hdist
    unfold manhattan at hd
    rw [hxc, hyc, hxe, hye] at hd
    generalize c % s.m_nMapWidth = xc at hcx hd key
    generalize c / s.m_nMapWidth = yc at hcy hd key
    generalize s.m_nodeEnd % s.m_nMapWidth = xe at hex hd key
    generalize s.m_nodeEnd / s.m_nMapWidth = ye at hey hd key
    unfold Adj4 at key
    by_cases h1 : xc < xe
    · exact key (xc + 1) yc (by omega) hcy (by omega) (by omega)
    · by_cases h2 : xe < xc
      · exact key (xc - 1) yc (by omega) hcy (by omega) (by omega)
      · by_cases h3 : yc < ye
        · exact key xc (yc + 1) hcx (by omega) (by omega) (by omega)
        · exact key xc (yc - 1) hcx (by omega) (by omega) (by omega)

theorem free_grid_reach {s : State} (hs : WellFormed s)
    (hfree : ∀ i, (readNode s.m_nodes i).m_bObstacle = false) :
    ∃ k, Reach s k s.m_nodeEnd :=
  grid_connected hs hfree _ s.m_nodeStart rfl 0 Reach.start

/-! ## One pass through the body of the outer loops -/

theorem gridNeighbors_length (W H x y : Nat) : (gridNeighbors W H x y).length ≤ 4 := by
  unfold gridNeighbors
  simp only [List.length_append]
  split <;> split <;> split <;> split <;> simp

theorem neighbors_length {s : State} (hs : WellFormed s) {c : Nat} (hc : c < s.size) :
    (readNode s.m_nodes c).m_nodeNeighbors.length ≤ 4 := by
  rw [(hs.2.2.2 c hc).2.2]
  exact gridNeighbors_length _ _ _ _

theorem Step.marks {s : State} (hs : WellFormed s) {heur : Bool} {nodes nodes' : List Node}
    {q q' q1 : List Nat} {cur : Nat} (st : Step s heur nodes q nodes' q' cur q1)
    (hq : ∀ a ∈ q, a < s.size) : MarksOne s nodes q nodes' q' := by
  have hcl : cur < s.size := hq cur (st.sub.subset st.cur_mem)
  refine ⟨⟨cur, hcl, st.cur_unvisited, (st.vis hs hcl cur).2 (Or.inr rfl)⟩, ?_, ?_⟩
  · intro j hj
    exact (st.vis hs hcl j).2 (Or.inl hj)
  · rw [st.queue, List.length_append]
    have h1 := st.sub.length_le
    have h2 := List.length_filter_le (pushable nodes) (readNode s.m_nodes cur).m_nodeNeighbors
    have h3 := neighbors_length hs hcl
    omega

theorem bfs_neighbors_length (nodeEnd cur : Nat) :
    ∀ (l : List Nat) (B : List Node) (qB : List Nat),
      (bfs.neighbors nodeEnd cur l B qB).2.1.length ≤ qB.length + l.length := by
  intro l
  induction l with
  | nil => intro B qB; simp [bfs.neighbors]
  | cons a l ih =>
    intro B qB
    unfold bfs.neighbors
    split
    · split
      · simp
      · have := ih (writeNode B a { readNode B a with m_parent := some cur }) (qB ++ [a])
        simp only [List.length_append, List.length_cons, List.length_nil] at this ⊢
        omega
    · have := ih B qB
      simp only [List.length_cons]
      omega

theorem bfs_iter_marks {s : State} (hs : WellFormed s) {nodes nodes' : List Node}
    {q q' : List Nat} {found : Bool} (hm : SameMap s nodes) (hq : ∀ a ∈ q, a < s.size)
    (h : bfs.iter s.m_nodeEnd nodes q = some (nodes', q', found)) :
    MarksOne s nodes q nodes' q' := by
  obtain ⟨d1, _, d3⟩ := drain_spec fifo nodes s.m_nodeEnd q.length q (le_refl _)
  rw [drain_fifo nodes s.m_nodeEnd q.length q (le_refl _)] at d1 d3
  unfold bfs.iter at h
  cases hd : dijkstra.drain nodes s.m_nodeEnd q with
  | nil => rw [hd] at h; simp at h
  | cons cur rest =>
    rw [hd] at h d1 d3
    simp only [Option.some.injEq] at h
    have hcq : cur ∈ q := d1.subset (List.mem_cons_self cur rest)
    have hcl : cur < s.size := hq cur hcq
    have hcl2 : cur < nodes.length := by rw [hm.1]; exact hcl
    obtain ⟨hv, _⟩ := d3 (List.cons_ne_nil _ _)
    have htop : fifo.top nodes (cur :: rest) = cur := rfl
    rw [htop] at hv
    have hm1 : SameMap s (writeNode nodes cur { readNode nodes cur with m_bVisited := true }) :=
      hm.write cur _ rfl rfl rfl rfl
    have hnb : (readNode (writeNode nodes cur { readNode nodes cur with m_bVisited := true })
        cur).m_nodeNeighbors = (readNode s.m_nodes cur).m_nodeNeighbors := (hm1.2 cur).2.2.2
    rw [hnb] at h
    have hlen1 : ∀ b ∈ (readNode s.m_nodes cur).m_nodeNeighbors,
        b < (writeNode nodes cur { readNode nodes cur with m_bVisited := true }).length := by
      intro b hb
      rw [hm1.1]
      exact ((hs.mem_neighbors hcl).1 hb).1
    obtain ⟨_, n2, _, _, _⟩ := bfs_neighbors_spec s.m_nodeEnd cur
      (readNode s.m_nodes cur).m_nodeNeighbors
      (writeNode nodes cur { readNode nodes cur with m_bVisited := true }) (cur :: rest) hlen1
    have hl := bfs_neighbors_length s.m_nodeEnd cur (readNode s.m_nodes cur).m_nodeNeighbors
      (writeNode nodes cur { readNode nodes cur with m_bVisited := true }) (cur :: rest)
    rw [h] at n2 hl
    simp only at n2 hl
    refine ⟨⟨cur, hcl, hv, ?_⟩, ?_, ?_⟩
    · rw [(n2 cur).2.1, readNode_writeNode_same _ _ _ hcl2]
    · intro j hj
      rw [(n2 j).2.1, readNode_writeNode]
      split
      · rfl
      · exact hj
    · have h1 := d1.length_le
      have h3 := neighbors_length hs hcl
      omega

theorem AStar_iter_end (pq : PriorityQueue) (nodeEnd : Nat) (nodes : List Node) :
    AStar.iter pq nodeEnd nodes [nodeEnd] = none := by
  have ht : pq.top nodes [nodeEnd] = nodeEnd := by
    have := pq.top_mem nodes [nodeEnd] (List.cons_ne_nil _ _)
    simpa using this
  unfold AStar.iter
  simp [AStar.drain, ht]

theorem dijkstra_iter_end (nodeEnd : Nat) (nodes : List Node) :
    dijkstra.iter nodeEnd nodes [nodeEnd] = none := by
  unfold dijkstra.iter
  simp [dijkstra.drain]

theorem bfs_iter_end (nodeEnd : Nat) (nodes : List Node) :
    bfs.iter nodeEnd nodes [nodeEnd] = none := by
  unfold bfs.iter
  simp [dijkstra.drain]

/-! ## Results of the three searches -/

theorem AStar_outcome {s : State} (hs : WellFormed s) (pq : PriorityQueue) :
    ∃ nodes, AStar pq s = some { s with m_nodes := nodes } ∧ Outcome s nodes := by
  obtain ⟨nodes, q, h1, inv, hq⟩ := AStar_run hs pq
  exact ⟨nodes, h1, inv.outcome hq⟩

theorem dijkstra_outcome {s : State} (hs : WellFormed s) :
    ∃ nodes, dijkstra s = some { s with m_nodes := nodes } ∧ Outcome s nodes := by
  obtain ⟨nodes, q, h1, inv, hq, _⟩ := dijkstra_run hs
  exact ⟨nodes, h1, inv.outcome hq⟩

theorem bfs_outcome {s : State} (hs : WellFormed s) :
    ∃ nodes, bfs s = some { s with m_nodes := nodes } ∧ Outcome s nodes := by
  obtain ⟨B, _, _, h1, _, _, o, _⟩ := bfs_run hs
  exact ⟨B, h1, o⟩

/-- At the end of a cost-aware search whose visited cells carry their least
cost, every finite local goal is the least length of a walk, and the
predecessor chain of a cell has that many edges. -/
theorem cost_least {s : State} (hs : WellFormed s) {heur : Bool} {nodes : List Node}
    {q : List Nat} (inv : Inv s heur nodes q) (oinv : OInv s nodes)
    (hq : ∀ a ∈ q, (readNode nodes a).m_bVisited = true ∨ a = s.m_nodeEnd) :
    (∀ n g, (readNode nodes n).m_localGoal = some g → LeastWalk s n g) ∧
    (∀ c p, (readNode nodes c).m_parent = some p →
      ∃ g, (readNode nodes c).m_localGoal = some g ∧
        (parentChain nodes s.size c).length = g + 1) := by
  refine ⟨?_, ?_⟩
  · intro n g hg
    refine ⟨inv.sound n g hg, ?_⟩
    intro k hk
    obtain ⟨gn, h1, h2⟩ := oinv.optimal hs inv hq k n hk
    rw [hg] at h1
    have : g = gn := Option.some.inj h1
    omega
  · intro c p hp
    obtain ⟨_, _, gn, gp, h1, _, _⟩ := inv.par_ok c p hp
    refine ⟨gn, h1, ?_⟩
    have hl : ∀ c p, (readNode nodes c).m_parent = some p → gval nodes c = gval nodes p + 1 := by
      intro c p h
      obtain ⟨gp, e1, e2⟩ := oinv.par_exact c p h
      rw [gval_eq e1, gval_eq e2]
    rw [chain_length hs (inv.outcome hq) hl (gval_eq inv.g_start) hp, gval_eq h1]

theorem LeastWalk.unique {s : State} {v g g' : Nat} (h : LeastWalk s v g)
    (h' : LeastWalk s v g') : g = g' :=
  Nat.le_antisymm (h.2 g' h'.1) (h'.2 g h.1)

/-! ## Further consequences of the outcome of a search -/

theorem readNode_of_le {nodes : List Node} {i : Nat} (h : nodes.length ≤ i) :
    readNode nodes i = Node.fresh := by
  unfold readNode
  simp [List.getD_eq_getElem?_getD, List.getElem?_eq_none h]

theorem WellFormed.free_of_lt {s : State} (hs : WellFormed s)
    (h : ∀ i, i < s.size → (readNode s.m_nodes i).m_bObstacle = false) :
    ∀ i, (readNode s.m_nodes i).m_bObstacle = false := by
  intro i
  by_cases hi : i < s.size
  · exact h i hi
  · rw [readNode_of_le (by rw [hs.1]; omega)]
    rfl

/-- When the end cell has a predecessor the reconstructed path is its
predecessor chain, listed from the start cell. -/
theorem Outcome.reconstruct_found {s : State} (hs : WellFormed s) {nodes : List Node}
    (o : Outcome s nodes) {p : Nat} (hp : (readNode nodes s.m_nodeEnd).m_parent = some p) :
    reconstruct { s with m_nodes := nodes }
      = some { reachable := true
               orderedPath := (parentChain nodes s.size s.m_nodeEnd).reverse } := by
  unfold reconstruct
  simp only
  have hc : ¬ ((readNode nodes s.m_nodeEnd).m_parent = none ∧ s.m_nodeEnd ≠ s.m_nodeStart) := by
    rw [hp]
    simp
  rw [if_neg hc]
  have hsz : ({ s with m_nodes := nodes } : State).size = s.size := rfl
  rw [hsz, walkBack_chain nodes s.m_nodeStart o.start_root s.size s.m_nodeEnd []
    (o.chain hs hp).2.1]
  simp

/-- When the end cell has no predecessor and is not the start cell the
reconstructed result is unreachable, with an empty path. -/
theorem reconstruct_none {s : State} {nodes : List Node}
    (hne : s.m_nodeStart ≠ s.m_nodeEnd)
    (hp : (readNode nodes s.m_nodeEnd).m_parent = none) :
    reconstruct { s with m_nodes := nodes }
      = some { reachable := false, orderedPath := [] } := by
  unfold reconstruct
  simp only
  rw [if_pos ⟨hp, fun e => hne e.symm⟩]

theorem Outcome.trivial {s : State} {nodes : List Node} (o : Outcome s nodes)
    (hse : s.m_nodeStart = s.m_nodeEnd) : TrivialResult { s with m_nodes := nodes } := by
  have hv : ∀ i, (readNode nodes i).m_bVisited = false := by
    intro i
    cases h : (readNode nodes i).m_bVisited with
    | false => rfl
    | true =>
      obtain ⟨hE, _, k, hk⟩ := o.vis_ok i h
      exact absurd ((reach_start_end hse hk).trans hse) hE.2
  have hp : ∀ i, (readNode nodes i).m_parent = none := by
    intro i
    cases h : (readNode nodes i).m_parent with
    | none => rfl
    | some p =>
      have := (o.par_ok i p h).1
      rw [hv p] at this
      exact absurd this (by simp)
  refine ⟨hp, hv, ?_, ?_⟩
  · unfold reconstruct
    simp only
    have hc : ¬ ((readNode nodes s.m_nodeEnd).m_parent = none ∧ s.m_nodeEnd ≠ s.m_nodeStart) := by
      intro h
      exact h.2 hse.symm
    rw [if_neg hc]
    have hsz : ({ s with m_nodes := nodes } : State).size = s.size := rfl
    rw [hsz]
    cases s.size with
    | zero => simp [walkBack, hse]
    | succ n => simp [walkBack, hse]
  · unfold pathWalk
    simp only
    rw [hp s.m_nodeEnd]
    have hsz : ({ s with m_nodes := nodes } : State).size = s.size := rfl
    rw [hsz]
    cases s.size with
    | zero => simp [pathWalk.loop, hp]
    | succ n => simp [pathWalk.loop, hp]

/-- At the end of a cost-aware search whose visited cells carry their least
cost, the end cell has a predecessor exactly when a walk reaches it and it
is not the start cell. -/
theorem goal_parent_iff {s : State} (hs : WellFormed s) {heur : Bool} {nodes : List Node}
    {q : List Nat} (inv : Inv s heur nodes q) (oinv : OInv s nodes)
    (hq : ∀ a ∈ q, (readNode nodes a).m_bVisited = true ∨ a = s.m_nodeEnd) :
    (∃ p, (readNode nodes s.m_nodeEnd).m_parent = some p) ↔
      (s.m_nodeEnd ≠ s.m_nodeStart ∧ ∃ k, Reach s k s.m_nodeEnd) := by
  constructor
  · rintro ⟨p, hp⟩
    obtain ⟨_, _, gn, _, h1, _, _⟩ := inv.par_ok _ p hp
    refine ⟨?_, gn, inv.sound _ gn h1⟩
    intro e
    rw [e, (inv.outcome hq).start_root] at hp
    exact absurd hp (by simp)
  · rintro ⟨hne, k, hk⟩
    obtain ⟨gn, h1, _⟩ := oinv.optimal hs inv hq k _ hk
    exact inv.par_some _ gn h1 hne

/-- On the map `blocked3` every path from the end cell back to the start cell
meets an obstacle. -/
theorem blocked3_separated (p : List Nat) (h1 : p.head? = some blocked3.m_nodeEnd)
    (h2 : p.getLast? = some blocked3.m_nodeStart) (h3 : IsPath blocked3 p) :
    ∃ c ∈ p, (readNode blocked3.m_nodes c).m_bObstacle = true := by
  have hlen : blocked3.m_nodes.length = 9 := by decide
  have hF : ∀ b, b < 9 → ∀ t ∈ [2, 5, 8],
      t ∈ (readNode blocked3.m_nodes b).m_nodeNeighbors →
        b ∈ [2, 5, 8] ∨ (readNode blocked3.m_nodes b).m_bObstacle = true := by decide
  have key : ∀ (l : List Nat) (t : Nat), t ∈ [2, 5, 8] → l.head? = some t →
      l.getLast? = some 3 → IsPath blocked3 l →
      ∃ c ∈ l, (readNode blocked3.m_nodes c).m_bObstacle = true := by
    intro l
    induction l with
    | nil => intro t _ h; simp at h
    | cons a l ih =>
      intro t ht hh hl hp
      simp only [List.head?_cons, Option.some.injEq] at hh
      subst hh
      cases l with
      | nil =>
        simp only [List.getLast?_singleton, Option.some.injEq] at hl
        subst hl
        simp at ht
      | cons b rest =>
        obtain ⟨hab, hrest⟩ := hp
        have hb : b < 9 := by
          by_contra hge
          rw [readNode_of_le (by rw [hlen]; omega)] at hab
          simp [Node.fresh] at hab
        rcases hF b hb a ht hab with hR | hO
        · rw [List.getLast?_cons_cons] at hl
          obtain ⟨c, hc, hob⟩ := ih b hR rfl hl hrest
          exact ⟨c, List.mem_cons_of_mem _ hc, hob⟩
        · exact ⟨b, by simp, hO⟩
  exact key p 5 (by simp) h1 h2 h3

/-! ## The ideal least-first queue

The two results of this section are about `AStar` run with a queue whose
`top()` is always an element of least `m_globalGoal` (`PriorityQueue.Ordered`).
They say nothing about a queue that does not keep that order. -/

/-- With an ideal least-first queue, whatever way it breaks ties, when `AStar`
leaves the end cell with a predecessor the predecessor chain of the end cell
is a path of cells that are not obstacles from the start cell to the end
cell, no such path has fewer cells, and the local goal of the end cell is its
number of edges. -/
theorem ideal_queue_shortest_path (pq : PriorityQueue) (hpq : pq.Ordered) (s : State)
    (hs : WellFormed s)
    (hstart : (readNode s.m_nodes s.m_nodeStart).m_bObstacle = false)
    (hgoal : (readNode s.m_nodes s.m_nodeEnd).m_bObstacle = false) :
    ∃ r, AStar pq s = some r ∧
      ∀ pr, (readNode r.m_nodes r.m_nodeEnd).m_parent = some pr →
        FreePath s s.m_nodeStart s.m_nodeEnd (goalChain r) ∧
        (∀ p, FreePath s s.m_nodeStart s.m_nodeEnd p → (goalChain r).length ≤ p.length) ∧
        (readNode r.m_nodes r.m_nodeEnd).m_localGoal = some ((goalChain r).length - 1) := by
  obtain ⟨nodes, q, h1, inv, hq, oinv⟩ := AStar_run_ordered hs pq hpq
  refine ⟨_, h1, ?_⟩
  intro pr hp
  have hp' : (readNode nodes s.m_nodeEnd).m_parent = some pr := hp
  obtain ⟨hleast, hlen⟩ := cost_least hs inv oinv hq
  obtain ⟨g, hg, hl⟩ := hlen s.m_nodeEnd pr hp'
  have hch : goalChain { s with m_nodes := nodes } = parentChain nodes s.size s.m_nodeEnd := rfl
  rw [hch]
  refine ⟨(inv.outcome hq).chain_free hs hp' hstart hgoal, ?_, ?_⟩
  · intro p hfp
    obtain ⟨k, hk1, hk2⟩ := hfp.reach
    have := (hleast _ g hg).2 k hk2
    omega
  · rw [hl]
    exact hg

/-- With an ideal least-first queue, `AStar` and `dijkstra` both return, the end
cell has a predecessor after the one exactly when it has one after the other,
and then the two predecessor chains of the end cell have the same number of
cells and the end cell has the same local goal. -/
theorem ideal_queue_agrees_with_dijkstra (pq : PriorityQueue) (hpq : pq.Ordered) (s : State)
    (hs : WellFormed s) :
    ∃ rA rD, AStar pq s = some rA ∧ dijkstra s = some rD ∧
      ((∃ p, (readNode rA.m_nodes rA.m_nodeEnd).m_parent = some p) ↔
        (∃ p, (readNode rD.m_nodes rD.m_nodeEnd).m_parent = some p)) ∧
      ((∃ p, (readNode rA.m_nodes rA.m_nodeEnd).m_parent = some p) →
        (goalChain rA).length = (goalChain rD).length ∧
        (∃ g, (readNode rA.m_nodes rA.m_nodeEnd).m_localGoal = some g ∧
          (readNode rD.m_nodes rD.m_nodeEnd).m_localGoal = some g ∧
          (goalChain rA).length - 1 = g)) := by
  obtain ⟨nA, qA, hA, invA, hqA, oinvA⟩ := AStar_run_ordered hs pq hpq
  obtain ⟨nD, qD, hD, invD, hqD, oinvD, _⟩ := dijkstra_run hs
  refine ⟨_, _, hA, hD, ?_, ?_⟩
  · show (∃ p, (readNode nA s.m_nodeEnd).m_parent = some p) ↔
      (∃ p, (readNode nD s.m_nodeEnd).m_parent = some p)
    rw [goal_parent_iff hs invA oinvA hqA, goal_parent_iff hs invD oinvD hqD]
  · intro hpA
    have hpA' : ∃ p, (readNode nA s.m_nodeEnd).m_parent = some p := hpA
    have hpD' : ∃ p, (readNode nD s.m_nodeEnd).m_parent = some p := by
      rw [goal_parent_iff hs invD oinvD hqD, ← goal_parent_iff hs invA oinvA hqA]
      exact hpA'
    obtain ⟨pA, hpA⟩ := hpA'
    obtain ⟨pD, hpD⟩ := hpD'
    obtain ⟨lA, cA⟩ := cost_least hs invA oinvA hqA
    obtain ⟨lD, cD⟩ := cost_least hs invD oinvD hqD
    obtain ⟨gA, hgA, hlA⟩ := cA s.m_nodeEnd pA hpA
    obtain ⟨gD, hgD, hlD⟩ := cD s.m_nodeEnd pD hpD
    have e : gA = gD := (lA _ gA hgA).unique (lD _ gD hgD)
    subst e
    have hchA : goalChain { s with m_nodes := nA } = parentChain nA s.size s.m_nodeEnd := rfl
    have hchD : goalChain { s with m_nodes := nD } = parentChain nD s.size s.m_nodeEnd := rfl
    rw [hchA, hchD, hlA, hlD]
    exact ⟨rfl, gA, hgA, hgD, by omega⟩

/-! ## Main results -/

/-- C2: when `bfs` leaves the end cell with a predecessor, the predecessor
chain of the end cell is a path of cells that are not obstacles from the
start cell to the end cell, no such path has fewer cells (edges), and so it
has no more cells than the predecessor chain that `AStar` or `dijkstra`
leaves on the same map. -/
theorem bfs_fewest_edges (pq : PriorityQueue) (s : State) (hs : WellFormed s)
    (hstart : (readNode s.m_nodes s.m_nodeStart).m_bObstacle = false)
    (hgoal : (readNode s.m_nodes s.m_nodeEnd).m_bObstacle = false) :
    ∃ r, bfs s = some r ∧
      ∀ pr, (readNode r.m_nodes r.m_nodeEnd).m_parent = some pr →
        FreePath s s.m_nodeStart s.m_nodeEnd (goalChain r) ∧
        (∀ p, FreePath s s.m_nodeStart s.m_nodeEnd p → (goalChain r).length ≤ p.length) ∧
        (∀ rA pA, AStar pq s = some rA →
          (readNode rA.m_nodes rA.m_nodeEnd).m_parent = some pA →
          (goalChain r).length - 1 ≤ (goalChain rA).length - 1) ∧
        (∀ rD pD, dijkstra s = some rD →
          (readNode rD.m_nodes rD.m_nodeEnd).m_parent = some pD →
          (goalChain r).length - 1 ≤ (goalChain rD).length - 1) := by
  obtain ⟨B, D, q, h1, inv, sim, o, hopt⟩ := bfs_run hs
  refine ⟨_, h1, ?_⟩
  intro pr hp
  replace hp : (readNode B s.m_nodeEnd).m_parent = some pr := hp
  have hch : goalChain { s with m_nodes := B } = parentChain B s.size s.m_nodeEnd := rfl
  rw [hch]
  have hl : ∀ c p, (readNode B c).m_parent = some p → gval D c = gval D p + 1 := by
    intro c p h
    obtain ⟨_, _, _, gp, e1, e2⟩ := sim.par c p h
    rw [gval_eq e1, gval_eq e2]
  have hlen := chain_length hs o hl (gval_eq inv.g_start) hp
  have hmin : ∀ p, FreePath s s.m_nodeStart s.m_nodeEnd p →
      (parentChain B s.size s.m_nodeEnd).length ≤ p.length := by
    intro p hfp
    obtain ⟨k, hk1, hk2⟩ := hfp.reach
    obtain ⟨ge, e1, e2⟩ := hopt ⟨pr, hp⟩ k hk2
    rw [hlen, gval_eq e1]
    omega
  refine ⟨o.chain_free hs hp hstart hgoal, hmin, ?_, ?_⟩
  · intro rA pA hA hpA
    obtain ⟨nodesA, hA', oA⟩ := AStar_outcome hs pq
    rw [hA'] at hA
    have hrA : rA = { s with m_nodes := nodesA } := (Option.some.inj hA).symm
    subst hrA
    replace hpA : (readNode nodesA s.m_nodeEnd).m_parent = some pA := hpA
    have := hmin _ (oA.chain_free hs hpA hstart hgoal)
    have hchA : goalChain { s with m_nodes := nodesA }
        = parentChain nodesA s.size s.m_nodeEnd := rfl
    rw [hchA]
    omega
  · intro rD pD hD hpD
    obtain ⟨nodesD, hD', oD⟩ := dijkstra_outcome hs
    rw [hD'] at hD
    have hrD : rD = { s with m_nodes := nodesD } := (Option.some.inj hD).symm
    subst hrD
    replace hpD : (readNode nodesD s.m_nodeEnd).m_parent = some pD := hpD
    have := hmin _ (oD.chain_free hs hpD hstart hgoal)
    have hchD : goalChain { s with m_nodes := nodesD }
        = parentChain nodesD s.size s.m_nodeEnd := rfl
    rw [hchD]
    omega

theorem bfs_fewest_edges_witness :
    WellFormed grid3 ∧
    (readNode grid3.m_nodes grid3.m_nodeStart).m_bObstacle = false ∧
    (readNode grid3.m_nodes grid3.m_nodeEnd).m_bObstacle = false ∧
    (bfs grid3).map (fun r => (goalChain r).length - 1) = some 4 ∧
    ∃ r, bfs grid3 = some r ∧
      ∀ pr, (readNode r.m_nodes r.m_nodeEnd).m_parent = some pr →
        FreePath grid3 grid3.m_nodeStart grid3.m_nodeEnd (goalChain r) ∧
        (∀ p, FreePath grid3 grid3.m_nodeStart grid3.m_nodeEnd p →
          (goalChain r).length ≤ p.length) ∧
        (∀ rA pA, AStar leastFirst grid3 = some rA →
          (readNode rA.m_nodes rA.m_nodeEnd).m_parent = some pA →
          (goalChain r).length - 1 ≤ (goalChain rA).length - 1) ∧
        (∀ rD pD, dijkstra grid3 = some rD →
          (readNode rD.m_nodes rD.m_nodeEnd).m_parent = some pD →
          (goalChain r).length - 1 ≤ (goalChain rD).length - 1) :=
  ⟨by decide, by decide, by decide, by decide,
    bfs_fewest_edges leastFirst grid3 (by decide) (by decide) (by decide)⟩

/-- C3: after `AStar`, `dijkstra` and `bfs`, every predecessor is a visited
grid neighbour that is the start cell or not an obstacle, and the cells of
the predecessor chain of the end cell other than its two ends are not
obstacles, consecutive cells being grid neighbours. -/
theorem predecessors_valid (pq : PriorityQueue) (s : State) (hs : WellFormed s) :
    (∃ r, AStar pq s = some r ∧ PredecessorsValid r) ∧
    (∃ r, dijkstra s = some r ∧ PredecessorsValid r) ∧
    (∃ r, bfs s = some r ∧ PredecessorsValid r) := by
  obtain ⟨nA, hA, oA⟩ := AStar_outcome hs pq
  obtain ⟨nD, hD, oD⟩ := dijkstra_outcome hs
  obtain ⟨nB, hB, oB⟩ := bfs_outcome hs
  exact ⟨⟨_, hA, oA.valid hs⟩, ⟨_, hD, oD.valid hs⟩, ⟨_, hB, oB.valid hs⟩⟩

theorem predecessors_valid_witness :
    WellFormed blocked3 ∧
    ((∃ r, AStar leastFirst blocked3 = some r ∧ PredecessorsValid r) ∧
    (∃ r, dijkstra blocked3 = some r ∧ PredecessorsValid r) ∧
    (∃ r, bfs blocked3 = some r ∧ PredecessorsValid r)) :=
  ⟨by decide, predecessors_valid leastFirst blocked3 (by decide)⟩

/-- C4: when the start cell and the end cell are distinct cells that are not
obstacles and every grid path from the start cell to the end cell passes
through an obstacle, `AStar`, `dijkstra` and `bfs` each return, leave the end
cell without a predecessor, and the reconstructed result is unreachable with
an empty path. -/
theorem separated_goal_unreachable (pq : PriorityQueue) (s : State) (hs : WellFormed s)
    (hne : s.m_nodeStart ≠ s.m_nodeEnd)
    (hstart : (readNode s.m_nodes s.m_nodeStart).m_bObstacle = false)
    (hgoal : (readNode s.m_nodes s.m_nodeEnd).m_bObstacle = false)
    (hsep : ∀ p, p.head? = some s.m_nodeEnd → p.getLast? = some s.m_nodeStart → IsPath s p →
      ∃ c ∈ p, (readNode s.m_nodes c).m_bObstacle = true) :
    (∃ r, AStar pq s = some r ∧ (readNode r.m_nodes r.m_nodeEnd).m_parent = none ∧
      reconstruct r = some { reachable := false, orderedPath := [] }) ∧
    (∃ r, dijkstra s = some r ∧ (readNode r.m_nodes r.m_nodeEnd).m_parent = none ∧
      reconstruct r = some { reachable := false, orderedPath := [] }) ∧
    (∃ r, bfs s = some r ∧ (readNode r.m_nodes r.m_nodeEnd).m_parent = none ∧
      reconstruct r = some { reachable := false, orderedPath := [] }) := by
  obtain ⟨nA, hA, oA⟩ := AStar_outcome hs pq
  obtain ⟨nD, hD, oD⟩ := dijkstra_outcome hs
  obtain ⟨nB, hB, oB⟩ := bfs_outcome hs
  have pA := oA.separated hs hstart hgoal hsep
  have pD := oD.separated hs hstart hgoal hsep
  have pB := oB.separated hs hstart hgoal hsep
  exact ⟨⟨_, hA, pA, reconstruct_none hne pA⟩, ⟨_, hD, pD, reconstruct_none hne pD⟩,
    ⟨_, hB, pB, reconstruct_none hne pB⟩⟩

theorem separated_goal_unreachable_witness :
    WellFormed blocked3 ∧ blocked3.m_nodeStart ≠ blocked3.m_nodeEnd ∧
    (readNode blocked3.m_nodes blocked3.m_nodeStart).m_bObstacle = false ∧
    (readNode blocked3.m_nodes blocked3.m_nodeEnd).m_bObstacle = false ∧
    (∀ p, p.head? = some blocked3.m_nodeEnd → p.getLast? = some blocked3.m_nodeStart →
      IsPath blocked3 p → ∃ c ∈ p, (readNode blocked3.m_nodes c).m_bObstacle = true) ∧
    ((∃ r, AStar leastFirst blocked3 = some r ∧
      (readNode r.m_nodes r.m_nodeEnd).m_parent = none ∧
      reconstruct r = some { reachable := false, orderedPath := [] }) ∧
    (∃ r, dijkstra blocked3 = some r ∧ (readNode r.m_nodes r.m_nodeEnd).m_parent = none ∧
      reconstruct r = some { reachable := false, orderedPath := [] }) ∧
    (∃ r, bfs blocked3 = some r ∧ (readNode r.m_nodes r.m_nodeEnd).m_parent = none ∧
      reconstruct r = some { reachable := false, orderedPath := [] })) :=
  ⟨by decide, by decide, by decide, by decide, blocked3_separated,
    separated_goal_unreachable leastFirst blocked3 (by decide) (by decide) (by decide)
      (by decide) blocked3_separated⟩

/-- C5: when the start cell and the end cell are distinct and some grid path of
cells that are not obstacles joins them, or the map has no obstacle at all,
`AStar`, `dijkstra` and `bfs` each return with a predecessor on the end cell
whose predecessor chain ends at the start cell, and the reconstructed result
is reachable. -/
theorem path_found_when_exists (pq : PriorityQueue) (s : State) (hs : WellFormed s)
    (hne : s.m_nodeStart ≠ s.m_nodeEnd)
    (hpath : (∃ p, FreePath s s.m_nodeStart s.m_nodeEnd p) ∨
      (∀ i, i < s.size → (readNode s.m_nodes i).m_bObstacle = false)) :
    (∃ r, AStar pq s = some r ∧ GoalFound r ∧
      (reconstruct r).map (fun res => res.reachable) = some true) ∧
    (∃ r, dijkstra s = some r ∧ GoalFound r ∧
      (reconstruct r).map (fun res => res.reachable) = some true) ∧
    (∃ r, bfs s = some r ∧ GoalFound r ∧
      (reconstruct r).map (fun res => res.reachable) = some true) := by
  have hreach : (readNode s.m_nodes s.m_nodeEnd).m_bObstacle = false ∧
      ∃ k, Reach s k s.m_nodeEnd := by
    rcases hpath with ⟨p, hp⟩ | hfree
    · obtain ⟨k, _, hk⟩ := hp.reach
      refine ⟨?_, k, hk⟩
      obtain ⟨h1, _, _, h4⟩ := hp
      apply h4
      cases p with
      | nil => simp at h1
      | cons a l =>
        simp only [List.head?_cons, Option.some.injEq] at h1
        rw [h1]
        exact List.mem_cons_self _ _
    · exact ⟨hfree _ hs.2.2.1, free_grid_reach hs (hs.free_of_lt hfree)⟩
  obtain ⟨hob, hr⟩ := hreach
  obtain ⟨nA, hA, oA⟩ := AStar_outcome hs pq
  obtain ⟨nD, hD, oD⟩ := dijkstra_outcome hs
  obtain ⟨nB, hB, oB⟩ := bfs_outcome hs
  have fA := oA.found hs hne hob hr
  have fD := oD.found hs hne hob hr
  have fB := oB.found hs hne hob hr
  refine ⟨⟨_, hA, fA, ?_⟩, ⟨_, hD, fD, ?_⟩, ⟨_, hB, fB, ?_⟩⟩
  · obtain ⟨⟨p, hp⟩, _⟩ := fA
    rw [oA.reconstruct_found hs hp]
    rfl
  · obtain ⟨⟨p, hp⟩, _⟩ := fD
    rw [oD.reconstruct_found hs hp]
    rfl
  · obtain ⟨⟨p, hp⟩, _⟩ := fB
    rw [oB.reconstruct_found hs hp]
    rfl

theorem path_found_when_exists_witness :
    WellFormed grid3 ∧ grid3.m_nodeStart ≠ grid3.m_nodeEnd ∧
    (∀ i, i < grid3.size → (readNode grid3.m_nodes i).m_bObstacle = false) ∧
    ((∃ r, AStar leastFirst grid3 = some r ∧ GoalFound r ∧
      (reconstruct r).map (fun res => res.reachable) = some true) ∧
    (∃ r, dijkstra grid3 = some r ∧ GoalFound r ∧
      (reconstruct r).map (fun res => res.reachable) = some true) ∧
    (∃ r, bfs grid3 = some r ∧ GoalFound r ∧
      (reconstruct r).map (fun res => res.reachable) = some true)) :=
  ⟨by decide, by decide, by decide,
    path_found_when_exists leastFirst grid3 (by decide) (by decide) (Or.inr (by decide))⟩

/-- C6: after `AStar`, `dijkstra` and `bfs` the start cell has no predecessor,
the predecessor chain of every cell that has a predecessor reaches the start
cell in fewer than `m_nMapWidth * m_nMapHeight` links, the path walk from the
end cell ends, and the reconstructed path has at most
`m_nMapWidth * m_nMapHeight` cells. -/
theorem predecessors_acyclic (pq : PriorityQueue) (s : State) (hs : WellFormed s) :
    (∃ r, AStar pq s = some r ∧ Acyclic r) ∧
    (∃ r, dijkstra s = some r ∧ Acyclic r) ∧
    (∃ r, bfs s = some r ∧ Acyclic r) := by
  obtain ⟨nA, hA, oA⟩ := AStar_outcome hs pq
  obtain ⟨nD, hD, oD⟩ := dijkstra_outcome hs
  obtain ⟨nB, hB, oB⟩ := bfs_outcome hs
  exact ⟨⟨_, hA, oA.acyclic hs⟩, ⟨_, hD, oD.acyclic hs⟩, ⟨_, hB, oB.acyclic hs⟩⟩

theorem predecessors_acyclic_witness :
    WellFormed grid3 ∧
    ((∃ r, AStar leastFirst grid3 = some r ∧ Acyclic r) ∧
    (∃ r, dijkstra grid3 = some r ∧ Acyclic r) ∧
    (∃ r, bfs grid3 = some r ∧ Acyclic r)) :=
  ⟨by decide, predecessors_acyclic leastFirst grid3 (by decide)⟩

/-- C7: on every map, whatever the annotations left on its cells, `AStar`,
`dijkstra` and `bfs` each return within `m_nMapWidth * m_nMapHeight` passes
of the outer loop, and every pass through the body of the outer loop that
does not leave the loop marks visited a cell that was not, leaves the other
visited flags set and pushes at most four cells. -/
theorem searches_terminate (pq : PriorityQueue) (s : State) (hs : WellFormed s) :
    (∃ r, AStar pq s = some r) ∧ (∃ r, dijkstra s = some r) ∧ (∃ r, bfs s = some r) ∧
    (∀ nodes q nodes1 q1, SameMap s nodes → (∀ a ∈ q, a < s.size) →
      AStar.iter pq s.m_nodeEnd nodes q = some (nodes1, q1) →
      MarksOne s nodes q nodes1 q1) ∧
    (∀ nodes q nodes1 q1, SameMap s nodes → (∀ a ∈ q, a < s.size) →
      dijkstra.iter s.m_nodeEnd nodes q = some (nodes1, q1) →
      MarksOne s nodes q nodes1 q1) ∧
    (∀ nodes q nodes1 q1 found, SameMap s nodes → (∀ a ∈ q, a < s.size) →
      bfs.iter s.m_nodeEnd nodes q = some (nodes1, q1, found) →
      MarksOne s nodes q nodes1 q1) := by
  obtain ⟨nA, hA, _⟩ := AStar_outcome hs pq
  obtain ⟨nD, hD, _⟩ := dijkstra_outcome hs
  obtain ⟨nB, hB, _⟩ := bfs_outcome hs
  refine ⟨⟨_, hA⟩, ⟨_, hD⟩, ⟨_, hB⟩, ?_, ?_, ?_⟩
  · intro nodes q nodes1 q1 hm hq h
    rw [AStar_iter_eq] at h
    rcases costIter_cases hs pq true nodes q hm hq with ⟨_, h1, _⟩ | ⟨_, n', q', h1, st⟩
    · rw [h1] at h
      exact absurd h (by simp)
    · rw [h1] at h
      simp only [Option.some.injEq, Prod.mk.injEq] at h
      obtain ⟨e1, e2⟩ := h
      subst e1
      subst e2
      exact st.marks hs hq
  · intro nodes q nodes1 q1 hm hq h
    rw [dijkstra_iter_eq] at h
    rcases costIter_cases hs fifo false nodes q hm hq with ⟨_, h1, _⟩ | ⟨_, n', q', h1, st⟩
    · rw [h1] at h
      exact absurd h (by simp)
    · rw [h1] at h
      simp only [Option.some.injEq, Prod.mk.injEq] at h
      obtain ⟨e1, e2⟩ := h
      subst e1
      subst e2
      exact st.marks hs hq
  · intro nodes q nodes1 q1 found hm hq h
    exact bfs_iter_marks hs hm hq h

theorem searches_terminate_witness :
    WellFormed blocked3 ∧
    ((∃ r, AStar leastFirst blocked3 = some r) ∧ (∃ r, dijkstra blocked3 = some r) ∧
    (∃ r, bfs blocked3 = some r) ∧
    (∀ nodes q nodes1 q1, SameMap blocked3 nodes → (∀ a ∈ q, a < blocked3.size) →
      AStar.iter leastFirst blocked3.m_nodeEnd nodes q = some (nodes1, q1) →
      MarksOne blocked3 nodes q nodes1 q1) ∧
    (∀ nodes q nodes1 q1, SameMap blocked3 nodes → (∀ a ∈ q, a < blocked3.size) →
      dijkstra.iter blocked3.m_nodeEnd nodes q = some (nodes1, q1) →
      MarksOne blocked3 nodes q nodes1 q1) ∧
    (∀ nodes q nodes1 q1 found, SameMap blocked3 nodes → (∀ a ∈ q, a < blocked3.size) →
      bfs.iter blocked3.m_nodeEnd nodes q = some (nodes1, q1, found) →
      MarksOne blocked3 nodes q nodes1 q1)) :=
  ⟨by decide, searches_terminate leastFirst blocked3 (by decide)⟩

/-- C8: when the start cell is the end cell, the first pass through the outer
loop of `AStar`, `dijkstra` and `bfs` leaves the loop, each search returns
with no cell visited and no predecessor set, the reconstructed result is
reachable with the single cell as its path, and the path walk from the end
cell stops at once. -/
theorem start_is_goal (pq : PriorityQueue) (s : State) (hs : WellFormed s)
    (hse : s.m_nodeStart = s.m_nodeEnd) :
    (∀ nodes, AStar.iter pq s.m_nodeEnd nodes [s.m_nodeStart] = none) ∧
    (∀ nodes, dijkstra.iter s.m_nodeEnd nodes [s.m_nodeStart] = none) ∧
    (∀ nodes, bfs.iter s.m_nodeEnd nodes [s.m_nodeStart] = none) ∧
    (∃ r, AStar pq s = some r ∧ TrivialResult r) ∧
    (∃ r, dijkstra s = some r ∧ TrivialResult r) ∧
    (∃ r, bfs s = some r ∧ TrivialResult r) := by
  obtain ⟨nA, hA, oA⟩ := AStar_outcome hs pq
  obtain ⟨nD, hD, oD⟩ := dijkstra_outcome hs
  obtain ⟨nB, hB, oB⟩ := bfs_outcome hs
  refine ⟨?_, ?_, ?_, ⟨_, hA, oA.trivial hse⟩, ⟨_, hD, oD.trivial hse⟩,
    ⟨_, hB, oB.trivial hse⟩⟩
  · intro nodes
    rw [hse]
    exact AStar_iter_end pq _ nodes
  · intro nodes
    rw [hse]
    exact dijkstra_iter_end _ nodes
  · intro nodes
    rw [hse]
    exact bfs_iter_end _ nodes

theorem start_is_goal_witness :
    WellFormed single2 ∧ single2.m_nodeStart = single2.m_nodeEnd ∧
    ((∀ nodes, AStar.iter leastFirst single2.m_nodeEnd nodes [single2.m_nodeStart] = none) ∧
    (∀ nodes, dijkstra.iter single2.m_nodeEnd nodes [single2.m_nodeStart] = none) ∧
    (∀ nodes, bfs.iter single2.m_nodeEnd nodes [single2.m_nodeStart] = none) ∧
    (∃ r, AStar leastFirst single2 = some r ∧ TrivialResult r) ∧
    (∃ r, dijkstra single2 = some r ∧ TrivialResult r) ∧
    (∃ r, bfs single2 = some r ∧ TrivialResult r)) :=
  ⟨by decide, by decide, start_is_goal leastFirst single2 (by decide) (by decide)⟩

/-- C10: after `dijkstra` the local goal of every visited cell, and of the end
cell when it has a predecessor, is the least number of edges of a walk from
the start cell to that cell whose cells before the last are not the end cell
and are the start cell or not obstacles, and the predecessor chain of the end
cell has exactly that many edges. -/
theorem dijkstra_shortest (s : State) (hs : WellFormed s) :
    ∃ r, dijkstra s = some r ∧
      (∀ v, (readNode r.m_nodes v).m_bVisited = true →
        ∃ g, (readNode r.m_nodes v).m_localGoal = some g ∧ LeastWalk s v g) ∧
      (∀ p, (readNode r.m_nodes r.m_nodeEnd).m_parent = some p →
        ∃ g, (readNode r.m_nodes r.m_nodeEnd).m_localGoal = some g ∧
          LeastWalk s s.m_nodeEnd g ∧ (goalChain r).length - 1 = g) := by
  obtain ⟨nD, qD, hD, inv, hq, oinv, _⟩ := dijkstra_run hs
  obtain ⟨hl, hc⟩ := cost_least hs inv oinv hq
  refine ⟨_, hD, ?_, ?_⟩
  · intro v hv
    obtain ⟨g, hg⟩ := inv.vis_fin v hv
    exact ⟨g, hg, hl v g hg⟩
  · intro p hp
    have hp' : (readNode nD s.m_nodeEnd).m_parent = some p := hp
    obtain ⟨g, hg, hlen⟩ := hc s.m_nodeEnd p hp'
    have hch : goalChain { s with m_nodes := nD } = parentChain nD s.size s.m_nodeEnd := rfl
    refine ⟨g, hg, hl _ g hg, ?_⟩
    rw [hch, hlen]
    omega

theorem dijkstra_shortest_witness :
    WellFormed grid3 ∧
    (dijkstra grid3).map (fun r => (readNode r.m_nodes 8).m_localGoal) = some (some 4) ∧
    ∃ r, dijkstra grid3 = some r ∧
      (∀ v, (readNode r.m_nodes v).m_bVisited = true →
        ∃ g, (readNode r.m_nodes v).m_localGoal = some g ∧ LeastWalk grid3 v g) ∧
      (∀ p, (readNode r.m_nodes r.m_nodeEnd).m_parent = some p →
        ∃ g, (readNode r.m_nodes r.m_nodeEnd).m_localGoal = some g ∧
          LeastWalk grid3 grid3.m_nodeEnd g ∧ (goalChain r).length - 1 = g) :=
  ⟨by decide, by decide, dijkstra_shortest grid3 (by decide)⟩

/-! ## The grid `OnUserCreate` builds -/

theorem pushNeighbor_spec (nodes : List Node) (i k : Nat) :
    (pushNeighbor nodes i k).length = nodes.length ∧
    ∀ j, readNode (pushNeighbor nodes i k) j
      = if j = i ∧ i < nodes.length then
          { readNode nodes i with
            m_nodeNeighbors := (readNode nodes i).m_nodeNeighbors ++ [k] }
        else readNode nodes j := by
  unfold pushNeighbor
  exact ⟨length_writeNode _ _ _, fun j => readNode_writeNode _ _ _ _⟩

theorem connectNode_spec (W H x : Nat) (nodes : List Node) (y : Nat) :
    (connectNode W H x nodes y).length = nodes.length ∧
    ∀ j, readNode (connectNode W H x nodes y) j
      = if j = y * W + x ∧ j < nodes.length then
          { readNode nodes j with
            m_nodeNeighbors := (readNode nodes j).m_nodeNeighbors ++ gridNeighbors W H x y }
        else readNode nodes j := by
  unfold connectNode gridNeighbors
  simp only [Nat.add_zero]
  by_cases h1 : x > 0 <;> by_cases h2 : y > 0 <;> by_cases h3 : x < W - 1 <;>
    by_cases h4 : y < H - 1 <;>
    simp only [h1, h2, h3, h4, if_true, if_false] <;>
    refine ⟨by simp [(pushNeighbor_spec _ _ _).1], ?_⟩ <;>
    intro j <;>
    by_cases hj : j = y * W + x <;>
    by_cases hl : y * W + x < nodes.length <;>
    simp [(pushNeighbor_spec _ _ _).2, (pushNeighbor_spec _ _ _).1, hj, hl]

theorem initNode_spec (W x : Nat) (nodes : List Node) (y : Nat) :
    (initNode W x nodes y).length = nodes.length ∧
    ∀ j, readNode (initNode W x nodes y) j
      = if j = y * W + x ∧ j < nodes.length then
          { readNode nodes j with
            m_x := x
            m_y := y
            m_bObstacle := false
            m_parent := none
            m_bVisited := false }
        else readNode nodes j := by
  unfold initNode
  refine ⟨length_writeNode _ _ _, ?_⟩
  intro j
  rw [readNode_writeNode]
  by_cases hj : j = y * W + x
  · subst hj; rfl
  · simp [hj]

/-- A loop over `y < n` of a body that rewrites the node at `y * W + x` by `f x y`
rewrites the nodes of column `x` in the rows below `n`. -/
theorem foldl_column (W : Nat) (f : Nat → Nat → Node → Node)
    (body : Nat → List Node → Nat → List Node)
    (hbody : ∀ x nodes y, (body x nodes y).length = nodes.length ∧
      ∀ j, readNode (body x nodes y) j
        = if j = y * W + x ∧ j < nodes.length then f x y (readNode nodes j)
          else readNode nodes j)
    (x : Nat) (hx : x < W) (n : Nat) (nodes : List Node) :
    ((List.range n).foldl (body x) nodes).length = nodes.length ∧
    ∀ j, readNode ((List.range n).foldl (body x) nodes) j
      = if j % W = x ∧ j / W < n ∧ j < nodes.length then f x (j / W) (readNode nodes j)
        else readNode nodes j := by
  induction n with
  | zero => simp
  | succ n ih =>
    rw [List.range_succ, List.foldl_append]
    simp only [List.foldl_cons, List.foldl_nil]
    obtain ⟨ihl, ihr⟩ := ih
    obtain ⟨bl, br⟩ := hbody x ((List.range n).foldl (body x) nodes) n
    refine ⟨by rw [bl, ihl], ?_⟩
    intro j
    rw [br, ihl, ihr]
    obtain ⟨hd, hm⟩ := cell_div_mod W x n hx
    by_cases hj : j = n * W + x
    · subst hj
      rw [hd, hm]
      by_cases hl : n * W + x < nodes.length
      · simp [hl]
      · simp [hl]
    · have hne : ¬ (j % W = x ∧ j / W = n) := by
        rintro ⟨h1, h2⟩
        apply hj
        rw [← h1, ← h2, Nat.mul_comm]
        exact (Nat.div_add_mod j W).symm
      have h2 : (j % W = x ∧ j / W < n + 1 ∧ j < nodes.length)
          ↔ (j % W = x ∧ j / W < n ∧ j < nodes.length) := by
        constructor
        · rintro ⟨a, b, c⟩
          refine ⟨a, ?_, c⟩
          have : j / W ≠ n := fun e => hne ⟨a, e⟩
          omega
        · rintro ⟨a, b, c⟩
          exact ⟨a, by omega, c⟩
      simp only [hj, false_and, if_false, h2]

theorem forXY_cells_aux (W H : Nat) (f : Nat → Nat → Node → Node)
    (body : Nat → List Node → Nat → List Node)
    (hbody : ∀ x nodes y, (body x nodes y).length = nodes.length ∧
      ∀ j, readNode (body x nodes y) j
        = if j = y * W + x ∧ j < nodes.length then f x y (readNode nodes j)
          else readNode nodes j)
    (n : Nat) (hn : n ≤ W) (nodes : List Node) :
    ((List.range n).foldl (fun ns x => (List.range H).foldl (body x) ns) nodes).length
      = nodes.length ∧
    ∀ j, readNode ((List.range n).foldl
        (fun ns x => (List.range H).foldl (body x) ns) nodes) j
      = if j % W < n ∧ j / W < H ∧ j < nodes.length then
          f (j % W) (j / W) (readNode nodes j)
        else readNode nodes j := by
  induction n with
  | zero => simp
  | succ n ih =>
    rw [List.range_succ, List.foldl_append]
    simp only [List.foldl_cons, List.foldl_nil]
    obtain ⟨ihl, ihr⟩ := ih (by omega)
    obtain ⟨il, ir⟩ := foldl_column W f body hbody n (by omega) H
      ((List.range n).foldl (fun ns x => (List.range H).foldl (body x) ns) nodes)
    refine ⟨by rw [il, ihl], ?_⟩
    intro j
    rw [ir, ihl, ihr]
    by_cases h1 : j % W = n
    · subst h1
      simp
    · have h2 : (j % W < n + 1) ↔ (j % W < n) := by omega
      simp only [h1, false_and, if_false, h2]

/-- The nested loops over the whole map rewrite every node by `f` at its own
coordinates. -/
theorem forXY_cells (W H : Nat) (f : Nat → Nat → Node → Node)
    (body : Nat → List Node → Nat → List Node)
    (hbody : ∀ x nodes y, (body x nodes y).length = nodes.length ∧
      ∀ j, readNode (body x nodes y) j
        = if j = y * W + x ∧ j < nodes.length then f x y (readNode nodes j)
          else readNode nodes j)
    (nodes : List Node) (hlen : nodes.length = W * H) :
    (forXY W H body nodes).length = W * H ∧
    ∀ j, j < W * H →
      readNode (forXY W H body nodes) j = f (j % W) (j / W) (readNode nodes j) := by
  obtain ⟨hl, hr⟩ := forXY_cells_aux W H f body hbody W (le_refl _) nodes
  unfold forXY
  refine ⟨by rw [hl, hlen], ?_⟩
  intro j hj
  rw [hr]
  have hW : 0 < W := by
    rcases Nat.eq_zero_or_pos W with h0 | h0
    · subst h0; simp at hj
    · exact h0
  have h1 : j % W < W := Nat.mod_lt j hW
  have h2 : j / W < H := (Nat.div_lt_iff_lt_mul hW).2 (by rw [Nat.mul_comm]; exact hj)
  have h3 : j < nodes.length := by omega
  simp only [h1, h2, h3, and_self, if_true]

/-- What `OnUserCreate` leaves in the node array: `W * H` nodes, the node at
index `j` holding the coordinates `(j % W, j / W)`, cleared flags, no
predecessor and the grid neighbours of its cell. -/
theorem OnUserCreate_spec (W H : Nat) :
    (OnUserCreate W H).m_nodes.length = W * H ∧
    ∀ j, j < W * H →
      readNode (OnUserCreate W H).m_nodes j
        = { Node.fresh with
            m_x := j % W
            m_y := j / W
            m_nodeNeighbors := gridNeighbors W H (j % W) (j / W) } := by
  obtain ⟨l1, r1⟩ := forXY_cells W H
    (fun x y v => { v with m_x := x, m_y := y, m_bObstacle := false, m_parent := none,
                           m_bVisited := false })
    (initNode W) (initNode_spec W) (List.replicate (W * H) Node.fresh) (by simp)
  obtain ⟨l2, r2⟩ := forXY_cells W H
    (fun x y v => { v with m_nodeNeighbors := v.m_nodeNeighbors ++ gridNeighbors W H x y })
    (connectNode W H) (connectNode_spec W H)
    (forXY W H (initNode W) (List.replicate (W * H) Node.fresh)) l1
  refine ⟨l2, ?_⟩
  intro j hj
  show readNode (forXY W H (connectNode W H)
    (forXY W H (initNode W) (List.replicate (W * H) Node.fresh))) j = _
  rw [r2 j hj, r1 j hj]
  have : readNode (List.replicate (W * H) Node.fresh) j = Node.fresh := by
    unfold readNode
    simp [List.getD_eq_getElem?_getD, List.getElem?_replicate, hj]
  rw [this]
  rfl

theorem OnUserCreate_wellFormed (W H : Nat) (hW : 0 < W) (hH : 0 < H) :
    WellFormed (OnUserCreate W H) := by
  obtain ⟨hl, hr⟩ := OnUserCreate_spec W H
  have hpos : 0 < W * H := Nat.mul_pos hW hH
  refine ⟨hl, hpos, ?_, ?_⟩
  · show W * H - 1 < W * H
    omega
  · intro i hi
    have hi2 : i < W * H := hi
    rw [hr i hi2]
    exact ⟨rfl, rfl, rfl⟩

theorem gridNeighbors_eq_spec (W H x y : Nat) (hx : x < W) (hy : y < H) :
    gridNeighbors W H x y = specNeighbors W H x y := by
  have p1 : decide (0 ≤ (x : Int) - 1 ∧ (x : Int) - 1 < (W : Int) ∧ 0 ≤ (y : Int) ∧
      (y : Int) < (H : Int)) = decide (x > 0) := by
    apply decide_eq_decide.2
    constructor <;> intro h <;> omega
  have p2 : decide (0 ≤ (x : Int) ∧ (x : Int) < (W : Int) ∧ 0 ≤ (y : Int) - 1 ∧
      (y : Int) - 1 < (H : Int)) = decide (y > 0) := by
    apply decide_eq_decide.2
    constructor <;> intro h <;> omega
  have p3 : decide (0 ≤ (x : Int) + 1 ∧ (x : Int) + 1 < (W : Int) ∧ 0 ≤ (y : Int) ∧
      (y : Int) < (H : Int)) = decide (x < W - 1) := by
    apply decide_eq_decide.2
    constructor <;> intro h <;> omega
  have p4 : decide (0 ≤ (x : Int) ∧ (x : Int) < (W : Int) ∧ 0 ≤ (y : Int) + 1 ∧
      (y : Int) + 1 < (H : Int)) = decide (y < H - 1) := by
    apply decide_eq_decide.2
    constructor <;> intro h <;> omega
  have e1 : x > 0 → ((y : Int) * (W : Int) + ((x : Int) - 1)).toNat = y * W + (x - 1) := by
    intro h
    have : ((y : Int) * (W : Int) + ((x : Int) - 1)) = ((y * W + (x - 1) : Nat) : Int) := by
      push_cast
      omega
    rw [this, Int.toNat_ofNat]
  have e2 : y > 0 → (((y : Int) - 1) * (W : Int) + (x : Int)).toNat = (y - 1) * W + x := by
    intro h
    have : (((y : Int) - 1) * (W : Int) + (x : Int)) = (((y - 1) * W + x : Nat) : Int) := by
      push_cast
      rw [Nat.cast_sub h]
      simp
    rw [this, Int.toNat_ofNat]
  have e3 : ((y : Int) * (W : Int) + ((x : Int) + 1)).toNat = y * W + (x + 1) := by
    have : ((y : Int) * (W : Int) + ((x : Int) + 1)) = ((y * W + (x + 1) : Nat) : Int) := by
      push_cast
      rfl
    rw [this, Int.toNat_ofNat]
  have e4 : (((y : Int) + 1) * (W : Int) + (x : Int)).toNat = (y + 1) * W + x := by
    have : (((y : Int) + 1) * (W : Int) + (x : Int)) = (((y + 1) * W + x : Nat) : Int) := by
      push_cast
      rfl
    rw [this, Int.toNat_ofNat]
  unfold gridNeighbors specNeighbors
  simp only [List.filter_cons, List.filter_nil, p1, p2, p3, p4]
  by_cases h1 : x > 0 <;> by_cases h2 : y > 0 <;> by_cases h3 : x < W - 1 <;>
    by_cases h4 : y < H - 1 <;>
    simp only [h1, h2, h3, h4, decide_True, decide_False, if_true, if_false, List.map_cons,
      List.map_nil, e3, e4, List.nil_append, List.cons_append, List.append_nil,
      Bool.false_eq_true]
  all_goals try rw [e1 h1]
  all_goals try rw [e2 h2]

theorem gridNeighbors_nodup (W H x y : Nat) (hx : x < W) :
    (gridNeighbors W H x y).Nodup ∧ y * W + x ∉ gridNeighbors W H x y := by
  unfold gridNeighbors
  rcases Nat.eq_zero_or_pos y with h2 | h2
  · subst h2
    simp only [Nat.zero_mul, Nat.one_mul, Nat.zero_add, Nat.lt_irrefl, gt_iff_lt, if_false]
    by_cases h1 : 0 < x <;> by_cases h3 : x < W - 1 <;> by_cases h4 : 0 < H - 1 <;>
      simp only [h1, h3, h4, if_true, if_false, List.nil_append, List.cons_append,
        List.append_nil, List.nodup_cons, List.mem_cons, List.mem_singleton,
        List.not_mem_nil, List.nodup_nil, or_false, not_or, and_true, true_and, not_false_eq_true] <;>
      omega
  · obtain ⟨z, rfl⟩ : ∃ z, y = z + 1 := ⟨y - 1, by omega⟩
    simp only [Nat.add_sub_cancel, Nat.succ_mul, gt_iff_lt, Nat.succ_pos, if_true]
    generalize z * W = a
    by_cases h1 : 0 < x <;> by_cases h3 : x < W - 1 <;> by_cases h4 : z + 1 < H - 1 <;>
      simp only [h1, h3, h4, if_true, if_false, List.nil_append, List.cons_append,
        List.append_nil, List.nodup_cons, List.mem_cons, List.mem_singleton,
        List.not_mem_nil, List.nodup_nil, or_false, not_or, and_true, true_and, not_false_eq_true] <;>
      omega

/-! ## The searches depend on the map only -/

theorem readNode_ext {a b : List Node} (hl : a.length = b.length)
    (h : ∀ j, j < a.length → readNode a j = readNode b j) : a = b := by
  apply List.ext_getElem hl
  intro j h1 h2
  have := h j h1
  unfold readNode at this
  simpa [List.getD_eq_getElem?_getD, List.getElem?_eq_getElem h1,
    List.getElem?_eq_getElem h2] using this

theorem reset_congr {n m : Node} (h1 : n.m_bObstacle = m.m_bObstacle) (h2 : n.m_x = m.m_x)
    (h3 : n.m_y = m.m_y) (h4 : n.m_nodeNeighbors = m.m_nodeNeighbors) : n.reset = m.reset := by
  cases n
  cases m
  simp only [Node.reset] at *
  simp [h1, h2, h3, h4]

/-- The reset loops leave the same node array on two states that hold the same
map, whatever the annotations were. -/
theorem reset_independent {s s' : State} (hs : WellFormed s) (h : SameGrid s s') :
    forXY s.m_nMapWidth s.m_nMapHeight (resetNode s.m_nMapWidth) s'.m_nodes
      = forXY s.m_nMapWidth s.m_nMapHeight (resetNode s.m_nMapWidth) s.m_nodes := by
  obtain ⟨hW, hH, _, _, hm⟩ := h
  have hl' : s'.m_nodes.length = s.m_nMapWidth * s.m_nMapHeight := hm.1
  obtain ⟨l1, r1⟩ := forXY_reset s.m_nMapWidth s.m_nMapHeight s.m_nodes hs.1
  obtain ⟨l2, r2⟩ := forXY_reset s.m_nMapWidth s.m_nMapHeight s'.m_nodes hl'
  apply readNode_ext
  · rw [l1, l2, hl', hs.1]; rfl
  · intro j _
    rw [r1, r2]
    exact reset_congr (hm.2 j).1 (hm.2 j).2.1 (hm.2 j).2.2.1 (hm.2 j).2.2.2

theorem searches_congr (pq : PriorityQueue) {s s' : State} (hs : WellFormed s)
    (h : SameGrid s s') :
    AStar pq s' = AStar pq s ∧ dijkstra s' = dijkstra s ∧ bfs s' = bfs s := by
  have hr := reset_independent hs h
  have hW := h.1
  have hH := h.2.1
  have hS := h.2.2.1
  have hE := h.2.2.2.1
  have hsz : s'.size = s.size := by unfold State.size; rw [hW, hH]
  refine ⟨?_, ?_, ?_⟩
  · unfold AStar
    simp only [hW, hH, hS, hE, hsz, hr]
  · unfold dijkstra
    simp only [hW, hH, hS, hE, hsz, hr]
  · unfold bfs
    simp only [hW, hH, hS, hE, hsz, hr]

/-! ## The obstacle toggle -/

theorem toggleObstacle_inside (s : State) (x y : Nat) (hx : x < s.m_nMapWidth)
    (hy : y < s.m_nMapHeight) :
    toggleObstacle s (x : Int) (y : Int)
      = { s with
          m_nodes := writeNode s.m_nodes (y * s.m_nMapWidth + x)
            { readNode s.m_nodes (y * s.m_nMapWidth + x) with
              m_bObstacle := !(readNode s.m_nodes (y * s.m_nMapWidth + x)).m_bObstacle } } := by
  unfold toggleObstacle
  have h1 : (0 : Int) ≤ (x : Int) ∧ (x : Int) < (s.m_nMapWidth : Int) := by omega
  have h2 : (0 : Int) ≤ (y : Int) ∧ (y : Int) < (s.m_nMapHeight : Int) := by omega
  have h3 : ((y : Int) * (s.m_nMapWidth : Int) + (x : Int)).toNat = y * s.m_nMapWidth + x := by
    have : ((y : Int) * (s.m_nMapWidth : Int) + (x : Int))
        = ((y * s.m_nMapWidth + x : Nat) : Int) := by
      push_cast
      rfl
    rw [this, Int.toNat_ofNat]
  rw [if_pos h1, if_pos h2]
  simp only [h3]

theorem toggleObstacle_outside (s : State) (X Y : Int)
    (h : ¬ (0 ≤ X ∧ X < s.m_nMapWidth ∧ 0 ≤ Y ∧ Y < s.m_nMapHeight)) :
    toggleObstacle s X Y = s := by
  unfold toggleObstacle
  by_cases h1 : 0 ≤ X ∧ X < (s.m_nMapWidth : Int)
  · have h2 : ¬ (0 ≤ Y ∧ Y < (s.m_nMapHeight : Int)) := fun h2 => h ⟨h1.1, h1.2, h2.1, h2.2⟩
    rw [if_pos h1, if_neg h2]
  · rw [if_neg h1]

/-- Reading the node array after a toggle inside the map. -/
theorem toggleObstacle_read (s : State) (hlen : s.m_nodes.length = s.size) (x y : Nat)
    (hx : x < s.m_nMapWidth) (hy : y < s.m_nMapHeight) (j : Nat) :
    readNode (toggleObstacle s (x : Int) (y : Int)).m_nodes j
      = if j = y * s.m_nMapWidth + x then
          { readNode s.m_nodes j with m_bObstacle := !(readNode s.m_nodes j).m_bObstacle }
        else readNode s.m_nodes j := by
  rw [toggleObstacle_inside s x y hx hy]
  simp only
  rw [readNode_writeNode]
  have hi : y * s.m_nMapWidth + x < s.m_nodes.length := by
    rw [hlen]
    exact cell_lt _ _ x y hx hy
  by_cases hj : j = y * s.m_nMapWidth + x
  · subst hj
    simp [hi]
  · simp [hj]

theorem toggleObstacle_twice (s : State) (hlen : s.m_nodes.length = s.size) (x y : Nat)
    (hx : x < s.m_nMapWidth) (hy : y < s.m_nMapHeight) :
    toggleObstacle (toggleObstacle s (x : Int) (y : Int)) (x : Int) (y : Int) = s := by
  have e1 := toggleObstacle_inside s x y hx hy
  have hW : (toggleObstacle s (x : Int) (y : Int)).m_nMapWidth = s.m_nMapWidth := by rw [e1]
  have hH : (toggleObstacle s (x : Int) (y : Int)).m_nMapHeight = s.m_nMapHeight := by rw [e1]
  have hl1 : (toggleObstacle s (x : Int) (y : Int)).m_nodes.length = s.m_nodes.length := by
    rw [e1]
    exact length_writeNode _ _ _
  have hsz : (toggleObstacle s (x : Int) (y : Int)).size = s.size := by
    unfold State.size
    rw [hW, hH]
  have e2 := toggleObstacle_inside (toggleObstacle s (x : Int) (y : Int)) x y
    (by rw [hW]; exact hx) (by rw [hH]; exact hy)
  have hnodes : (toggleObstacle (toggleObstacle s (x : Int) (y : Int)) (x : Int) (y : Int)).m_nodes
      = s.m_nodes := by
    apply readNode_ext
    · rw [e2]
      simp only
      rw [length_writeNode, hl1]
    · intro j _
      rw [toggleObstacle_read _ (by rw [hl1, hsz, hlen]) x y (by rw [hW]; exact hx)
        (by rw [hH]; exact hy) j, hW]
      rw [toggleObstacle_read s hlen x y hx hy j]
      by_cases hj : j = y * s.m_nMapWidth + x
      · simp only [hj, if_true, Bool.not_not]
      · simp only [hj, if_false]
  rw [e2]
  rw [e2] at hnodes
  simp only at hnodes
  rw [hnodes, e1]

theorem toggleObstacle_frame (s : State) (X Y : Int) :
    (toggleObstacle s X Y).m_nMapWidth = s.m_nMapWidth ∧
    (toggleObstacle s X Y).m_nMapHeight = s.m_nMapHeight ∧
    (toggleObstacle s X Y).m_nodeStart = s.m_nodeStart ∧
    (toggleObstacle s X Y).m_nodeEnd = s.m_nodeEnd ∧
    (toggleObstacle s X Y).m_nodes.length = s.m_nodes.length ∧
    ∀ j, (readNode (toggleObstacle s X Y).m_nodes j).m_x = (readNode s.m_nodes j).m_x ∧
      (readNode (toggleObstacle s X Y).m_nodes j).m_y = (readNode s.m_nodes j).m_y ∧
      (readNode (toggleObstacle s X Y).m_nodes j).m_nodeNeighbors
        = (readNode s.m_nodes j).m_nodeNeighbors ∧
      (readNode (toggleObstacle s X Y).m_nodes j).m_bVisited
        = (readNode s.m_nodes j).m_bVisited ∧
      (readNode (toggleObstacle s X Y).m_nodes j).m_parent = (readNode s.m_nodes j).m_parent ∧
      (readNode (toggleObstacle s X Y).m_nodes j).m_localGoal
        = (readNode s.m_nodes j).m_localGoal ∧
      (readNode (toggleObstacle s X Y).m_nodes j).m_globalGoal
        = (readNode s.m_nodes j).m_globalGoal := by
  unfold toggleObstacle
  split
  · split
    · refine ⟨rfl, rfl, rfl, rfl, length_writeNode _ _ _, ?_⟩
      intro j
      simp only
      rw [readNode_writeNode]
      split
      · rename_i h
        rw [h.1]
        exact ⟨rfl, rfl, rfl, rfl, rfl, rfl, rfl⟩
      · exact ⟨rfl, rfl, rfl, rfl, rfl, rfl, rfl⟩
    · exact ⟨rfl, rfl, rfl, rfl, rfl, fun _ => ⟨rfl, rfl, rfl, rfl, rfl, rfl, rfl⟩⟩
  · exact ⟨rfl, rfl, rfl, rfl, rfl, fun _ => ⟨rfl, rfl, rfl, rfl, rfl, rfl, rfl⟩⟩

theorem toggleObstacle_wellFormed {s : State} (hs : WellFormed s) (X Y : Int) :
    WellFormed (toggleObstacle s X Y) := by
  obtain ⟨hW, hH, hS, hE, hl, hr⟩ := toggleObstacle_frame s X Y
  have hsz : (toggleObstacle s X Y).size = s.size := by
    unfold State.size
    rw [hW, hH]
  refine ⟨by rw [hl, hsz]; exact hs.1, by rw [hS, hsz]; exact hs.2.1,
    by rw [hE, hsz]; exact hs.2.2.1, ?_⟩
  intro i hi
  rw [hsz] at hi
  rw [(hr i).1, (hr i).2.1, (hr i).2.2.1, hW, hH]
  exact hs.2.2.2 i hi

theorem mouseReleased_outside (pq : PriorityQueue) (s : State) (X Y : Int)
    (h : ¬ (0 ≤ X ∧ X < s.m_nMapWidth ∧ 0 ≤ Y ∧ Y < s.m_nMapHeight)) :
    mouseReleased pq s X Y = some s := by
  unfold mouseReleased
  by_cases h1 : 0 ≤ X ∧ X < (s.m_nMapWidth : Int)
  · have h2 : ¬ (0 ≤ Y ∧ Y < (s.m_nMapHeight : Int)) := fun h2 => h ⟨h1.1, h1.2, h2.1, h2.2⟩
    rw [if_pos h1, if_neg h2]
  · rw [if_neg h1]

theorem mouseReleased_inside (pq : PriorityQueue) (s : State) (x y : Nat)
    (hx : x < s.m_nMapWidth) (hy : y < s.m_nMapHeight) :
    mouseReleased pq s (x : Int) (y : Int) = AStar pq (toggleObstacle s (x : Int) (y : Int)) := by
  unfold mouseReleased
  have h1 : (0 : Int) ≤ (x : Int) ∧ (x : Int) < (s.m_nMapWidth : Int) := by omega
  have h2 : (0 : Int) ≤ (y : Int) ∧ (y : Int) < (s.m_nMapHeight : Int) := by omega
  rw [if_pos h1, if_pos h2]

/-! ## What the searches leave on obstacles, on the end cell and in
`m_globalGoal` -/

theorem seeded_false_global {s : State} (hs : WellFormed s) (j : Nat) :
    (readNode (seeded false s) j).m_globalGoal = none := by
  obtain ⟨hl, hr⟩ := forXY_reset s.m_nMapWidth s.m_nMapHeight s.m_nodes hs.1
  simp only [seeded, Bool.false_eq_true, if_false]
  rw [readNode_writeNode]
  split
  · simp only
    rw [hr]
    rfl
  · rw [hr]
    rfl

/-- The loop of `dijkstra` never assigns `m_globalGoal`: it is still `INFINITY`
in every node when the search returns. -/
theorem dijkstra_keeps_global {s : State} (hs : WellFormed s) :
    ∃ nodes, dijkstra s = some { s with m_nodes := nodes } ∧
      (∀ j, (readNode nodes j).m_globalGoal = none) ∧
      (readNode nodes s.m_nodeStart).m_localGoal = some 0 := by
  obtain ⟨nodes, q, h1, h2, h3, _⟩ := costLoop_run hs fifo false
    (fun nodes _ => ∀ j, (readNode nodes j).m_globalGoal = none)
    (fun nodes q nodes' q' q1 _ hp st => by
      intro j
      rw [st.read j]
      split
      · unfold relaxCore
        split
        · exact hp j
        · exact hp j
      · split
        · exact hp _
        · exact hp j)
    s.size (seeded false s) [s.m_nodeStart] (Inv.init hs false) (seeded_false_global hs)
    (pending_card_lt s hs _)
  refine ⟨nodes, ?_, h3, h2.g_start⟩
  rw [dijkstra_eq, h1]
  rfl

/-- Obstacles at the end of `AStar` and `dijkstra`: an obstacle other than the
start cell is never visited and is no predecessor, and it has a predecessor,
and a finite local goal, exactly when a visited cell has it as a neighbour. -/
theorem Inv.obstacle {s : State} {heur : Bool} {nodes : List Node} {q : List Nat}
    (inv : Inv s heur nodes q) {c : Nat}
    (hob : (readNode s.m_nodes c).m_bObstacle = true) (hc : c ≠ s.m_nodeStart) :
    (readNode nodes c).m_bVisited = false ∧
    (∀ n, (readNode nodes n).m_parent ≠ some c) ∧
    ((∃ p, (readNode nodes c).m_parent = some p) ↔
      ∃ v, (readNode nodes v).m_bVisited = true ∧ c ∈ (readNode s.m_nodes v).m_nodeNeighbors) ∧
    ((∃ g, (readNode nodes c).m_localGoal = some g) ↔
      ∃ v, (readNode nodes v).m_bVisited = true ∧ c ∈ (readNode s.m_nodes v).m_nodeNeighbors) := by
  have hv : (readNode nodes c).m_bVisited = false := by
    cases h : (readNode nodes c).m_bVisited with
    | false => rfl
    | true =>
      rcases (inv.vis_ok c h).1.1 with e | e
      · exact absurd e hc
      · rw [hob] at e
        exact absurd e (by simp)
  refine ⟨hv, ?_, ?_, ?_⟩
  · intro n h
    have := (inv.par_ok n c h).1
    rw [hv] at this
    exact absurd this (by simp)
  · constructor
    · rintro ⟨p, hp⟩
      exact ⟨p, (inv.par_ok c p hp).1, (inv.par_ok c p hp).2.1⟩
    · rintro ⟨v, h1, h2⟩
      obtain ⟨k, hk⟩ := inv.closed v h1 c h2
      exact inv.par_some c k hk hc
  · constructor
    · rintro ⟨g, hg⟩
      obtain ⟨p, hp⟩ := inv.par_some c g hg hc
      exact ⟨p, (inv.par_ok c p hp).1, (inv.par_ok c p hp).2.1⟩
    · rintro ⟨v, h1, h2⟩
      exact inv.closed v h1 c h2

/-- The end cell is never visited and is no predecessor. -/
theorem Outcome.goal_inert {s : State} {nodes : List Node} (o : Outcome s nodes) :
    (readNode nodes s.m_nodeEnd).m_bVisited = false ∧
    ∀ n, (readNode nodes n).m_parent ≠ some s.m_nodeEnd := by
  have hv : (readNode nodes s.m_nodeEnd).m_bVisited = false := by
    cases h : (readNode nodes s.m_nodeEnd).m_bVisited with
    | false => rfl
    | true => exact absurd rfl (o.vis_ok _ h).1.2
  refine ⟨hv, ?_⟩
  intro n h
  have := (o.par_ok n _ h).1
  rw [hv] at this
  exact absurd this (by simp)

/-! ## The visited cells of `AStar` and `dijkstra` -/

theorem joined_of_reach {s : State} {k v : Nat} (h : Reach s k v) :
    Expandable s v → v = s.m_nodeStart ∨ ∃ p, Joined s v p := by
  induction h with
  | start => intro _; exact Or.inl rfl
  | @step k a b _ hE hb ih =>
    intro hEb
    by_cases hbs : b = s.m_nodeStart
    · exact Or.inl hbs
    · right
      have hbo : (readNode s.m_nodes b).m_bObstacle = false := by
        rcases hEb.1 with e | e
        · exact absurd e hbs
        · exact e
      rcases ih hE with e | ⟨p, h1, h2, h3, h4⟩
      · refine ⟨[b, s.m_nodeStart], rfl, rfl, ⟨by rw [← e]; exact hb, trivial⟩, ?_⟩
        intro c hc
        simp only [List.dropLast_cons₂, List.dropLast_single, List.mem_singleton] at hc
        rw [hc]
        exact ⟨hbo, hEb.2⟩
      · cases p with
        | nil => simp at h1
        | cons a' rest =>
          simp only [List.head?_cons, Option.some.injEq] at h1
          subst h1
          refine ⟨b :: a' :: rest, rfl, ?_, ⟨hb, h3⟩, ?_⟩
          · rw [List.getLast?_cons_cons]
            exact h2
          · intro c hc
            rw [List.dropLast_cons₂, List.mem_cons] at hc
            rcases hc with e | e
            · rw [e]
              exact ⟨hbo, hEb.2⟩
            · exact h4 c e

theorem reach_of_joined {s : State} (hne : s.m_nodeStart ≠ s.m_nodeEnd) :
    ∀ (p : List Nat) (v : Nat), Joined s v p → Expandable s v ∧ ∃ k, Reach s k v := by
  intro p
  induction p with
  | nil => intro v h; simp [Joined] at h
  | cons a l ih =>
    intro v h
    obtain ⟨h1, h2, h3, h4⟩ := h
    simp only [List.head?_cons, Option.some.injEq] at h1
    subst h1
    cases l with
    | nil =>
      simp only [List.getLast?_singleton, Option.some.injEq] at h2
      subst h2
      exact ⟨⟨Or.inl rfl, hne⟩, 0, Reach.start⟩
    | cons b rest =>
      obtain ⟨hab, hrest⟩ := h3
      rw [List.getLast?_cons_cons] at h2
      have hj : Joined s b (b :: rest) := by
        refine ⟨rfl, h2, hrest, ?_⟩
        intro c hc
        apply h4
        rw [List.dropLast_cons₂]
        exact List.mem_cons_of_mem _ hc
      obtain ⟨hEb, k, hk⟩ := ih b hj
      have ha := h4 a (by rw [List.dropLast_cons₂]; exact List.mem_cons_self _ _)
      exact ⟨⟨Or.inr ha.1, ha.2⟩, k + 1, Reach.step hk hEb hab⟩

/-- At the end of `AStar` and `dijkstra` the visited cells are the start cell
and the cells joined to it. -/
theorem Inv.visited_iff {s : State} {heur : Bool} {nodes : List Node} {q : List Nat}
    (inv : Inv s heur nodes q)
    (hq : ∀ a ∈ q, (readNode nodes a).m_bVisited = true ∨ a = s.m_nodeEnd)
    (hne : s.m_nodeStart ≠ s.m_nodeEnd) (v : Nat) :
    (readNode nodes v).m_bVisited = true ↔ (v = s.m_nodeStart ∨ ∃ p, Joined s v p) := by
  have key : (readNode nodes v).m_bVisited = true ↔ (Expandable s v ∧ ∃ k, Reach s k v) := by
    constructor
    · intro hv
      obtain ⟨k, hk⟩ := inv.vis_fin v hv
      exact ⟨(inv.vis_ok v hv).1, k, inv.sound v k hk⟩
    · rintro ⟨hE, k, hk⟩
      cases hv : (readNode nodes v).m_bVisited with
      | true => rfl
      | false =>
        rcases hq v (inv.frontier v hv hE (inv.complete hq k v hk)) with h | h
        · rw [hv] at h
          exact absurd h (by simp)
        · exact absurd h hE.2
  rw [key]
  constructor
  · rintro ⟨hE, k, hk⟩
    exact joined_of_reach hk hE
  · rintro (e | ⟨p, hp⟩)
    · rw [e]
      exact ⟨⟨Or.inl rfl, hne⟩, 0, Reach.start⟩
    · exact reach_of_joined hne p v hp

/-! ## The predecessor writes of `bfs` -/

/-- One pass through the body of the outer loop of `bfs` writes `m_parent` of
the neighbours of the expanded cell that are not visited and not obstacles,
and of no other cell, whatever predecessor they had. -/
theorem bfs_iter_writes {s : State} (hs : WellFormed s) {nodes nodes' : List Node}
    {q q' : List Nat} {found : Bool} (hm : SameMap s nodes) (hq : ∀ a ∈ q, a < s.size)
    (h : bfs.iter s.m_nodeEnd nodes q = some (nodes', q', found)) :
    ∃ cur, cur < s.size ∧ (readNode nodes cur).m_bVisited = false ∧
      (readNode nodes' cur).m_bVisited = true ∧
      (∀ j, (readNode nodes' j).m_parent = (readNode nodes j).m_parent ∨
        (j ∈ (readNode s.m_nodes cur).m_nodeNeighbors ∧
          (readNode nodes j).m_bVisited = false ∧ (readNode nodes j).m_bObstacle = false ∧
          (readNode nodes' j).m_parent = some cur)) ∧
      (found = false → ∀ j ∈ (readNode s.m_nodes cur).m_nodeNeighbors,
        (readNode nodes j).m_bVisited = false → (readNode nodes j).m_bObstacle = false →
        (readNode nodes' j).m_parent = some cur) := by
  obtain ⟨d1, _, d3⟩ := drain_spec fifo nodes s.m_nodeEnd q.length q (le_refl _)
  rw [drain_fifo nodes s.m_nodeEnd q.length q (le_refl _)] at d1 d3
  unfold bfs.iter at h
  cases hd : dijkstra.drain nodes s.m_nodeEnd q with
  | nil => rw [hd] at h; simp at h
  | cons cur rest =>
    rw [hd] at h d1 d3
    simp only [Option.some.injEq] at h
    have hcq : cur ∈ q := d1.subset (List.mem_cons_self cur rest)
    have hcl : cur < s.size := hq cur hcq
    have hcl2 : cur < nodes.length := by rw [hm.1]; exact hcl
    obtain ⟨hv, _⟩ := d3 (List.cons_ne_nil _ _)
    have htop : fifo.top nodes (cur :: rest) = cur := rfl
    rw [htop] at hv
    have hm1 : SameMap s (writeNode nodes cur { readNode nodes cur with m_bVisited := true }) :=
      hm.write cur _ rfl rfl rfl rfl
    have hnb : (readNode (writeNode nodes cur { readNode nodes cur with m_bVisited := true })
        cur).m_nodeNeighbors = (readNode s.m_nodes cur).m_nodeNeighbors := (hm1.2 cur).2.2.2
    rw [hnb] at h
    have hlen1 : ∀ b ∈ (readNode s.m_nodes cur).m_nodeNeighbors,
        b < (writeNode nodes cur { readNode nodes cur with m_bVisited := true }).length := by
      intro b hb
      rw [hm1.1]
      exact ((hs.mem_neighbors hcl).1 hb).1
    obtain ⟨_, n2, n3, n4, _⟩ := bfs_neighbors_spec s.m_nodeEnd cur
      (readNode s.m_nodes cur).m_nodeNeighbors
      (writeNode nodes cur { readNode nodes cur with m_bVisited := true }) (cur :: rest) hlen1
    rw [h] at n2 n3 n4
    simp only at n2 n3 n4
    have hB : ∀ j, j ≠ cur →
        readNode (writeNode nodes cur { readNode nodes cur with m_bVisited := true }) j
          = readNode nodes j := fun j hj => readNode_writeNode_ne _ _ _ _ hj
    have hBp : ∀ j,
        (readNode (writeNode nodes cur { readNode nodes cur with m_bVisited := true }) j).m_parent
          = (readNode nodes j).m_parent := by
      intro j
      rw [readNode_writeNode]
      split
      · rename_i e
        rw [e.1]
      · rfl
    have hself : cur ∉ (readNode s.m_nodes cur).m_nodeNeighbors := hs.not_self_neighbor hcl
    refine ⟨cur, hcl, hv, ?_, ?_, ?_⟩
    · rw [(n2 cur).2.1, readNode_writeNode_same _ _ _ hcl2]
    · intro j
      rcases n3 j with e | ⟨e1, e2, e3⟩
      · left
        rw [e, hBp]
      · right
        have hj : j ≠ cur := fun e => hself (e ▸ e1)
        rw [pushable_iff, hB j hj] at e2
        exact ⟨e1, e2.1, e2.2, e3⟩
    · intro hf j hj h1 h2
      have hjc : j ≠ cur := fun e => hself (e ▸ hj)
      exact ((n4 hf).2 j hj (by rw [pushable_iff, hB j hjc]; exact ⟨h1, h2⟩)).1

/-! ## Main results: idempotence, frame, grid construction and annotations -/

/-- C11: `AStar`, `dijkstra` and `bfs` give the same result on two states that
hold the same map (same obstacle flags, coordinates, neighbour lists, start
and end cell), whatever annotations earlier searches left; hence a search run
on the result of the same search gives that result again. -/
theorem searches_idempotent (pq : PriorityQueue) (s s' : State) (hs : WellFormed s)
    (h : SameGrid s s') :
    (AStar pq s' = AStar pq s ∧ dijkstra s' = dijkstra s ∧ bfs s' = bfs s) ∧
    (∃ r, AStar pq s = some r ∧ AStar pq r = some r) ∧
    (∃ r, dijkstra s = some r ∧ dijkstra r = some r) ∧
    (∃ r, bfs s = some r ∧ bfs r = some r) := by
  obtain ⟨nA, hA, oA⟩ := AStar_outcome hs pq
  obtain ⟨nD, hD, oD⟩ := dijkstra_outcome hs
  obtain ⟨nB, hB, oB⟩ := bfs_outcome hs
  refine ⟨searches_congr pq hs h, ⟨_, hA, ?_⟩, ⟨_, hD, ?_⟩, ⟨_, hB, ?_⟩⟩
  · have c : SameGrid s { s with m_nodes := nA } := ⟨rfl, rfl, rfl, rfl, oA.map⟩
    rw [(searches_congr pq hs c).1]
    exact hA
  · have c : SameGrid s { s with m_nodes := nD } := ⟨rfl, rfl, rfl, rfl, oD.map⟩
    rw [(searches_congr pq hs c).2.1]
    exact hD
  · have c : SameGrid s { s with m_nodes := nB } := ⟨rfl, rfl, rfl, rfl, oB.map⟩
    rw [(searches_congr pq hs c).2.2]
    exact hB

theorem searches_idempotent_witness :
    WellFormed (OnUserCreate 2 2) ∧ SameGrid (OnUserCreate 2 2) (OnUserCreate 2 2) ∧
    ((dijkstra (OnUserCreate 2 2)).bind bfs).map
        (fun r => (List.range 4).map (fun i => (readNode r.m_nodes i).m_parent))
      = (bfs (OnUserCreate 2 2)).map
        (fun r => (List.range 4).map (fun i => (readNode r.m_nodes i).m_parent)) ∧
    ((AStar leastFirst (OnUserCreate 2 2) = AStar leastFirst (OnUserCreate 2 2) ∧
      dijkstra (OnUserCreate 2 2) = dijkstra (OnUserCreate 2 2) ∧
      bfs (OnUserCreate 2 2) = bfs (OnUserCreate 2 2)) ∧
    (∃ r, AStar leastFirst (OnUserCreate 2 2) = some r ∧ AStar leastFirst r = some r) ∧
    (∃ r, dijkstra (OnUserCreate 2 2) = some r ∧ dijkstra r = some r) ∧
    (∃ r, bfs (OnUserCreate 2 2) = some r ∧ bfs r = some r)) :=
  ⟨by decide, ⟨rfl, rfl, rfl, rfl, by decide, fun _ => ⟨rfl, rfl, rfl, rfl⟩⟩, by decide,
    searches_idempotent leastFirst (OnUserCreate 2 2) (OnUserCreate 2 2) (by decide)
      ⟨rfl, rfl, rfl, rfl, by decide, fun _ => ⟨rfl, rfl, rfl, rfl⟩⟩⟩

/-- C12: `AStar`, `dijkstra` and `bfs` return a state with the same width,
height, start cell and end cell, in which every node keeps its obstacle flag,
its coordinates and its neighbour list. -/
theorem searches_keep_map (pq : PriorityQueue) (s : State) (hs : WellFormed s) :
    (∃ r, AStar pq s = some r ∧ SameGrid s r) ∧
    (∃ r, dijkstra s = some r ∧ SameGrid s r) ∧
    (∃ r, bfs s = some r ∧ SameGrid s r) := by
  obtain ⟨nA, hA, oA⟩ := AStar_outcome hs pq
  obtain ⟨nD, hD, oD⟩ := dijkstra_outcome hs
  obtain ⟨nB, hB, oB⟩ := bfs_outcome hs
  exact ⟨⟨_, hA, rfl, rfl, rfl, rfl, oA.map⟩, ⟨_, hD, rfl, rfl, rfl, rfl, oD.map⟩,
    ⟨_, hB, rfl, rfl, rfl, rfl, oB.map⟩⟩

theorem searches_keep_map_witness :
    WellFormed blocked3 ∧
    ((∃ r, AStar leastFirst blocked3 = some r ∧ SameGrid blocked3 r) ∧
    (∃ r, dijkstra blocked3 = some r ∧ SameGrid blocked3 r) ∧
    (∃ r, bfs blocked3 = some r ∧ SameGrid blocked3 r)) :=
  ⟨by decide, searches_keep_map leastFirst blocked3 (by decide)⟩

/-- C13: in the grid `OnUserCreate` builds for a width and a height of at least
one, a cell `B` is in the neighbour list of a cell `A` exactly when `A` is in
the neighbour list of `B`. -/
theorem adjacency_symmetric (W H : Nat) (hW : 1 ≤ W) (hH : 1 ≤ H) (A B : Nat) :
    B ∈ (readNode (OnUserCreate W H).m_nodes A).m_nodeNeighbors ↔
      A ∈ (readNode (OnUserCreate W H).m_nodes B).m_nodeNeighbors := by
  have hs := OnUserCreate_wellFormed W H hW hH
  have key : ∀ a b, b ∈ (readNode (OnUserCreate W H).m_nodes a).m_nodeNeighbors →
      a ∈ (readNode (OnUserCreate W H).m_nodes b).m_nodeNeighbors := by
    intro a b hb
    by_cases ha : a < (OnUserCreate W H).size
    · exact (hs.neighbor_symm ha hb).2
    · rw [readNode_of_le (by rw [hs.1]; omega)] at hb
      simp [Node.fresh] at hb
  exact ⟨key A B, key B A⟩

theorem adjacency_symmetric_witness :
    1 ≤ 3 ∧ 1 ≤ 2 ∧
    (4 ∈ (readNode (OnUserCreate 3 2).m_nodes 1).m_nodeNeighbors ↔
      1 ∈ (readNode (OnUserCreate 3 2).m_nodes 4).m_nodeNeighbors) ∧
    4 ∈ (readNode (OnUserCreate 3 2).m_nodes 1).m_nodeNeighbors :=
  ⟨by decide, by decide, adjacency_symmetric 3 2 (by decide) (by decide) 1 4, by decide⟩

/-- C14: inside the map the toggle negates the obstacle flag of the node at
index `y * m_nMapWidth + x` and leaves every other node, and every neighbour
list, as it was, so that a second toggle of the same cell restores the state,
and the `AStar` run that follows in the mouse handler keeps the toggled map;
outside the map the toggle and the mouse handler change nothing. -/
theorem toggle_touches_one_flag (pq : PriorityQueue) (s : State) (hs : WellFormed s) :
    (∀ x y : Nat, x < s.m_nMapWidth → y < s.m_nMapHeight →
      (readNode (toggleObstacle s x y).m_nodes (y * s.m_nMapWidth + x)).m_bObstacle
        = !(readNode s.m_nodes (y * s.m_nMapWidth + x)).m_bObstacle ∧
      (∀ j, j ≠ y * s.m_nMapWidth + x →
        readNode (toggleObstacle s x y).m_nodes j = readNode s.m_nodes j) ∧
      (∀ j, (readNode (toggleObstacle s x y).m_nodes j).m_nodeNeighbors
        = (readNode s.m_nodes j).m_nodeNeighbors) ∧
      toggleObstacle (toggleObstacle s x y) x y = s ∧
      ∃ r, mouseReleased pq s x y = some r ∧ SameGrid (toggleObstacle s x y) r) ∧
    (∀ X Y : Int, ¬ (0 ≤ X ∧ X < s.m_nMapWidth ∧ 0 ≤ Y ∧ Y < s.m_nMapHeight) →
      toggleObstacle s X Y = s ∧ mouseReleased pq s X Y = some s) := by
  refine ⟨?_, ?_⟩
  · intro x y hx hy
    have hread := toggleObstacle_read s hs.1 x y hx hy
    refine ⟨?_, ?_, ?_, toggleObstacle_twice s hs.1 x y hx hy, ?_⟩
    · rw [hread, if_pos rfl]
    · intro j hj
      rw [hread, if_neg hj]
    · intro j
      exact (toggleObstacle_frame s x y).2.2.2.2.2 j |>.2.2.1
    · obtain ⟨nA, hA, oA⟩ := AStar_outcome (toggleObstacle_wellFormed hs x y) pq
      rw [mouseReleased_inside pq s x y hx hy]
      exact ⟨_, hA, rfl, rfl, rfl, rfl, oA.map⟩
  · intro X Y h
    exact ⟨toggleObstacle_outside s X Y h, mouseReleased_outside pq s X Y h⟩

theorem toggle_touches_one_flag_witness :
    WellFormed grid3 ∧
    (readNode (toggleObstacle grid3 1 2).m_nodes 7).m_bObstacle = true ∧
    ((∀ x y : Nat, x < grid3.m_nMapWidth → y < grid3.m_nMapHeight →
      (readNode (toggleObstacle grid3 x y).m_nodes (y * grid3.m_nMapWidth + x)).m_bObstacle
        = !(readNode grid3.m_nodes (y * grid3.m_nMapWidth + x)).m_bObstacle ∧
      (∀ j, j ≠ y * grid3.m_nMapWidth + x →
        readNode (toggleObstacle grid3 x y).m_nodes j = readNode grid3.m_nodes j) ∧
      (∀ j, (readNode (toggleObstacle grid3 x y).m_nodes j).m_nodeNeighbors
        = (readNode grid3.m_nodes j).m_nodeNeighbors) ∧
      toggleObstacle (toggleObstacle grid3 x y) x y = grid3 ∧
      ∃ r, mouseReleased leastFirst grid3 x y = some r ∧
        SameGrid (toggleObstacle grid3 x y) r) ∧
    (∀ X Y : Int,
      ¬ (0 ≤ X ∧ X < grid3.m_nMapWidth ∧ 0 ≤ Y ∧ Y < grid3.m_nMapHeight) →
      toggleObstacle grid3 X Y = grid3 ∧ mouseReleased leastFirst grid3 X Y = some grid3)) :=
  ⟨by decide, by decide, toggle_touches_one_flag leastFirst grid3 (by decide)⟩

/-- C15, as amended: after `AStar` and `dijkstra` an obstacle other than the
start cell is never visited and is the predecessor of no cell, yet the
relaxation reaches it: it has a predecessor, and a finite local goal, exactly
when a visited cell has it as a neighbour. -/
theorem obstacles_after_cost_search (pq : PriorityQueue) (s : State) (hs : WellFormed s) :
    ∃ rA rD, AStar pq s = some rA ∧ dijkstra s = some rD ∧
      ∀ c, (readNode s.m_nodes c).m_bObstacle = true → c ≠ s.m_nodeStart →
        ((readNode rA.m_nodes c).m_bVisited = false ∧
          (∀ n, (readNode rA.m_nodes n).m_parent ≠ some c) ∧
          ((∃ p, (readNode rA.m_nodes c).m_parent = some p) ↔
            ∃ v, (readNode rA.m_nodes v).m_bVisited = true ∧
              c ∈ (readNode s.m_nodes v).m_nodeNeighbors) ∧
          ((∃ g, (readNode rA.m_nodes c).m_localGoal = some g) ↔
            ∃ v, (readNode rA.m_nodes v).m_bVisited = true ∧
              c ∈ (readNode s.m_nodes v).m_nodeNeighbors)) ∧
        ((readNode rD.m_nodes c).m_bVisited = false ∧
          (∀ n, (readNode rD.m_nodes n).m_parent ≠ some c) ∧
          ((∃ p, (readNode rD.m_nodes c).m_parent = some p) ↔
            ∃ v, (readNode rD.m_nodes v).m_bVisited = true ∧
              c ∈ (readNode s.m_nodes v).m_nodeNeighbors) ∧
          ((∃ g, (readNode rD.m_nodes c).m_localGoal = some g) ↔
            ∃ v, (readNode rD.m_nodes v).m_bVisited = true ∧
              c ∈ (readNode s.m_nodes v).m_nodeNeighbors)) := by
  obtain ⟨nA, qA, hA, invA, _⟩ := AStar_run hs pq
  obtain ⟨nD, qD, hD, invD, _, _, _⟩ := dijkstra_run hs
  exact ⟨_, _, hA, hD, fun c hob hc => ⟨invA.obstacle hob hc, invD.obstacle hob hc⟩⟩

theorem obstacles_after_cost_search_witness :
    WellFormed blocked3 ∧
    ∃ rA rD, AStar leastFirst blocked3 = some rA ∧ dijkstra blocked3 = some rD ∧
      ∀ c, (readNode blocked3.m_nodes c).m_bObstacle = true → c ≠ blocked3.m_nodeStart →
        ((readNode rA.m_nodes c).m_bVisited = false ∧
          (∀ n, (readNode rA.m_nodes n).m_parent ≠ some c) ∧
          ((∃ p, (readNode rA.m_nodes c).m_parent = some p) ↔
            ∃ v, (readNode rA.m_nodes v).m_bVisited = true ∧
              c ∈ (readNode blocked3.m_nodes v).m_nodeNeighbors) ∧
          ((∃ g, (readNode rA.m_nodes c).m_localGoal = some g) ↔
            ∃ v, (readNode rA.m_nodes v).m_bVisited = true ∧
              c ∈ (readNode blocked3.m_nodes v).m_nodeNeighbors)) ∧
        ((readNode rD.m_nodes c).m_bVisited = false ∧
          (∀ n, (readNode rD.m_nodes n).m_parent ≠ some c) ∧
          ((∃ p, (readNode rD.m_nodes c).m_parent = some p) ↔
            ∃ v, (readNode rD.m_nodes v).m_bVisited = true ∧
              c ∈ (readNode blocked3.m_nodes v).m_nodeNeighbors) ∧
          ((∃ g, (readNode rD.m_nodes c).m_localGoal = some g) ↔
            ∃ v, (readNode rD.m_nodes v).m_bVisited = true ∧
              c ∈ (readNode blocked3.m_nodes v).m_nodeNeighbors)) :=
  ⟨by decide, obstacles_after_cost_search leastFirst blocked3 (by decide)⟩

/-- C15 fails as stated: on the map `blocked3` the obstacle `(1,1)`, which is
not the start cell, has the predecessor `(0,1)` and the local goal `1` after
`AStar` and after `dijkstra`; on the map `goalBlocked3` the end cell is an
obstacle and has a predecessor after both, the reconstructed result being
reachable. -/
theorem relaxation_reaches_obstacles :
    (readNode blocked3.m_nodes 4).m_bObstacle = true ∧ 4 ≠ blocked3.m_nodeStart ∧
    (AStar leastFirst blocked3).map
        (fun r => ((readNode r.m_nodes 4).m_parent, (readNode r.m_nodes 4).m_localGoal))
      = some (some 3, some 1) ∧
    (dijkstra blocked3).map
        (fun r => ((readNode r.m_nodes 4).m_parent, (readNode r.m_nodes 4).m_localGoal))
      = some (some 3, some 1) ∧
    (readNode goalBlocked3.m_nodes goalBlocked3.m_nodeEnd).m_bObstacle = true ∧
    goalBlocked3.m_nodeEnd ≠ goalBlocked3.m_nodeStart ∧
    (AStar leastFirst goalBlocked3).map
        (fun r => ((readNode r.m_nodes r.m_nodeEnd).m_parent,
          (reconstruct r).map (fun res => res.reachable)))
      = some (some 5, some true) ∧
    (dijkstra goalBlocked3).map
        (fun r => ((readNode r.m_nodes r.m_nodeEnd).m_parent,
          (reconstruct r).map (fun res => res.reachable)))
      = some (some 5, some true) := by
  refine ⟨by decide, by decide, by decide, by decide, by decide, by decide, by decide,
    by decide⟩

/-- C16, as amended: a pass through the outer loop of `bfs` writes `m_parent`
only on neighbours of the expanded cell that are not visited and not
obstacles, and, unless it returns at the end cell, on every such neighbour,
whether or not it already has a predecessor; when `bfs` returns every
predecessor is a visited cell that has the cell as a neighbour. -/
theorem bfs_predecessor_writes (s : State) (hs : WellFormed s) :
    (∀ nodes q nodes1 q1 found, SameMap s nodes → (∀ a ∈ q, a < s.size) →
      bfs.iter s.m_nodeEnd nodes q = some (nodes1, q1, found) →
      ∃ cur, cur < s.size ∧ (readNode nodes cur).m_bVisited = false ∧
        (readNode nodes1 cur).m_bVisited = true ∧
        (∀ j, (readNode nodes1 j).m_parent = (readNode nodes j).m_parent ∨
          (j ∈ (readNode s.m_nodes cur).m_nodeNeighbors ∧
            (readNode nodes j).m_bVisited = false ∧ (readNode nodes j).m_bObstacle = false ∧
            (readNode nodes1 j).m_parent = some cur)) ∧
        (found = false → ∀ j ∈ (readNode s.m_nodes cur).m_nodeNeighbors,
          (readNode nodes j).m_bVisited = false → (readNode nodes j).m_bObstacle = false →
          (readNode nodes1 j).m_parent = some cur)) ∧
    (∃ r, bfs s = some r ∧
      ∀ c p, (readNode r.m_nodes c).m_parent = some p →
        (readNode r.m_nodes p).m_bVisited = true ∧
        c ∈ (readNode r.m_nodes p).m_nodeNeighbors) := by
  refine ⟨?_, ?_⟩
  · intro nodes q nodes1 q1 found hm hq h
    exact bfs_iter_writes hs hm hq h
  · obtain ⟨nB, hB, oB⟩ := bfs_outcome hs
    refine ⟨_, hB, ?_⟩
    intro c p h
    refine ⟨(oB.par_ok c p h).1, ?_⟩
    show c ∈ (readNode nB p).m_nodeNeighbors
    rw [(oB.map.2 p).2.2.2]
    exact (oB.par_ok c p h).2

theorem bfs_predecessor_writes_witness :
    WellFormed grid3 ∧
    ((∀ nodes q nodes1 q1 found, SameMap grid3 nodes → (∀ a ∈ q, a < grid3.size) →
      bfs.iter grid3.m_nodeEnd nodes q = some (nodes1, q1, found) →
      ∃ cur, cur < grid3.size ∧ (readNode nodes cur).m_bVisited = false ∧
        (readNode nodes1 cur).m_bVisited = true ∧
        (∀ j, (readNode nodes1 j).m_parent = (readNode nodes j).m_parent ∨
          (j ∈ (readNode grid3.m_nodes cur).m_nodeNeighbors ∧
            (readNode nodes j).m_bVisited = false ∧ (readNode nodes j).m_bObstacle = false ∧
            (readNode nodes1 j).m_parent = some cur)) ∧
        (found = false → ∀ j ∈ (readNode grid3.m_nodes cur).m_nodeNeighbors,
          (readNode nodes j).m_bVisited = false → (readNode nodes j).m_bObstacle = false →
          (readNode nodes1 j).m_parent = some cur)) ∧
    (∃ r, bfs grid3 = some r ∧
      ∀ c p, (readNode r.m_nodes c).m_parent = some p →
        (readNode r.m_nodes p).m_bVisited = true ∧
        c ∈ (readNode r.m_nodes p).m_nodeNeighbors)) :=
  ⟨by decide, bfs_predecessor_writes grid3 (by decide)⟩

/-- C16 fails as stated: in the run of `bfs` on the map `grid3` the second pass
expands the cell `(1,0)` and gives the cell `(1,1)` the predecessor `(1,0)`;
the third pass expands `(0,1)` and, although `(1,1)` has a predecessor,
writes `(0,1)` over it, and `(0,1)` is the predecessor `bfs` returns. -/
theorem bfs_predecessor_rewritten :
    ((bfs.iter grid3.m_nodeEnd
        (forXY 3 3 (resetNode 3) grid3.m_nodes) [grid3.m_nodeStart]).bind
      (fun p1 => (bfs.iter grid3.m_nodeEnd p1.1 p1.2.1).map
        (fun p2 => ((readNode p1.1 1).m_bVisited, (readNode p2.1 1).m_bVisited,
          (readNode p2.1 4).m_bVisited, (readNode p2.1 4).m_parent))))
      = some (false, true, false, some 1) ∧
    ((bfs.iter grid3.m_nodeEnd
        (forXY 3 3 (resetNode 3) grid3.m_nodes) [grid3.m_nodeStart]).bind
      (fun p1 => (bfs.iter grid3.m_nodeEnd p1.1 p1.2.1).bind
        (fun p2 => (bfs.iter grid3.m_nodeEnd p2.1 p2.2.1).map
          (fun p3 => ((readNode p2.1 3).m_bVisited, (readNode p3.1 3).m_bVisited,
            (readNode p3.1 4).m_parent)))))
      = some (false, true, some 3) ∧
    (bfs grid3).map (fun r => (readNode r.m_nodes 4).m_parent) = some (some 3) := by
  refine ⟨by decide, by decide, by decide⟩

/-- C17: after `AStar`, `dijkstra` and `bfs`, also when the start cell is the
end cell, the end cell is not visited and no cell has it as predecessor. -/
theorem goal_never_expanded (pq : PriorityQueue) (s : State) (hs : WellFormed s) :
    (∃ r, AStar pq s = some r ∧ (readNode r.m_nodes r.m_nodeEnd).m_bVisited = false ∧
      ∀ n, (readNode r.m_nodes n).m_parent ≠ some r.m_nodeEnd) ∧
    (∃ r, dijkstra s = some r ∧ (readNode r.m_nodes r.m_nodeEnd).m_bVisited = false ∧
      ∀ n, (readNode r.m_nodes n).m_parent ≠ some r.m_nodeEnd) ∧
    (∃ r, bfs s = some r ∧ (readNode r.m_nodes r.m_nodeEnd).m_bVisited = false ∧
      ∀ n, (readNode r.m_nodes n).m_parent ≠ some r.m_nodeEnd) := by
  obtain ⟨nA, hA, oA⟩ := AStar_outcome hs pq
  obtain ⟨nD, hD, oD⟩ := dijkstra_outcome hs
  obtain ⟨nB, hB, oB⟩ := bfs_outcome hs
  exact ⟨⟨_, hA, oA.goal_inert⟩, ⟨_, hD, oD.goal_inert⟩, ⟨_, hB, oB.goal_inert⟩⟩

theorem goal_never_expanded_witness :
    WellFormed single2 ∧
    ((∃ r, AStar leastFirst single2 = some r ∧
      (readNode r.m_nodes r.m_nodeEnd).m_bVisited = false ∧
      ∀ n, (readNode r.m_nodes n).m_parent ≠ some r.m_nodeEnd) ∧
    (∃ r, dijkstra single2 = some r ∧ (readNode r.m_nodes r.m_nodeEnd).m_bVisited = false ∧
      ∀ n, (readNode r.m_nodes n).m_parent ≠ some r.m_nodeEnd) ∧
    (∃ r, bfs single2 = some r ∧ (readNode r.m_nodes r.m_nodeEnd).m_bVisited = false ∧
      ∀ n, (readNode r.m_nodes n).m_parent ≠ some r.m_nodeEnd)) :=
  ⟨by decide, goal_never_expanded leastFirst single2 (by decide)⟩

/-- C18, as amended: `dijkstra` never assigns `m_globalGoal`; when it returns
every node has `m_globalGoal` still `INFINITY`, the value the reset gave it,
while `m_localGoal` of the start cell is `0` and that of every visited cell is
finite. -/
theorem dijkstra_global_infinite (s : State) (hs : WellFormed s) :
    ∃ r, dijkstra s = some r ∧
      (∀ j, (readNode r.m_nodes j).m_globalGoal = none) ∧
      (readNode r.m_nodes r.m_nodeStart).m_localGoal = some 0 ∧
      ∀ v, (readNode r.m_nodes v).m_bVisited = true →
        ∃ g, (readNode r.m_nodes v).m_localGoal = some g := by
  obtain ⟨nodes, h1, h2, h3⟩ := dijkstra_keeps_global hs
  obtain ⟨nD, qD, hD, inv, _, _, _⟩ := dijkstra_run hs
  rw [h1] at hD
  have e : nodes = nD := by
    have := Option.some.inj hD
    exact congrArg State.m_nodes this
  subst e
  exact ⟨_, h1, h2, h3, inv.vis_fin⟩

theorem dijkstra_global_infinite_witness :
    WellFormed grid3 ∧
    ∃ r, dijkstra grid3 = some r ∧
      (∀ j, (readNode r.m_nodes j).m_globalGoal = none) ∧
      (readNode r.m_nodes r.m_nodeStart).m_localGoal = some 0 ∧
      ∀ v, (readNode r.m_nodes v).m_bVisited = true →
        ∃ g, (readNode r.m_nodes v).m_localGoal = some g :=
  ⟨by decide, dijkstra_global_infinite grid3 (by decide)⟩

/-- C18 fails as stated: after `dijkstra` on the map `grid3` the start cell has
the local goal `0` and the global goal `INFINITY`, and the cell `(1,1)` has
the local goal `2` and the global goal `INFINITY`. -/
theorem dijkstra_global_unset :
    (dijkstra grid3).map
        (fun r => ((readNode r.m_nodes 0).m_localGoal, (readNode r.m_nodes 0).m_globalGoal,
          (readNode r.m_nodes 4).m_localGoal, (readNode r.m_nodes 4).m_globalGoal))
      = some (some 0, none, some 2, none) := by
  decide

/-- C19: in the grid `OnUserCreate` builds, the node array has `W * H` nodes and
the node at index `y * W + x` of a cell `(x, y)` of the map has the
coordinates `(x, y)`; its neighbour list is the list of the cells among left,
up, right and down, in that order, that lie inside the map, so it has at most
four entries, no entry twice, not the cell itself, and only indices below
`W * H`. -/
theorem grid_construction (W H x y : Nat) (hx : x < W) (hy : y < H) :
    (OnUserCreate W H).m_nodes.length = W * H ∧
    (readNode (OnUserCreate W H).m_nodes (y * W + x)).m_x = x ∧
    (readNode (OnUserCreate W H).m_nodes (y * W + x)).m_y = y ∧
    (readNode (OnUserCreate W H).m_nodes (y * W + x)).m_nodeNeighbors
      = specNeighbors W H x y ∧
    (readNode (OnUserCreate W H).m_nodes (y * W + x)).m_nodeNeighbors.length ≤ 4 ∧
    (readNode (OnUserCreate W H).m_nodes (y * W + x)).m_nodeNeighbors.Nodup ∧
    y * W + x ∉ (readNode (OnUserCreate W H).m_nodes (y * W + x)).m_nodeNeighbors ∧
    ∀ b ∈ (readNode (OnUserCreate W H).m_nodes (y * W + x)).m_nodeNeighbors, b < W * H := by
  obtain ⟨hl, hr⟩ := OnUserCreate_spec W H
  obtain ⟨hd, hm⟩ := cell_div_mod W x y hx
  have hlt := cell_lt W H x y hx hy
  rw [hr _ hlt, hd, hm]
  simp only
  refine ⟨hl, trivial, trivial, gridNeighbors_eq_spec W H x y hx hy,
    gridNeighbors_length W H x y, (gridNeighbors_nodup W H x y hx).1,
    (gridNeighbors_nodup W H x y hx).2, ?_⟩
  intro b hb
  exact ((mem_gridNeighbors W H x y b hx hy).1 hb).1

theorem grid_construction_witness :
    1 < 3 ∧ 1 < 3 ∧ specNeighbors 3 3 1 1 = [3, 1, 5, 7] ∧
    specNeighbors 3 3 0 0 = [1, 3] ∧
    ((OnUserCreate 3 3).m_nodes.length = 3 * 3 ∧
    (readNode (OnUserCreate 3 3).m_nodes (1 * 3 + 1)).m_x = 1 ∧
    (readNode (OnUserCreate 3 3).m_nodes (1 * 3 + 1)).m_y = 1 ∧
    (readNode (OnUserCreate 3 3).m_nodes (1 * 3 + 1)).m_nodeNeighbors
      = specNeighbors 3 3 1 1 ∧
    (readNode (OnUserCreate 3 3).m_nodes (1 * 3 + 1)).m_nodeNeighbors.length ≤ 4 ∧
    (readNode (OnUserCreate 3 3).m_nodes (1 * 3 + 1)).m_nodeNeighbors.Nodup ∧
    1 * 3 + 1 ∉ (readNode (OnUserCreate 3 3).m_nodes (1 * 3 + 1)).m_nodeNeighbors ∧
    ∀ b ∈ (readNode (OnUserCreate 3 3).m_nodes (1 * 3 + 1)).m_nodeNeighbors, b < 3 * 3) :=
  ⟨by decide, by decide, by decide, by decide,
    grid_construction 3 3 1 1 (by decide) (by decide)⟩

/-- C20: when the start cell is not the end cell, the cells `AStar` and
`dijkstra` leave visited are the start cell and every cell joined to it by a
grid path whose cells after the start cell are not obstacles and are not the
end cell; so both searches visit the same cells, and no obstacle other than
the start cell is visited. -/
theorem cost_searches_exhaust_frontier (pq : PriorityQueue) (s : State) (hs : WellFormed s)
    (hne : s.m_nodeStart ≠ s.m_nodeEnd) :
    ∃ rA rD, AStar pq s = some rA ∧ dijkstra s = some rD ∧
      (∀ v, (readNode rA.m_nodes v).m_bVisited = true ↔
        (v = s.m_nodeStart ∨ ∃ p, Joined s v p)) ∧
      (∀ v, (readNode rD.m_nodes v).m_bVisited = true ↔
        (v = s.m_nodeStart ∨ ∃ p, Joined s v p)) ∧
      (∀ v, (readNode rA.m_nodes v).m_bVisited = (readNode rD.m_nodes v).m_bVisited) ∧
      (∀ v, (readNode s.m_nodes v).m_bObstacle = true → v ≠ s.m_nodeStart →
        (readNode rA.m_nodes v).m_bVisited = false ∧
        (readNode rD.m_nodes v).m_bVisited = false) := by
  obtain ⟨nA, qA, hA, invA, hqA⟩ := AStar_run hs pq
  obtain ⟨nD, qD, hD, invD, hqD, _, _⟩ := dijkstra_run hs
  have vA := invA.visited_iff hqA hne
  have vD := invD.visited_iff hqD hne
  refine ⟨_, _, hA, hD, vA, vD, ?_, ?_⟩
  · intro v
    show (readNode nA v).m_bVisited = (readNode nD v).m_bVisited
    have h := (vA v).trans (vD v).symm
    cases h1 : (readNode nA v).m_bVisited <;> cases h2 : (readNode nD v).m_bVisited
    · rfl
    · exact absurd (h.2 h2) (by rw [h1]; simp)
    · exact absurd (h.1 h1) (by rw [h2]; simp)
    · rfl
  · intro v hob hv
    exact ⟨(invA.obstacle hob hv).1, (invD.obstacle hob hv).1⟩

theorem cost_searches_exhaust_frontier_witness :
    WellFormed grid3 ∧ grid3.m_nodeStart ≠ grid3.m_nodeEnd ∧
    (AStar leastFirst grid3).map
        (fun r => (List.range 9).filter (fun i => (readNode r.m_nodes i).m_bVisited))
      = some [0, 1, 2, 3, 4, 5, 6, 7] ∧
    ∃ rA rD, AStar leastFirst grid3 = some rA ∧ dijkstra grid3 = some rD ∧
      (∀ v, (readNode rA.m_nodes v).m_bVisited = true ↔
        (v = grid3.m_nodeStart ∨ ∃ p, Joined grid3 v p)) ∧
      (∀ v, (readNode rD.m_nodes v).m_bVisited = true ↔
        (v = grid3.m_nodeStart ∨ ∃ p, Joined grid3 v p)) ∧
      (∀ v, (readNode rA.m_nodes v).m_bVisited = (readNode rD.m_nodes v).m_bVisited) ∧
      (∀ v, (readNode grid3.m_nodes v).m_bObstacle = true → v ≠ grid3.m_nodeStart →
        (readNode rA.m_nodes v).m_bVisited = false ∧
        (readNode rD.m_nodes v).m_bVisited = false) :=
  ⟨by decide, by decide, by decide,
    cost_searches_exhaust_frontier leastFirst grid3 (by decide) (by decide)⟩

end PathFinder
